import Mathlib

/-!
Verification development for the pre-migration analysis core of the
repo-importer project: the dead-code detector, the dependency-graph builder
with its cycle-tolerant topological migration order, the heuristic risk
scorer, the sandboxed execution engine and the output comparator.

Strings are embedded as `List Char` (Python `str` is a sequence of code
points and all operations used by the code are code-point based); byte
buffers as `List Nat`; Python `float` values are modelled as exact
rationals, with Python's banker's rounding (`round(x, n)`) embedded as
round-half-even on `ℚ`.
-/

namespace RepoImporter

/-- chars of a string literal, the `List Char` view used throughout. -/
def chars (s : String) : List Char := s.data

/-! ### Python `round`, embedded on `ℚ`

Python's `round` uses round-half-to-even. `round(x, 2)` and `round(x, 3)`
become `round2` and `round3`. -/

/-- Round-half-to-even of a rational to an integer, Python's `round(x)`. -/
def roundHalfEven (x : ℚ) : ℤ :=
  let f := ⌊x⌋
  let frac := x - f
  if frac < 1/2 then f
  else if frac > 1/2 then f + 1
  else if f % 2 = 0 then f else f + 1

/-- Python `round(x, 2)` on a rational. -/
def round2 (x : ℚ) : ℚ := (roundHalfEven (x * 100) : ℚ) / 100

/-- Python `round(x, 3)` on a rational. -/
def round3 (x : ℚ) : ℚ := (roundHalfEven (x * 1000) : ℚ) / 1000

theorem roundHalfEven_intCast (m : ℤ) : roundHalfEven (m : ℚ) = m := by
  unfold roundHalfEven
  norm_num

theorem roundHalfEven_nonneg {x : ℚ} (hx : 0 ≤ x) : 0 ≤ roundHalfEven x := by
  unfold roundHalfEven
  have h0 : (0 : ℤ) ≤ ⌊x⌋ := Int.floor_nonneg.mpr hx
  dsimp only
  split
  · exact h0
  · split
    · omega
    · split <;> omega

theorem roundHalfEven_le_floor_add_one (x : ℚ) : roundHalfEven x ≤ ⌊x⌋ + 1 := by
  unfold roundHalfEven
  dsimp only
  split
  · omega
  · split
    · omega
    · split <;> omega

theorem roundHalfEven_le_of_le {x : ℚ} {m : ℤ} (hx : x ≤ m) : roundHalfEven x ≤ m := by
  rcases eq_or_lt_of_le hx with h | h
  · have : x = ((m : ℤ) : ℚ) := h
    rw [this, roundHalfEven_intCast]
  · have hfl : ⌊x⌋ < m := Int.floor_lt.mpr h
    have := roundHalfEven_le_floor_add_one x
    omega

/-! ### Stable sort (Python `sorted` / `list.sort`)

Python's sort is stable; an insertion sort that inserts after equal keys
is stable and produces the same list for any stable comparison sort. -/

/-- Insert `x` into `l`, after every element `y` with `le y x`. -/
def insertSorted (le : α → α → Bool) (x : α) : List α → List α
  | [] => [x]
  | y :: ys => if le y x then y :: insertSorted le x ys else x :: y :: ys

/-- Stable sort by `le`; model of Python `sorted(l, key=...)`. -/
def pySorted (le : α → α → Bool) (l : List α) : List α :=
  l.foldl (fun acc x => insertSorted le x acc) []

theorem insertSorted_perm (le : α → α → Bool) (x : α) (l : List α) :
    List.Perm (insertSorted le x l) (x :: l) := by
  induction l with
  | nil => simp [insertSorted]
  | cons y ys ih =>
    simp only [insertSorted]
    split
    · exact ((ih.cons y).trans (List.Perm.swap x y ys))
    · exact List.Perm.refl _

theorem pySorted_perm (le : α → α → Bool) (l : List α) :
    List.Perm (pySorted le l) l := by
  suffices h : ∀ acc : List α, List.Perm (List.foldl (fun acc x => insertSorted le x acc) acc l) (acc ++ l) by
    simpa using h []
  induction l with
  | nil => intro acc; simp
  | cons x xs ih =>
    intro acc
    simp only [List.foldl_cons]
    refine (ih (insertSorted le x acc)).trans ?_
    have h1 : List.Perm (insertSorted le x acc) (x :: acc) := insertSorted_perm le x acc
    refine (h1.append_right xs).trans ?_
    have h2 : List.Perm (acc ++ x :: xs) (x :: (acc ++ xs)) :=
      @List.perm_middle _ x acc xs
    simpa using h2.symm

theorem insertSorted_sorted (le : α → α → Bool)
    (htot : ∀ a b, le a b || le b a)
    (htrans : ∀ a b c, le a b = true → le b c = true → le a c = true)
    (x : α) (l : List α)
    (hl : l.Pairwise (fun a b => le a b = true)) :
    (insertSorted le x l).Pairwise (fun a b => le a b = true) := by
  induction l with
  | nil => simp [insertSorted]
  | cons y ys ih =>
    simp only [insertSorted]
    rcases List.pairwise_cons.mp hl with ⟨hy, hys⟩
    split
    · rename_i hxy
      refine List.pairwise_cons.mpr ⟨?_, ih hys⟩
      intro z hz
      have := (insertSorted_perm le x ys).mem_iff.mp hz
      rcases List.mem_cons.mp this with h | h
      · subst h; exact hxy
      · exact hy z h
    · rename_i hxy
      have hyx : le x y := by
        have := htot x y
        rcases Bool.or_eq_true_iff.mp this with h' | h'
        · exact h'
        · exact absurd h' (by simpa using hxy)
      refine List.pairwise_cons.mpr ⟨?_, hl⟩
      intro z hz
      rcases List.mem_cons.mp hz with h | h
      · subst h; exact hyx
      · exact htrans x y z hyx (hy z h)

theorem pySorted_sorted (le : α → α → Bool)
    (htot : ∀ a b, le a b || le b a)
    (htrans : ∀ a b c, le a b = true → le b c = true → le a c = true)
    (l : List α) :
    (pySorted le l).Pairwise (fun a b => le a b = true) := by
  suffices h : ∀ acc : List α, acc.Pairwise (fun a b => le a b = true) →
      (List.foldl (fun acc x => insertSorted le x acc) acc l).Pairwise (fun a b => le a b = true) by
    exact h [] (by simp)
  induction l with
  | nil => intro acc hacc; simpa using hacc
  | cons x xs ih =>
    intro acc hacc
    simp only [List.foldl_cons]
    exact ih _ (insertSorted_sorted le htot htrans x acc hacc)

theorem pySorted_mem (le : α → α → Bool) (l : List α) (x : α) :
    x ∈ pySorted le l ↔ x ∈ l :=
  (pySorted_perm le l).mem_iff

/-! ## Sandboxed execution engine (src/app/services/code_executor.py)

`execute_python` spawns `interpreter code_path` and supervises it.  The
OS-level interaction (spawn, communicate, wall-clock race, process-group
kill, drain) is abstracted into one `SpawnOutcome` value describing which
of the code's control-flow paths the interaction took; `executePython`
is the translation of the function body over that outcome.  Every path of
the Python function returns an `ExecutionResult` (the `except` clauses
catch `FileNotFoundError`, `OSError`, `asyncio.TimeoutError`, and the
drain catches every exception), which is why the embedding is a total
function into `ExecutionResult`. -/

/-- Model of `app.models.schemas.ExecutionResult`. `stdout`/`stderr` hold
the permissively decoded text. -/
structure ExecutionResult where
  exit_code : Option Int
  stdout : List Char
  stderr : List Char
  execution_time_ms : ℚ
  timed_out : Bool
  truncated : Bool
deriving DecidableEq

/-- Abstract outcome of the spawn/communicate interaction inside
`execute_python`, one constructor per control-flow path of the source:
`fileNotFound` for the `except FileNotFoundError` path, `osFailure` for
`except OSError`, `completed` for a normal `communicate` return, and
`wallTimeout` for the `asyncio.TimeoutError` path (where `drain` is the
result of the bounded post-kill `communicate`, `none` when that drain
itself failed and the code falls back to empty buffers). -/
inductive SpawnOutcome where
  | fileNotFound (elapsedMs : ℚ)
  | osFailure (msg : List Char) (elapsedMs : ℚ)
  | completed (stdoutBytes stderrBytes : List Nat) (returncode : Int) (elapsedMs : ℚ)
  | wallTimeout (drain : Option (List Nat × List Nat)) (returncodeAfter : Option Int) (elapsedMs : ℚ)

/-- Truncation of one captured stream: `if len(bytes) > max_output:
bytes = bytes[:max_output]; truncated = True`. -/
def truncateStream (maxOutput : Nat) (bs : List Nat) : List Nat × Bool :=
  if bs.length > maxOutput then (bs.take maxOutput, true) else (bs, false)

/-- One step of permissive UTF-8 decoding: given a lead byte `b` and the
bytes after it, produce the decoded character (U+FFFD on error, consuming
the maximal valid prefix of the attempted sequence) and the remaining
bytes. -/
def utf8Step (b : Nat) (rest : List Nat) : Char × List Nat :=
  if b < 0x80 then (Char.ofNat b, rest)
  else if 0xC2 ≤ b ∧ b ≤ 0xDF then
    match rest with
    | c :: r2 =>
      if 0x80 ≤ c ∧ c ≤ 0xBF then
        (Char.ofNat ((b - 0xC0) * 64 + (c - 0x80)), r2)
      else ('�', c :: r2)
    | [] => ('�', [])
  else if 0xE0 ≤ b ∧ b ≤ 0xEF then
    match rest with
    | c :: r2 =>
      if (if b = 0xE0 then 0xA0 ≤ c ∧ c ≤ 0xBF
          else if b = 0xED then 0x80 ≤ c ∧ c ≤ 0x9F
          else 0x80 ≤ c ∧ c ≤ 0xBF) then
        match r2 with
        | d :: r3 =>
          if 0x80 ≤ d ∧ d ≤ 0xBF then
            (Char.ofNat ((b - 0xE0) * 4096 + (c - 0x80) * 64 + (d - 0x80)), r3)
          else ('�', d :: r3)
        | [] => ('�', [])
      else ('�', c :: r2)
    | [] => ('�', [])
  else if 0xF0 ≤ b ∧ b ≤ 0xF4 then
    match rest with
    | c :: r2 =>
      if (if b = 0xF0 then 0x90 ≤ c ∧ c ≤ 0xBF
          else if b = 0xF4 then 0x80 ≤ c ∧ c ≤ 0x8F
          else 0x80 ≤ c ∧ c ≤ 0xBF) then
        match r2 with
        | d :: r3 =>
          if 0x80 ≤ d ∧ d ≤ 0xBF then
            match r3 with
            | e :: r4 =>
              if 0x80 ≤ e ∧ e ≤ 0xBF then
                (Char.ofNat ((b - 0xF0) * 262144 + (c - 0x80) * 4096 +
                  (d - 0x80) * 64 + (e - 0x80)), r4)
              else ('�', e :: r4)
            | [] => ('�', [])
          else ('�', d :: r3)
        | [] => ('�', [])
      else ('�', c :: r2)
    | [] => ('�', [])
  else ('�', rest)

theorem utf8Step_length (b : Nat) (rest : List Nat) :
    (utf8Step b rest).2.length ≤ rest.length := by
  unfold utf8Step
  repeat' split
  all_goals simp_all
  all_goals omega

/-- Fuelled decoding loop; the fuel is only a structural-recursion
device, `utf8DecodeReplace` supplies enough for the whole input. -/
def utf8DecodeReplaceF : Nat → List Nat → List Char
  | 0, _ => []
  | _ + 1, [] => []
  | fuel + 1, b :: rest =>
    let s := utf8Step b rest
    s.1 :: utf8DecodeReplaceF fuel s.2

theorem utf8DecodeReplaceF_congr :
    ∀ (fuel fuel' : Nat) (l : List Nat), l.length ≤ fuel → l.length ≤ fuel' →
      utf8DecodeReplaceF fuel l = utf8DecodeReplaceF fuel' l := by
  intro fuel
  induction fuel with
  | zero =>
    intro fuel' l h h'
    have : l = [] := List.length_eq_zero.mp (Nat.le_zero.mp h)
    subst this
    cases fuel' <;> rfl
  | succ f ih =>
    intro fuel' l h h'
    cases l with
    | nil => cases fuel' <;> rfl
    | cons b rest =>
      cases fuel' with
      | zero => simp at h'
      | succ f' =>
        simp only [utf8DecodeReplaceF]
        have hlen := utf8Step_length b rest
        simp only [List.length_cons] at h h'
        rw [ih f' (utf8Step b rest).2 (by omega) (by omega)]

/-- Permissive UTF-8 decoding, `bytes.decode("utf-8", errors="replace")`. -/
def utf8DecodeReplace (l : List Nat) : List Char :=
  utf8DecodeReplaceF l.length l

/-- Common tail of `execute_python`: truncate both captured streams at
`max_output`, decode permissively, round the elapsed milliseconds. -/
def finishExecution (rc : Option Int) (outBytes errBytes : List Nat)
    (elapsedMs : ℚ) (timedOut : Bool) (maxOutput : Nat) : ExecutionResult :=
  let outT := truncateStream maxOutput outBytes
  let errT := truncateStream maxOutput errBytes
  { exit_code := rc
    stdout := utf8DecodeReplace outT.1
    stderr := utf8DecodeReplace errT.1
    execution_time_ms := round2 elapsedMs
    timed_out := timedOut
    truncated := outT.2 || errT.2 }

/-- Translation of `execute_python` over the abstracted OS interaction.
`interpreter` only feeds the error message; `maxOutput` is `max_output`. -/
def executePython (interpreter : List Char) (maxOutput : Nat)
    (outcome : SpawnOutcome) : ExecutionResult :=
  match outcome with
  | .fileNotFound elapsed =>
      { exit_code := none
        stdout := []
        stderr := chars "Interpreter not found: " ++ interpreter
        execution_time_ms := round2 elapsed
        timed_out := false
        truncated := false }
  | .osFailure msg elapsed =>
      { exit_code := none
        stdout := []
        stderr := chars "Failed to start process: " ++ msg
        execution_time_ms := round2 elapsed
        timed_out := false
        truncated := false }
  | .completed outB errB rc elapsed =>
      finishExecution (some rc) outB errB elapsed false maxOutput
  | .wallTimeout drain rcAfter elapsed =>
      let buf := drain.getD ([], [])
      finishExecution rcAfter buf.1 buf.2 elapsed true maxOutput

/-- C2: for every call to `execute_python`, an expected execution failure
never raises: a missing interpreter or spawn failure returns an
`ExecutionResult` with an absent exit code and an explanatory stderr
message, and wall-clock timeout expiry returns an `ExecutionResult` with
`timed_out = true`.  `executePython` being a total function into
`ExecutionResult` over every control-flow path of the source is the
"represented as result data rather than a thrown error" part. -/
theorem claim_C2_expected_failures_are_result_data :
    (∀ (interp : List Char) (maxO : Nat) (e : ℚ),
      (executePython interp maxO (.fileNotFound e)).exit_code = none ∧
      (executePython interp maxO (.fileNotFound e)).stderr =
        chars "Interpreter not found: " ++ interp ∧
      (executePython interp maxO (.fileNotFound e)).timed_out = false) ∧
    (∀ (interp msg : List Char) (maxO : Nat) (e : ℚ),
      (executePython interp maxO (.osFailure msg e)).exit_code = none ∧
      (executePython interp maxO (.osFailure msg e)).stderr =
        chars "Failed to start process: " ++ msg ∧
      (executePython interp maxO (.osFailure msg e)).timed_out = false) ∧
    (∀ (interp : List Char) (maxO : Nat)
      (drain : Option (List Nat × List Nat)) (rcAfter : Option Int) (e : ℚ),
      (executePython interp maxO (.wallTimeout drain rcAfter e)).timed_out = true) := by
  refine ⟨?_, ?_, ?_⟩ <;> intros <;>
    simp [executePython, finishExecution]

/-- C3: when the captured stdout exceeds `max_output` bytes the result is
flagged `truncated = true` and its stdout is the permissive decoding of
exactly the first `max_output` bytes (so the retained payload is exactly
`max_output` bytes long); stderr is truncated independently under the
same limit. -/
theorem claim_C3_output_truncation (interp : List Char) (maxO : Nat)
    (outB errB : List Nat) (rc : Int) (e : ℚ)
    (h : outB.length > maxO) :
    (executePython interp maxO (.completed outB errB rc e)).truncated = true ∧
    (executePython interp maxO (.completed outB errB rc e)).stdout =
      utf8DecodeReplace (outB.take maxO) ∧
    (outB.take maxO).length = maxO ∧
    (errB.length > maxO →
      (executePython interp maxO (.completed outB errB rc e)).stderr =
        utf8DecodeReplace (errB.take maxO) ∧ (errB.take maxO).length = maxO) := by
  refine ⟨?_, ?_, ?_, ?_⟩
  · simp [executePython, finishExecution, truncateStream, h]
  · simp [executePython, finishExecution, truncateStream, h]
  · simp [List.length_take]; omega
  · intro herr
    constructor
    · simp [executePython, finishExecution, truncateStream, herr]
    · simp [List.length_take]; omega

/-- Witness for C3 at a concrete oversized output. -/
theorem claim_C3_output_truncation_witness :
    ([65, 66, 67] : List Nat).length > 2 ∧
    ((executePython (chars "python3") 2 (.completed [65, 66, 67] [] 0 0)).truncated = true ∧
    (executePython (chars "python3") 2 (.completed [65, 66, 67] [] 0 0)).stdout =
      utf8DecodeReplace (([65, 66, 67] : List Nat).take 2) ∧
    (([65, 66, 67] : List Nat).take 2).length = 2 ∧
    (([] : List Nat).length > 2 →
      (executePython (chars "python3") 2 (.completed [65, 66, 67] [] 0 0)).stderr =
        utf8DecodeReplace (([] : List Nat).take 2) ∧ (([] : List Nat).take 2).length = 2)) :=
  ⟨by decide, claim_C3_output_truncation (chars "python3") 2 [65, 66, 67] [] 0 0 (by decide)⟩

/-! ## Dead code detector (src/app/services/analyzers/dead_code.py)

Pass 1 (`_analyze_file`, an AST walk) is abstracted into its result: per
file, the collected `_Definition`s, the set of reference names (each name
is recorded by the walk in both bare form and file-qualified form
`rel_path:name`, which `qualifyRefs` reproduces), and the `_Import`
records.  Pass 2 (`detect_dead_code` lines 40-85) is translated
literally. -/

/-- Model of `dead_code._Definition`. -/
structure PyDefinition where
  name : List Char
  kind : List Char
  line_start : Nat
  line_end : Nat
deriving DecidableEq

/-- Model of `dead_code._Import`. -/
structure PyImportRecord where
  name : List Char
  line : Nat
deriving DecidableEq

/-- Result of `_analyze_file` on one parsed file: definitions, the bare
reference names collected by the AST walk, and import records.  (A parse
failure is modelled by the file simply being absent from the project
list, matching the `continue` on `SyntaxError`.) -/
structure FileAnalysis where
  defs : List PyDefinition
  refNames : List (List Char)
  imports : List PyImportRecord
deriving DecidableEq

/-- Model of `app.models.schemas.DeadCodeItem`. -/
structure DeadCodeItem where
  file_path : List Char
  name : List Char
  kind : List Char
  line_start : Nat
  line_end : Nat
  reason : List Char
  lines_saved : Int
deriving DecidableEq

/-- Python `str.title()` on the ASCII names used here: uppercase a letter
after a non-letter, lowercase the others. -/
def pyTitleGo (prevAlpha : Bool) : List Char → List Char
  | [] => []
  | c :: rest =>
    if c.isAlpha then
      (if prevAlpha then c.toLower else c.toUpper) :: pyTitleGo true rest
    else c :: pyTitleGo false rest

/-- Python `str.title()`. -/
def pyTitle (s : List Char) : List Char := pyTitleGo false s

/-- The reference set contributed by one file: for every name collected
by the walk, both the bare form and the file-qualified `rel_path:name`
form (`refs.add(node.id)` / `refs.add(f"{rel_path}:{node.id}")`). -/
def qualifyRefs (path : List Char) (names : List (List Char)) : List (List Char) :=
  names.flatMap (fun r => [r, path ++ ':' :: r])

/-- The project-wide `all_references` set. -/
def allReferences (project : List (List Char × FileAnalysis)) : List (List Char) :=
  project.flatMap (fun pf => qualifyRefs pf.1 pf.2.refNames)

/-- Model of `dead_code._is_entrypoint`. -/
def isEntrypointDef (d : PyDefinition) : Bool :=
  (d.name ∈ [chars "main", chars "setup", chars "teardown", chars "run",
    chars "cli", chars "app", chars "create_app"]) ||
  (chars "__").isPrefixOf d.name ||
  (chars "test_").isPrefixOf d.name

/-- Dead findings produced by the definitions loop of `detect_dead_code`
(lines 43-67). -/
def deadDefItems (project : List (List Char × FileAnalysis)) : List DeadCodeItem :=
  project.flatMap fun pf =>
    pf.2.defs.filterMap fun d =>
      if (chars "_").isPrefixOf d.name ∧ ¬ (chars "__").isPrefixOf d.name then
        -- private names: only need to be referenced, file-qualified,
        -- in the same file
        if ((allReferences project).filter
            (fun r => (pf.1 ++ [':']).isPrefixOf r)).any
            (fun r => (':' :: d.name).isSuffixOf r) then none
        else some
          { file_path := pf.1
            name := d.name
            kind := d.kind
            line_start := d.line_start
            line_end := d.line_end
            reason := chars "Private " ++ d.kind ++ chars " '" ++ d.name ++
              chars "' is never referenced in its file"
            lines_saved := (d.line_end : Int) - d.line_start + 1 }
      else if d.name ∉ allReferences project ∧ ¬ isEntrypointDef d then
        some
          { file_path := pf.1
            name := d.name
            kind := d.kind
            line_start := d.line_start
            line_end := d.line_end
            reason := pyTitle d.kind ++ chars " '" ++ d.name ++
              chars "' is defined but never used anywhere in the project"
            lines_saved := (d.line_end : Int) - d.line_start + 1 }
      else none

/-- Dead findings produced by the unused-imports loop of
`detect_dead_code` (lines 69-83). -/
def deadImportItems (project : List (List Char × FileAnalysis)) : List DeadCodeItem :=
  project.flatMap fun pf =>
    pf.2.imports.filterMap fun imp =>
      if ¬ ((allReferences project).filter
            (fun r => (pf.1 ++ [':']).isPrefixOf r)).any
            (fun r => (':' :: imp.name).isSuffixOf r) ∧
          imp.name ∉ allReferences project then
        some
          { file_path := pf.1
            name := imp.name
            kind := chars "import"
            line_start := imp.line
            line_end := imp.line
            reason := chars "Import '" ++ imp.name ++ chars "' is never used"
            lines_saved := 1 }
      else none

/-- Model of `detect_dead_code`: the definitions loop followed by the
imports loop. -/
def detectDeadCode (project : List (List Char × FileAnalysis)) : List DeadCodeItem :=
  deadDefItems project ++ deadImportItems project

/-- Two-file project refuting C1: `a.py` defines `_helper` and never
references it, `b.py` references the bare name `_helper`. -/
def deadCodeCounterProject : List (List Char × FileAnalysis) :=
  [ (chars "a.py",
     { defs := [{ name := chars "_helper", kind := chars "function",
                  line_start := 1, line_end := 2 }]
       refNames := []
       imports := [] }),
    (chars "b.py",
     { defs := []
       refNames := [chars "_helper"]
       imports := [] }) ]

/-- C1 (counterexample): the bare name `_helper` appears as a bare
reference in the project (from `b.py`), yet `detect_dead_code` still
flags the definition `_helper` of `a.py` as dead, because the
private-name branch only looks for file-qualified references inside the
defining file.  This refutes "never marks as dead anything matched by
name anywhere in the project, even outside its defining scope, including
single-leading-underscore private names". -/
theorem claim_C1_counterexample :
    chars "_helper" ∈ allReferences deadCodeCounterProject ∧
    (detectDeadCode deadCodeCounterProject).any
      (fun it => it.name == chars "_helper" && it.file_path == chars "a.py") = true := by
  decide

/-- C1 (amended): for every definition kind other than
single-leading-underscore private names, no definition (and no import)
whose bare name appears anywhere in the project-wide reference set is
ever flagged dead; private names are instead flagged unless referenced,
file-qualified, within their own file. -/
theorem claim_C1_amended (project : List (List Char × FileAnalysis))
    (name : List Char)
    (h1 : name ∈ allReferences project)
    (h2 : ¬ ((chars "_").isPrefixOf name ∧ ¬ (chars "__").isPrefixOf name)) :
    ∀ it ∈ detectDeadCode project, it.name ≠ name := by
  intro it hit heq
  rcases List.mem_append.mp hit with h | h
  · rw [deadDefItems, List.mem_flatMap] at h
    obtain ⟨pf, hpf, hmem⟩ := h
    rw [List.mem_filterMap] at hmem
    obtain ⟨d, hd, hsome⟩ := hmem
    by_cases hp : (chars "_").isPrefixOf d.name ∧ ¬ (chars "__").isPrefixOf d.name
    · rw [if_pos hp] at hsome
      split at hsome
      · exact Option.noConfusion hsome
      · have hn : it.name = d.name := by
          have := Option.some.inj hsome
          rw [← this]
        rw [hn] at heq
        rw [heq] at hp
        exact h2 hp
    · rw [if_neg hp] at hsome
      split at hsome
      · rename_i hr
        have hn : it.name = d.name := by
          have := Option.some.inj hsome
          rw [← this]
        rw [hn] at heq
        rw [heq] at hr
        exact hr.1 h1
      · exact Option.noConfusion hsome
  · rw [deadImportItems, List.mem_flatMap] at h
    obtain ⟨pf, hpf, hmem⟩ := h
    rw [List.mem_filterMap] at hmem
    obtain ⟨imp, himp, hsome⟩ := hmem
    split at hsome
    · rename_i hr
      have hn : it.name = imp.name := by
        have := Option.some.inj hsome
        rw [← this]
      rw [hn] at heq
      rw [heq] at hr
      exact hr.2 h1
    · exact Option.noConfusion hsome

/-- Witness for the amended C1: a project where `foo` is defined in one
file and referenced bare in another is never flagged. -/
def deadCodeLiveProject : List (List Char × FileAnalysis) :=
  [ (chars "a.py",
     { defs := [{ name := chars "foo", kind := chars "function",
                  line_start := 1, line_end := 3 }]
       refNames := []
       imports := [] }),
    (chars "b.py",
     { defs := []
       refNames := [chars "foo"]
       imports := [] }) ]

/-- Witness applying `claim_C1_amended` at a concrete project. -/
theorem claim_C1_amended_witness :
    chars "foo" ∈ allReferences deadCodeLiveProject ∧
    ¬ ((chars "_").isPrefixOf (chars "foo") ∧
        ¬ (chars "__").isPrefixOf (chars "foo")) ∧
    ∀ it ∈ detectDeadCode deadCodeLiveProject, it.name ≠ chars "foo" :=
  ⟨by decide, by decide,
    claim_C1_amended deadCodeLiveProject (chars "foo") (by decide) (by decide)⟩

/-! ## Risk assessor (src/app/services/analyzers/risk_assessor.py)

The per-file signal extraction (regex scans over the source text, the AST
walk of `_check_dynamic_features`, `_has_test_file`) is abstracted into a
`RiskInput` record carrying its results: the description lists returned
by `_scan_patterns` for the three pattern catalogues, the line count, the
fan-out, the sequence of dynamic-feature AST hits in walk order (`none`
when `ast.parse` raises `SyntaxError`), and the test-file result.  The
scoring pipeline, classification and sorting are translated exactly;
float literals become exact rationals. -/

/-- Model of `schemas.RiskLevel`. -/
inductive RiskLevel where
  | low | medium | high | critical
deriving DecidableEq

/-- Model of `schemas.ConfidenceTier`. -/
inductive ConfidenceTier where
  | tier1Auto | tier2Spot | tier3Review | tier4Manual
deriving DecidableEq

/-- One dynamic-feature hit seen by the AST walk of
`_check_dynamic_features`, in walk order. -/
inductive DynEvent where
  | evalHit | execHit | attrHit | importHit
deriving DecidableEq

/-- Abstracted per-file signals feeding `assess_risks`. -/
structure RiskInput where
  path : List Char
  py2Descs : List (List Char)
  semanticDescs : List (List Char)
  positiveDescs : List (List Char)
  lines : Nat
  fanOut : Nat
  parsed : Option (List DynEvent)
  hasTests : Bool
deriving DecidableEq

/-- Model of `schemas.RiskAssessment`. -/
structure RiskAssessment where
  file_path : List Char
  risk_level : RiskLevel
  risk_score : ℚ
  factors : List (List Char)
  test_coverage_estimate : List Char
  semantic_complexity : List Char
  recommended_tier : ConfidenceTier
deriving DecidableEq

/-- Python `needle in hay` on strings: substring containment. -/
def strContains (needle : List Char) : List Char → Bool
  | [] => needle.isEmpty
  | c :: rest => needle.isPrefixOf (c :: rest) || strContains needle rest

/-- One loop iteration of `_check_dynamic_features`, with the
consecutive-deduplication guard on dynamic attribute access
(`if not factors or "dynamic attribute" not in factors[-1]`). -/
def dynStep (acc : ℚ × List (List Char)) (ev : DynEvent) : ℚ × List (List Char) :=
  match ev with
  | .evalHit => (acc.1 + 15/100, acc.2 ++ [chars "Uses eval()"])
  | .execHit => (acc.1 + 15/100, acc.2 ++ [chars "Uses exec()"])
  | .attrHit =>
      if acc.2 = [] ∨ ¬ strContains (chars "dynamic attribute") (acc.2.getLastD []) then
        (acc.1 + 5/100, acc.2 ++ [chars "Uses dynamic attribute access"])
      else acc
  | .importHit => (acc.1 + 10/100, acc.2 ++ [chars "Uses __import__() (dynamic imports)"])

/-- Model of `_check_dynamic_features`: fold over the walk's hits,
capping the score at 0.3. -/
def checkDynamicFeatures (events : List DynEvent) : ℚ × List (List Char) :=
  let res := events.foldl dynStep ((0 : ℚ), ([] : List (List Char)))
  (min res.1 (3/10), res.2)

/-- The additive risk score of one file, clamped to at most 1 at the
end; the pipeline of `assess_risks` lines 67-119. -/
def riskScoreRaw (inp : RiskInput) : ℚ :=
  let s1 : ℚ := if inp.py2Descs ≠ [] then
    min ((inp.py2Descs.length : ℚ) * (8/100)) (3/10) else 0
  let s2 := s1 + (if inp.semanticDescs ≠ [] then
    min ((inp.semanticDescs.length : ℚ) * (12/100)) (35/100) else 0)
  let s3 := if inp.positiveDescs ≠ [] then max (s2 - 5/100) 0 else s2
  let s4 := s3 + (if inp.lines > 1000 then 1/10 else if inp.lines > 500 then 5/100 else 0)
  let s5 := s4 + (if inp.fanOut > 5 then 15/100 else if inp.fanOut > 2 then 5/100 else 0)
  let s6 := s5 + (match inp.parsed with
    | some evs => (checkDynamicFeatures evs).1
    | none => 2/10)
  let s7 := s6 + (if inp.hasTests then 0 else 1/10)
  min s7 1

/-- The evidence strings of one file, in the order `assess_risks`
appends them. -/
def riskFactors (inp : RiskInput) : List (List Char) :=
  (inp.py2Descs.map (fun d => chars "Py2 pattern: " ++ d)) ++
  (inp.semanticDescs.map (fun d => chars "Semantic risk: " ++ d)) ++
  (inp.positiveDescs.map (fun d => chars "Positive signal: " ++ d)) ++
  (if inp.lines > 1000 then
    [chars "Large file (" ++ chars (toString inp.lines) ++ chars " lines)"] else []) ++
  (if inp.fanOut > 5 then
    [chars "High dependency fan-out (" ++ chars (toString inp.fanOut) ++ chars " dependents)"]
   else if inp.fanOut > 2 then
    [chars "Moderate dependency fan-out (" ++ chars (toString inp.fanOut) ++ chars " dependents)"]
   else []) ++
  (match inp.parsed with
    | some evs => (checkDynamicFeatures evs).2
    | none => [chars "File has syntax errors (cannot parse AST)"]) ++
  (if inp.hasTests then [] else [chars "No corresponding test file found"])

/-- Model of `_score_to_level`. -/
def scoreToLevel (s : ℚ) : RiskLevel :=
  if s ≥ 7/10 then .critical
  else if s ≥ 45/100 then .high
  else if s ≥ 2/10 then .medium
  else .low

/-- Model of `_score_to_tier`. -/
def scoreToTier (s : ℚ) : ConfidenceTier :=
  if s ≥ 7/10 then .tier4Manual
  else if s ≥ 45/100 then .tier3Review
  else if s ≥ 2/10 then .tier2Spot
  else .tier1Auto

/-- Assessment of one file: classification on the unrounded score, the
reported score rounded to three decimals. -/
def assessFile (inp : RiskInput) : RiskAssessment :=
  let score := riskScoreRaw inp
  { file_path := inp.path
    risk_level := scoreToLevel score
    risk_score := round3 score
    factors := riskFactors inp
    test_coverage_estimate :=
      if inp.hasTests then chars "has_tests" else chars "no_tests_found"
    semantic_complexity :=
      if inp.semanticDescs ≠ [] ∨ score > 6/10 then chars "high"
      else if score > 3/10 then chars "medium" else chars "low"
    recommended_tier := scoreToTier score }

/-- Model of `assess_risks`: assess every file, then the stable
ascending sort by `risk_score`. -/
def assessRisks (inputs : List RiskInput) : List RiskAssessment :=
  pySorted (fun a b => decide (a.risk_score ≤ b.risk_score))
    (inputs.map assessFile)

theorem natDiv100_min (a b : ℕ) :
    min ((a : ℚ)/100) ((b : ℚ)/100) = ((min a b : ℕ) : ℚ)/100 := by
  rw [min_div_div_right (by norm_num : (0:ℚ) ≤ 100)]
  norm_cast

theorem natDiv100_subFive (k : ℕ) :
    max ((k : ℚ)/100 - 5/100) 0 = ((k - 5 : ℕ) : ℚ)/100 := by
  rcases le_total 5 k with h | h
  · rw [max_eq_left]
    · rw [Nat.cast_sub h]
      push_cast
      ring
    · have h5 : (5:ℚ) ≤ (k:ℚ) := by exact_mod_cast h
      linarith
  · rw [max_eq_right]
    · have h5 : k - 5 = 0 := by omega
      simp [h5]
    · have h5 : (k:ℚ) ≤ 5 := by exact_mod_cast h
      linarith

/-- Every intermediate risk score is a nonnegative integer number of
hundredths; this is what makes the 3-decimal rounding of the final score
the identity. -/
def Centi (x : ℚ) : Prop := ∃ k : ℕ, x = (k : ℚ)/100

theorem Centi.nonneg {x : ℚ} (h : Centi x) : 0 ≤ x := by
  obtain ⟨k, rfl⟩ := h; positivity

theorem Centi.add {x y : ℚ} (hx : Centi x) (hy : Centi y) : Centi (x + y) := by
  obtain ⟨a, rfl⟩ := hx; obtain ⟨b, rfl⟩ := hy
  exact ⟨a + b, by push_cast; ring⟩

theorem Centi.minQ {x y : ℚ} (hx : Centi x) (hy : Centi y) : Centi (min x y) := by
  obtain ⟨a, rfl⟩ := hx; obtain ⟨b, rfl⟩ := hy
  exact ⟨min a b, natDiv100_min a b⟩

theorem Centi.subFiveMax {x : ℚ} (hx : Centi x) : Centi (max (x - 5/100) 0) := by
  obtain ⟨a, rfl⟩ := hx
  exact ⟨a - 5, natDiv100_subFive a⟩

theorem Centi.iteQ {c : Prop} [Decidable c] {x y : ℚ}
    (hx : Centi x) (hy : Centi y) : Centi (if c then x else y) := by
  split <;> assumption

theorem round3_of_centi {x : ℚ} (h : Centi x) : round3 x = x := by
  obtain ⟨k, rfl⟩ := h
  unfold round3
  have h1 : ((k:ℚ)/100) * 1000 = ((10 * k : ℕ) : ℤ) := by push_cast; ring
  rw [h1, roundHalfEven_intCast]
  push_cast; ring

theorem dynFold_centi (events : List DynEvent) :
    ∀ acc : ℚ × List (List Char), Centi acc.1 →
      Centi (events.foldl dynStep acc).1 := by
  induction events with
  | nil => intro acc h; simpa using h
  | cons ev evs ih =>
    intro acc h
    simp only [List.foldl_cons]
    apply ih
    cases ev <;> simp only [dynStep]
    · exact Centi.add h ⟨15, by norm_num⟩
    · exact Centi.add h ⟨15, by norm_num⟩
    · split
      · exact Centi.add h ⟨5, by norm_num⟩
      · exact h
    · exact Centi.add h ⟨10, by norm_num⟩

theorem checkDynamicFeatures_centi (events : List DynEvent) :
    Centi (checkDynamicFeatures events).1 := by
  unfold checkDynamicFeatures
  exact Centi.minQ (dynFold_centi events (0, []) ⟨0, by norm_num⟩) ⟨30, by norm_num⟩

theorem riskScoreRaw_centi (inp : RiskInput) : Centi (riskScoreRaw inp) := by
  have h1 : Centi (if inp.py2Descs ≠ [] then
      min ((inp.py2Descs.length : ℚ) * (8/100)) (3/10) else 0) :=
    Centi.iteQ
      (Centi.minQ ⟨8 * inp.py2Descs.length, by push_cast; ring⟩ ⟨30, by norm_num⟩)
      ⟨0, by norm_num⟩
  have h2 : Centi (if inp.semanticDescs ≠ [] then
      min ((inp.semanticDescs.length : ℚ) * (12/100)) (35/100) else 0) :=
    Centi.iteQ
      (Centi.minQ ⟨12 * inp.semanticDescs.length, by push_cast; ring⟩ ⟨35, by norm_num⟩)
      ⟨0, by norm_num⟩
  have h12 := Centi.add h1 h2
  have h3 : Centi (if inp.positiveDescs ≠ [] then
      max (((if inp.py2Descs ≠ [] then
          min ((inp.py2Descs.length : ℚ) * (8/100)) (3/10) else 0) +
        (if inp.semanticDescs ≠ [] then
          min ((inp.semanticDescs.length : ℚ) * (12/100)) (35/100) else 0)) - 5/100) 0
      else ((if inp.py2Descs ≠ [] then
          min ((inp.py2Descs.length : ℚ) * (8/100)) (3/10) else 0) +
        (if inp.semanticDescs ≠ [] then
          min ((inp.semanticDescs.length : ℚ) * (12/100)) (35/100) else 0))) :=
    Centi.iteQ (Centi.subFiveMax h12) h12
  have h4 : Centi (if inp.lines > 1000 then (1:ℚ)/10
      else if inp.lines > 500 then 5/100 else 0) :=
    Centi.iteQ ⟨10, by norm_num⟩ (Centi.iteQ ⟨5, by norm_num⟩ ⟨0, by norm_num⟩)
  have h5 : Centi (if inp.fanOut > 5 then (15:ℚ)/100
      else if inp.fanOut > 2 then 5/100 else 0) :=
    Centi.iteQ ⟨15, by norm_num⟩ (Centi.iteQ ⟨5, by norm_num⟩ ⟨0, by norm_num⟩)
  have h7 : Centi (if inp.hasTests = true then (0:ℚ) else 1/10) :=
    Centi.iteQ ⟨0, by norm_num⟩ ⟨10, by norm_num⟩
  cases hp : inp.parsed with
  | none =>
    simp only [riskScoreRaw, hp]
    exact Centi.minQ
      (Centi.add (Centi.add (Centi.add (Centi.add h3 h4) h5) ⟨20, by norm_num⟩) h7)
      ⟨100, by norm_num⟩
  | some evs =>
    simp only [riskScoreRaw, hp]
    exact Centi.minQ
      (Centi.add (Centi.add (Centi.add (Centi.add h3 h4) h5)
        (checkDynamicFeatures_centi evs)) h7)
      ⟨100, by norm_num⟩

theorem riskScoreRaw_le_one (inp : RiskInput) : riskScoreRaw inp ≤ 1 := by
  simp only [riskScoreRaw]
  exact min_le_right _ _

/-- C9: every returned `risk_score` lies in `[0, 1]`; `risk_level` and
`recommended_tier` are determined from the score by the fixed thresholds
(`≥ 0.7` critical/manual, `≥ 0.45` high/review, `≥ 0.2`
medium/spot-check, else low/auto); and the returned list is sorted
ascending by `risk_score`.  (Every score is a whole number of
hundredths, so the 3-decimal rounding of the reported score is the
identity and classification on the internal score agrees with
classification on the reported one.) -/
theorem claim_C9_risk_scores (inputs : List RiskInput) :
    (∀ r ∈ assessRisks inputs,
      0 ≤ r.risk_score ∧ r.risk_score ≤ 1 ∧
      r.risk_level = scoreToLevel r.risk_score ∧
      r.recommended_tier = scoreToTier r.risk_score) ∧
    (assessRisks inputs).Pairwise (fun a b => a.risk_score ≤ b.risk_score) := by
  constructor
  · intro r hr
    rw [assessRisks, pySorted_mem] at hr
    obtain ⟨inp, hinp, rfl⟩ := List.mem_map.mp hr
    have hc := riskScoreRaw_centi inp
    have hfix : round3 (riskScoreRaw inp) = riskScoreRaw inp := round3_of_centi hc
    have hscore : (assessFile inp).risk_score = riskScoreRaw inp := by
      simp only [assessFile]
      exact hfix
    refine ⟨?_, ?_, ?_, ?_⟩
    · rw [hscore]; exact hc.nonneg
    · rw [hscore]; exact riskScoreRaw_le_one inp
    · rw [hscore]
      simp only [assessFile]
    · rw [hscore]
      simp only [assessFile]
  · have h := pySorted_sorted
      (fun a b : RiskAssessment => decide (a.risk_score ≤ b.risk_score))
      (fun a b => by simpa using le_total a.risk_score b.risk_score)
      (fun a b c hab hbc => by
        simp only [decide_eq_true_eq] at hab hbc ⊢
        exact hab.trans hbc)
      (inputs.map assessFile)
    rw [assessRisks]
    exact h.imp (fun hab => by simpa using hab)

/-- Concrete input for the C9 witness. -/
def riskWitnessInput : RiskInput :=
  { path := chars "m.py"
    py2Descs := [chars "xrange (removed)"]
    semanticDescs := []
    positiveDescs := []
    lines := 10
    fanOut := 0
    parsed := some []
    hasTests := true }

/-- Witness instantiating C9 at a concrete one-file project. -/
theorem claim_C9_risk_scores_witness :
    (∀ r ∈ assessRisks [riskWitnessInput],
      0 ≤ r.risk_score ∧ r.risk_score ≤ 1 ∧
      r.risk_level = scoreToLevel r.risk_score ∧
      r.recommended_tier = scoreToTier r.risk_score) ∧
    (assessRisks [riskWitnessInput]).Pairwise
      (fun a b => a.risk_score ≤ b.risk_score) :=
  claim_C9_risk_scores [riskWitnessInput]

/-! ## Dependency graph builder (src/app/services/analyzers/dependency_graph.py)

Python dicts are embedded as insertion-ordered association lists with
unique keys (`alGet`/`alSet`), Python sets stored in dict values as
duplicate-free lists (`setAdd`).  The per-file AST walk is abstracted
into the list of import target names each file contains (`none` for a
file whose `ast.parse` raises and which is skipped); everything from
`_build_module_map` on is translated directly.  The iteration order of
Python's `set` of files is arbitrary, so the embedding takes the file
enumeration as a list and the theorems quantify over it. -/

/-- Lookup in an association list, first match (Python `dict[k]`). -/
def alGet [DecidableEq κ] : List (κ × ν) → κ → Option ν
  | [], _ => none
  | (k', v) :: rest, k => if k' = k then some v else alGet rest k

/-- Lookup with default (Python `dict.get(k, d)`). -/
def alGetD [DecidableEq κ] (l : List (κ × ν)) (k : κ) (d : ν) : ν :=
  (alGet l k).getD d

/-- Update-or-append (Python `dict[k] = v`): replaces the binding of an
existing key in place, appends a new key at the end, preserving dict
insertion order. -/
def alSet [DecidableEq κ] : List (κ × ν) → κ → ν → List (κ × ν)
  | [], k, v => [(k, v)]
  | (k', v') :: rest, k, v =>
    if k' = k then (k, v) :: rest else (k', v') :: alSet rest k v

/-- Python `set.add` on a set stored as a duplicate-free list. -/
def setAdd [DecidableEq α] (l : List α) (x : α) : List α :=
  if x ∈ l then l else l ++ [x]

/-- Model of `schemas.DependencyNode`. -/
structure DependencyNode where
  file_path : List Char
  imports : List (List Char)
  imported_by : List (List Char)
  external_deps : List (List Char)
  migration_order : Option Nat
  circular_deps : List (List Char)
deriving DecidableEq

/-- A project file as seen by `build_dependency_graph`: its
project-relative path and the import target names its AST contains in
walk order (`ast.Import` entries and non-empty `ast.ImportFrom` modules);
`none` when `ast.parse` fails and the file contributes no edges. -/
structure ProjFile where
  path : List Char
  importTargets : Option (List (List Char))
deriving DecidableEq

/-- Python `s.removesuffix(suf)`. -/
def removeSuffixL (s suf : List Char) : List Char :=
  if suf.isSuffixOf s then s.take (s.length - suf.length) else s

/-- Module dotted path of one file, from `_build_module_map`:
separators become dots, a trailing `.py` is removed, and a trailing
`.__init__` collapses to the containing package. -/
def moduleOfPath (rel : List Char) : List Char :=
  removeSuffixL
    (removeSuffixL (rel.map (fun c => if c = '/' then '.' else c)) (chars ".py"))
    (chars ".__init__")

/-- Model of `_build_module_map` (later files overwrite earlier ones on
a module-name collision, as dict assignment does). -/
def buildModuleMap (files : List (List Char)) : List (List Char × List Char) :=
  files.foldl (fun m f => alSet m (moduleOfPath f) f) []

/-- Python `module_name.split(".")`. -/
def splitDots (s : List Char) : List (List Char) := s.splitOn '.'

/-- The prefix probing of `_resolve_import`: try the first `i` dotted
components, then `i - 1`, ..., down to 1; first hit wins. -/
def probeModule (moduleMap : List (List Char × List Char))
    (parts : List (List Char)) : Nat → Option (List Char)
  | 0 => none
  | i + 1 =>
    match alGet moduleMap (List.intercalate ['.'] (parts.take (i + 1))) with
    | some target => some target
    | none => probeModule moduleMap parts i

/-- The three maps `_resolve_import` mutates. -/
structure GraphMaps where
  importsMap : List (List Char × List (List Char))
  importedBy : List (List Char × List (List Char))
  externalDeps : List (List Char × List (List Char))

/-- Model of `_resolve_import`. -/
def resolveImport (moduleMap : List (List Char × List Char))
    (moduleName current : List Char) (st : GraphMaps) : GraphMaps :=
  let parts := splitDots moduleName
  match probeModule moduleMap parts parts.length with
  | some target =>
      if target ≠ current then
        { st with
          importsMap := alSet st.importsMap current
            (setAdd (alGetD st.importsMap current []) target)
          importedBy := alSet st.importedBy target
            (setAdd (alGetD st.importedBy target []) current) }
      else st
  | none =>
      { st with
        externalDeps := alSet st.externalDeps current
          (setAdd (alGetD st.externalDeps current []) (parts.headD [])) }

/-- The import-collection loop of `build_dependency_graph`
(parse-failure files contribute nothing). -/
def collectGraphMaps (moduleMap : List (List Char × List Char))
    (project : List ProjFile) : GraphMaps :=
  project.foldl (fun st f =>
    match f.importTargets with
    | none => st
    | some ts => ts.foldl (fun st t => resolveImport moduleMap t f.path st) st)
    ⟨[], [], []⟩

/-- The initialisation of `_topological_sort`: base in-degrees of 0 for
every file, then the in-degree counting and reverse-adjacency
(`dependents_map`) construction. -/
structure KahnInit where
  indeg : List (List Char × Int)
  depm : List (List Char × List (List Char))

/-- One dependency of one file, in the in-degree counting loop:
`if dep in in_degree: in_degree[f] += 1; dependents_map[dep].add(f)`. -/
def kahnDepStep (g : List Char) (st : KahnInit) (dep : List Char) : KahnInit :=
  if (alGet st.indeg dep).isSome then
    { indeg := alSet st.indeg g (alGetD st.indeg g 0 + 1)
      depm := alSet st.depm dep (setAdd (alGetD st.depm dep []) g) }
  else st

/-- One `imports_map` item in the in-degree counting loop. -/
def kahnInitStep (st : KahnInit) (fd : List Char × List (List Char)) : KahnInit :=
  fd.2.foldl (kahnDepStep fd.1) st

/-- Model of `_topological_sort` lines 140-148. -/
def kahnInit (files : List (List Char))
    (impItems : List (List Char × List (List Char))) : KahnInit :=
  impItems.foldl kahnInitStep ⟨files.foldl (fun m f => alSet m f (0 : Int)) [], []⟩

/-- Decrement the in-degree of every dependent of the dequeued node,
collecting the ones that reach zero, in iteration order (the loop body
`in_degree[f] -= 1; if in_degree[f] == 0: queue.append(f)`). -/
def decDependents (deps : List (List Char)) (ind : List (List Char × Int))
    (acc : List (List Char)) : List (List Char × Int) × List (List Char) :=
  match deps with
  | [] => (ind, acc)
  | f :: fs =>
      let v := alGetD ind f 0 - 1
      decDependents fs (alSet ind f v) (if v = 0 then acc ++ [f] else acc)

/-- Sum of the positive in-degrees, the termination measure of the
Kahn loop. -/
def degSum (ind : List (List Char × Int)) : Nat :=
  (ind.map (fun p => p.2.toNat)).sum

theorem alGet_alSet [DecidableEq κ] (l : List (κ × ν)) (k : κ) (v : ν) (k' : κ) :
    alGet (alSet l k v) k' = if k = k' then some v else alGet l k' := by
  induction l with
  | nil => simp [alSet, alGet]
  | cons p rest ih =>
    obtain ⟨pk, pv⟩ := p
    simp only [alSet]
    by_cases h : pk = k
    · rw [if_pos h]
      by_cases h' : k = k'
      · simp [alGet, h']
      · have hpk : ¬ pk = k' := by rw [h]; exact h'
        simp [alGet, h', hpk]
    · rw [if_neg h]
      simp only [alGet]
      by_cases h' : pk = k'
      · have hkk : ¬ k = k' := by rw [← h']; exact fun hc => h hc.symm
        simp [h', hkk]
      · simp [h', ih]

theorem degSum_alSet (ind : List (List Char × Int)) (k : List Char) (v : Int) :
    degSum (alSet ind k v) + (alGetD ind k 0).toNat = degSum ind + v.toNat := by
  induction ind with
  | nil => simp [alSet, degSum, alGetD, alGet]
  | cons p rest ih =>
    obtain ⟨pk, pv⟩ := p
    by_cases h : pk = k
    · simp only [alSet, if_pos h, degSum, List.map_cons, List.sum_cons, alGetD, alGet, if_pos h]
      simp
      omega
    · simp only [alSet, if_neg h, degSum, List.map_cons, List.sum_cons, alGetD, alGet, if_neg h]
      have := ih
      simp only [degSum, alGetD] at this
      omega

theorem decDependents_measure (deps : List (List Char))
    (ind : List (List Char × Int)) (acc : List (List Char)) :
    2 * degSum (decDependents deps ind acc).1 +
      (decDependents deps ind acc).2.length ≤
    2 * degSum ind + acc.length := by
  induction deps generalizing ind acc with
  | nil => simp [decDependents]
  | cons f fs ih =>
    simp only [decDependents]
    have hds := degSum_alSet ind f (alGetD ind f 0 - 1)
    by_cases hv : alGetD ind f 0 - 1 = 0
    · have h1 : alGetD ind f 0 = 1 := by omega
      rw [if_pos hv]
      refine le_trans (ih _ _) ?_
      simp only [List.length_append, List.length_cons, List.length_nil]
      omega
    · rw [if_neg hv]
      refine le_trans (ih _ _) ?_
      have hle : (alGetD ind f 0 - 1).toNat ≤ (alGetD ind f 0).toNat := by omega
      omega

/-- Termination measure of the Kahn loop: twice the remaining positive
in-degree mass plus the queue length. -/
def kahnMeasure (ind : List (List Char × Int)) (queue : List (List Char)) : Nat :=
  2 * degSum ind + queue.length

/-- Fuelled Kahn loop; the fuel is only a structural-recursion device,
`kahnLoop` supplies `kahnMeasure`, which the step strictly decreases. -/
def kahnLoopF (depm : List (List Char × List (List Char))) :
    Nat → List (List Char × Int) → List (List Char) →
    List (List Char × Nat) → Nat → List (List Char × Nat) × Nat
  | _, _, [], order, idx => (order, idx)
  | 0, _, _ :: _, order, idx => (order, idx)
  | fuel + 1, ind, node :: rest, order, idx =>
      let r := decDependents (alGetD depm node []) ind []
      kahnLoopF depm fuel r.1 (rest ++ r.2) (alSet order node idx) (idx + 1)

theorem kahnLoopF_congr (depm : List (List Char × List (List Char))) :
    ∀ (fuel fuel' : Nat) (ind : List (List Char × Int)) (queue : List (List Char))
      (order : List (List Char × Nat)) (idx : Nat),
      kahnMeasure ind queue ≤ fuel → kahnMeasure ind queue ≤ fuel' →
      kahnLoopF depm fuel ind queue order idx =
        kahnLoopF depm fuel' ind queue order idx := by
  intro fuel
  induction fuel with
  | zero =>
    intro fuel' ind queue order idx h h'
    cases queue with
    | nil => cases fuel' <;> rfl
    | cons node rest => simp [kahnMeasure] at h
  | succ f ih =>
    intro fuel' ind queue order idx h h'
    cases queue with
    | nil => cases fuel' <;> rfl
    | cons node rest =>
      cases fuel' with
      | zero => simp [kahnMeasure] at h'
      | succ f' =>
        simp only [kahnLoopF]
        have hdec := decDependents_measure (alGetD depm node []) ind []
        simp only [List.length_nil] at hdec
        simp only [kahnMeasure, List.length_cons] at h h'
        apply ih
        · simp only [kahnMeasure, List.length_append]
          omega
        · simp only [kahnMeasure, List.length_append]
          omega

/-- The Kahn loop of `_topological_sort` lines 154-162, returning the
rank map and the next rank. -/
def kahnLoop (depm : List (List Char × List (List Char)))
    (ind : List (List Char × Int)) (queue : List (List Char))
    (order : List (List Char × Nat)) (idx : Nat) :
    List (List Char × Nat) × Nat :=
  kahnLoopF depm (kahnMeasure ind queue) ind queue order idx

theorem kahnLoop_nil (depm : List (List Char × List (List Char)))
    (ind : List (List Char × Int)) (order : List (List Char × Nat)) (idx : Nat) :
    kahnLoop depm ind [] order idx = (order, idx) := by
  unfold kahnLoop
  cases h : kahnMeasure ind [] <;> rfl

theorem kahnLoop_cons (depm : List (List Char × List (List Char)))
    (ind : List (List Char × Int)) (node : List Char) (rest : List (List Char))
    (order : List (List Char × Nat)) (idx : Nat) :
    kahnLoop depm ind (node :: rest) order idx =
    kahnLoop depm (decDependents (alGetD depm node []) ind []).1
      (rest ++ (decDependents (alGetD depm node []) ind []).2)
      (alSet order node idx) (idx + 1) := by
  unfold kahnLoop
  have hM : kahnMeasure ind (node :: rest) = (2 * degSum ind + rest.length) + 1 := by
    simp [kahnMeasure]
    omega
  rw [hM]
  simp only [kahnLoopF]
  apply kahnLoopF_congr
  · have hdec := decDependents_measure (alGetD depm node []) ind []
    simp only [List.length_nil] at hdec
    simp only [kahnMeasure, List.length_append]
    omega
  · exact le_refl _

/-- Lexicographic order on code-point sequences, Python string `<=`. -/
def lexLe : List Char → List Char → Bool
  | [], _ => true
  | _ :: _, [] => false
  | a :: as, b :: bs => if a = b then lexLe as bs else decide (a < b)

/-- Python `sorted` on paths. -/
def sortPaths (l : List (List Char)) : List (List Char) := pySorted lexLe l

/-- Result of `_topological_sort`. -/
structure TopoResult where
  order : List (List Char × Nat)
  circular : List (List Char)

/-- Model of `_topological_sort`: Kahn's algorithm, then the leftover
(cyclic) files receive continuing ranks in sorted-path order. -/
def topologicalSort (files : List (List Char))
    (impItems : List (List Char × List (List Char))) : TopoResult :=
  let ini := kahnInit files impItems
  let queue0 := (ini.indeg.filter (fun p => p.2 = 0)).map Prod.fst
  let res := kahnLoop ini.depm ini.indeg queue0 [] 0
  let circ := sortPaths ((files.filter (fun f => (alGet res.1 f).isNone)).dedup)
  let final := circ.foldl (fun st f => (alSet st.1 f st.2, st.2 + 1)) res
  { order := final.1, circular := circ }

/-- Model of `build_dependency_graph`, over the abstracted project
files; one `DependencyNode` per file in enumeration order. -/
def buildDependencyGraph (project : List ProjFile) : List DependencyNode :=
  let files := project.map ProjFile.path
  let moduleMap := buildModuleMap files
  let gm := collectGraphMaps moduleMap project
  let topo := topologicalSort files gm.importsMap
  files.map (fun rel =>
    { file_path := rel
      imports := sortPaths (alGetD gm.importsMap rel [])
      imported_by := sortPaths (alGetD gm.importedBy rel [])
      external_deps := sortPaths (alGetD gm.externalDeps rel [])
      migration_order := alGet topo.order rel
      circular_deps :=
        if rel ∈ topo.circular then
          sortPaths (topo.circular.filter (fun c => c ∈ alGetD gm.importsMap rel []))
        else [] })

/-- Model of `get_migration_order`: sort by `(rank or 9999, path)`,
project the paths. -/
def getMigrationOrder (graph : List DependencyNode) : List (List Char) :=
  (pySorted (fun a b =>
      decide (a.migration_order.getD 9999 < b.migration_order.getD 9999) ||
      (decide (a.migration_order.getD 9999 = b.migration_order.getD 9999) &&
        lexLe a.file_path b.file_path)) graph).map DependencyNode.file_path

theorem alGetD_alSet [DecidableEq κ] (l : List (κ × ν)) (k : κ) (v : ν)
    (k' : κ) (d : ν) :
    alGetD (alSet l k v) k' d = if k = k' then v else alGetD l k' d := by
  unfold alGetD
  rw [alGet_alSet]
  split <;> simp

theorem mem_setAdd [DecidableEq α] (l : List α) (x y : α) :
    y ∈ setAdd l x ↔ y = x ∨ y ∈ l := by
  unfold setAdd
  split
  · rename_i hx
    constructor
    · exact Or.inr
    · rintro (rfl | h)
      · exact hx
      · exact h
  · simp [List.mem_append, or_comm]

theorem setAdd_nodup [DecidableEq α] (l : List α) (x : α) (h : l.Nodup) :
    (setAdd l x).Nodup := by
  unfold setAdd
  split
  · exact h
  · rename_i hx
    simp [List.nodup_append, h, hx]

theorem not_mem_setAdd [DecidableEq α] {l : List α} {x y : α}
    (h1 : y ≠ x) (h2 : y ∉ l) : y ∉ setAdd l x := by
  rw [mem_setAdd]
  rintro (rfl | h)
  · exact h1 rfl
  · exact h2 h

/-- Symmetry and irreflexivity invariant of the two edge maps. -/
def GraphSym (gm : GraphMaps) : Prop :=
  (∀ p q : List Char,
    q ∈ alGetD gm.importsMap p [] ↔ p ∈ alGetD gm.importedBy q []) ∧
  (∀ p : List Char, p ∉ alGetD gm.importsMap p [])

theorem graphSym_resolveImport (moduleMap : List (List Char × List Char))
    (t current : List Char) (st : GraphMaps) (h : GraphSym st) :
    GraphSym (resolveImport moduleMap t current st) := by
  obtain ⟨hsym, hirr⟩ := h
  simp only [resolveImport]
  split
  · rename_i target hprobe
    split
    · rename_i hne
      constructor
      · intro p q
        simp only [alGetD_alSet]
        by_cases hp : current = p <;> by_cases hq : target = q
        · subst hp; subst hq
          simp [mem_setAdd]
        · subst hp
          rw [if_pos rfl, if_neg hq, mem_setAdd]
          constructor
          · rintro (rfl | hmem)
            · exact absurd rfl hq
            · exact (hsym current q).mp hmem
          · intro hmem
            exact Or.inr ((hsym current q).mpr hmem)
        · subst hq
          rw [if_neg hp, if_pos rfl, mem_setAdd]
          constructor
          · intro hmem
            exact Or.inr ((hsym p target).mp hmem)
          · rintro (rfl | hmem)
            · exact absurd rfl hp
            · exact (hsym p target).mpr hmem
        · rw [if_neg hp, if_neg hq]
          exact hsym p q
      · intro p
        simp only [alGetD_alSet]
        by_cases hp : current = p
        · subst hp
          rw [if_pos rfl]
          exact not_mem_setAdd (fun hc => hne hc.symm) (hirr current)
        · rw [if_neg hp]
          exact hirr p
    · exact ⟨hsym, hirr⟩
  · exact ⟨hsym, hirr⟩

theorem graphSym_collect (moduleMap : List (List Char × List Char))
    (project : List ProjFile) :
    GraphSym (collectGraphMaps moduleMap project) := by
  unfold collectGraphMaps
  suffices h : ∀ (st : GraphMaps), GraphSym st →
      GraphSym (project.foldl (fun st f =>
        match f.importTargets with
        | none => st
        | some ts => ts.foldl (fun st t => resolveImport moduleMap t f.path st) st) st) by
    refine h _ ?_
    constructor
    · intro p q; simp [alGetD, alGet]
    · intro p; simp [alGetD, alGet]
  induction project with
  | nil => intro st hst; exact hst
  | cons f fs ih =>
    intro st hst
    simp only [List.foldl_cons]
    apply ih
    cases hft : f.importTargets with
    | none => exact hst
    | some ts =>
      clear hft
      induction ts generalizing st with
      | nil => exact hst
      | cons t ts iht =>
        simp only [List.foldl_cons]
        exact iht _ (graphSym_resolveImport moduleMap t f.path st hst)

/-- C8: in every graph returned by `build_dependency_graph`, for every
pair of nodes A, B: B is in A's imports iff A is in B's imported_by, and
no node appears in its own imports or imported_by. -/
theorem claim_C8_edge_symmetry (project : List ProjFile)
    (A : DependencyNode) (hA : A ∈ buildDependencyGraph project)
    (B : DependencyNode) (hB : B ∈ buildDependencyGraph project) :
    (B.file_path ∈ A.imports ↔ A.file_path ∈ B.imported_by) ∧
    A.file_path ∉ A.imports ∧ A.file_path ∉ A.imported_by := by
  have hsym := graphSym_collect (buildModuleMap (project.map ProjFile.path)) project
  simp only [buildDependencyGraph, List.mem_map] at hA hB
  obtain ⟨ra, hra, rfl⟩ := hA
  obtain ⟨rb, hrb, rfl⟩ := hB
  simp only [sortPaths, pySorted_mem]
  exact ⟨hsym.1 ra rb, hsym.2 ra, fun hmem => hsym.2 ra ((hsym.1 ra ra).mpr hmem)⟩

/-- Mutual-import project used by the graph witnesses. -/
def mutualProject : List ProjFile :=
  [ { path := chars "x.py", importTargets := some [chars "y"] },
    { path := chars "y.py", importTargets := some [chars "x"] } ]

/-- The node computed for `x.py` in `mutualProject`. -/
def mutualNodeX : DependencyNode :=
  { file_path := chars "x.py", imports := [chars "y.py"],
    imported_by := [chars "y.py"], external_deps := []
    migration_order := some 0, circular_deps := [chars "y.py"] }

/-- The node computed for `y.py` in `mutualProject`. -/
def mutualNodeY : DependencyNode :=
  { file_path := chars "y.py", imports := [chars "x.py"],
    imported_by := [chars "x.py"], external_deps := []
    migration_order := some 1, circular_deps := [chars "x.py"] }

/-- Witness applying C8 at the concrete mutual-import project. -/
theorem claim_C8_edge_symmetry_witness :
    (mutualNodeY.file_path ∈ mutualNodeX.imports ↔
      mutualNodeX.file_path ∈ mutualNodeY.imported_by) ∧
    mutualNodeX.file_path ∉ mutualNodeX.imports ∧
    mutualNodeX.file_path ∉ mutualNodeX.imported_by :=
  claim_C8_edge_symmetry mutualProject mutualNodeX (by decide) mutualNodeY (by decide)

/-- Keys of an association list. -/
def alKeys (l : List (κ × ν)) : List κ := l.map Prod.fst

theorem alGet_eq_none_iff [DecidableEq κ] (l : List (κ × ν)) (k : κ) :
    alGet l k = none ↔ k ∉ alKeys l := by
  induction l with
  | nil => simp [alGet, alKeys]
  | cons p rest ih =>
    obtain ⟨pk, pv⟩ := p
    simp only [alGet, alKeys, List.map_cons, List.mem_cons]
    by_cases h : pk = k
    · simp [h]
    · rw [if_neg h, ih]
      simp only [alKeys]
      constructor
      · intro hn
        push_neg
        exact ⟨fun hc => h hc.symm, hn⟩
      · intro hn
        push_neg at hn
        exact hn.2

theorem alGet_isSome_iff [DecidableEq κ] (l : List (κ × ν)) (k : κ) :
    (alGet l k).isSome ↔ k ∈ alKeys l := by
  rw [← @Decidable.not_not (k ∈ alKeys l) _, ← alGet_eq_none_iff l k]
  cases alGet l k <;> simp

theorem alSet_notMem [DecidableEq κ] (l : List (κ × ν)) (k : κ) (v : ν)
    (h : k ∉ alKeys l) : alSet l k v = l ++ [(k, v)] := by
  induction l with
  | nil => simp [alSet]
  | cons p rest ih =>
    obtain ⟨pk, pv⟩ := p
    simp only [alKeys, List.map_cons, List.mem_cons] at h
    push_neg at h
    simp only [alSet, if_neg (fun hc : pk = k => h.1 hc.symm), List.cons_append]
    rw [ih (by simpa [alKeys] using h.2)]

theorem alGet_of_mem_nodup [DecidableEq κ] (l : List (κ × ν)) (p : κ × ν)
    (hmem : p ∈ l) (hnd : (alKeys l).Nodup) : alGet l p.1 = some p.2 := by
  induction l with
  | nil => simp at hmem
  | cons q rest ih =>
    obtain ⟨qk, qv⟩ := q
    simp only [alKeys, List.map_cons, List.nodup_cons] at hnd
    rcases List.mem_cons.mp hmem with h | h
    · subst h
      simp [alGet]
    · have hne : qk ≠ p.1 := by
        intro hc
        exact hnd.1 (by simpa [alKeys, hc] using List.mem_map_of_mem Prod.fst h)
      simp only [alGet, if_neg hne]
      exact ih h (by simpa [alKeys] using hnd.2)

theorem alGet_mem [DecidableEq κ] (l : List (κ × ν)) (k : κ) (v : ν)
    (h : alGet l k = some v) : (k, v) ∈ l := by
  induction l with
  | nil => simp [alGet] at h
  | cons p rest ih =>
    obtain ⟨pk, pv⟩ := p
    simp only [alGet] at h
    by_cases hk : pk = k
    · rw [if_pos hk] at h
      have hv : pv = v := Option.some.inj h
      subst hk
      subst hv
      exact List.mem_cons_self _ _
    · rw [if_neg hk] at h
      exact List.mem_cons_of_mem _ (ih h)

theorem alGet_mapForm [DecidableEq κ] (files : List κ) (g : κ → ν) (k : κ) :
    alGet (files.map (fun f => (f, g f))) k =
      if k ∈ files then some (g k) else none := by
  induction files with
  | nil => simp [alGet]
  | cons f fs ih =>
    simp only [List.map_cons, alGet]
    by_cases h : f = k
    · subst h
      simp
    · rw [if_neg h, ih]
      have hkf : ¬ k = f := fun hc => h hc.symm
      by_cases h' : k ∈ fs
      · simp [h', hkf, List.mem_cons]
      · simp [h', hkf, List.mem_cons]

theorem alSet_mapForm [DecidableEq κ] (files : List κ) (g : κ → ν) (k : κ) (v : ν)
    (hk : k ∈ files) (hnd : files.Nodup) :
    alSet (files.map (fun f => (f, g f))) k v =
      files.map (fun f => (f, if f = k then v else g f)) := by
  induction files with
  | nil => simp at hk
  | cons f fs ih =>
    simp only [List.map_cons, alSet]
    rcases List.nodup_cons.mp hnd with ⟨hf, hfs⟩
    by_cases h : f = k
    · subst h
      rw [if_pos rfl, if_pos rfl]
      congr 1
      refine (List.map_congr_left ?_).symm
      intro x hx
      have : x ≠ f := fun hc => hf (hc ▸ hx)
      simp [this]
    · rw [if_neg h, if_neg h]
      rcases List.mem_cons.mp hk with h' | h'
      · exact absurd h'.symm h
      · rw [ih h' hfs]

theorem foldl_alSet_zero (files : List (List Char)) (hnd : files.Nodup) :
    files.foldl (fun m f => alSet m f (0 : Int)) [] =
      files.map (fun f => (f, (0 : Int))) := by
  suffices h : ∀ (fs done : List (List Char)), (done ++ fs).Nodup →
      fs.foldl (fun m f => alSet m f 0) (done.map (fun f => (f, (0 : Int)))) =
        (done ++ fs).map (fun f => (f, (0 : Int))) by
    simpa using h files [] (by simpa using hnd)
  intro fs
  induction fs with
  | nil => intro done h; simp
  | cons f fs ih =>
    intro done h
    simp only [List.foldl_cons]
    have hf : f ∉ alKeys (done.map (fun f => (f, (0 : Int)))) := by
      have hkeys : alKeys (done.map (fun f => (f, (0 : Int)))) = done := by
        simp [alKeys, List.map_map, Function.comp_def]
      rw [hkeys]
      have h2 := h
      rw [List.nodup_append] at h2
      exact fun hc => h2.2.2 hc (List.mem_cons_self _ _)
    rw [alSet_notMem _ _ _ hf]
    have hdone : done.map (fun f => (f, (0:Int))) ++ [(f, 0)] =
        (done ++ [f]).map (fun f => (f, (0:Int))) := by simp
    rw [hdone]
    have := ih (done ++ [f]) (by simpa using h)
    simpa using this

/-- Internal dependencies of one file: its recorded import targets that
are themselves project files. -/
def internalDeps (files : List (List Char))
    (impItems : List (List Char × List (List Char))) (g : List Char) :
    List (List Char) :=
  (alGetD impItems g []).filter (fun d => decide (d ∈ files))

/-- In-degree contributed to `f` by a list of `imports_map` items. -/
def itemsCount (files : List (List Char)) :
    List (List Char × List (List Char)) → List Char → Nat
  | [], _ => 0
  | (g, ds) :: rest, f =>
    (if f = g then (ds.filter (fun d => decide (d ∈ files))).length else 0) +
      itemsCount files rest f

/-- The dependents recorded for `dep` by a list of `imports_map` items:
the keys whose dependency list contains `dep`, for `dep` itself an
in-degree key. -/
def itemsDependents (files : List (List Char))
    (items : List (List Char × List (List Char))) (dep : List Char) :
    List (List Char) :=
  (items.filter (fun p => decide (dep ∈ p.2) && decide (dep ∈ files))).map Prod.fst

/-- Shape of the in-degree-counting state: the in-degree dict is the
file list tagged with a count function, the dependents dict is described
by a function. -/
structure InitShape (files : List (List Char)) (st : KahnInit)
    (c : List Char → Int) (D : List Char → List (List Char)) : Prop where
  indeg_eq : st.indeg = files.map (fun f => (f, c f))
  depm_get : ∀ dep, alGetD st.depm dep [] = D dep

theorem kahnDepFold_spec (files : List (List Char)) (g : List Char)
    (hg : g ∈ files) (hnd : files.Nodup) :
    ∀ (ds : List (List Char)) (st : KahnInit) (c : List Char → Int)
      (D : List Char → List (List Char)),
      ds.Nodup →
      (∀ dep ∈ ds, g ∉ D dep) →
      InitShape files st c D →
      InitShape files (ds.foldl (kahnDepStep g) st)
        (fun f => c f +
          (if f = g then ((ds.filter (fun d => decide (d ∈ files))).length : Int) else 0))
        (fun dep => if dep ∈ ds ∧ dep ∈ files then D dep ++ [g] else D dep) := by
  intro ds
  induction ds with
  | nil =>
    intro st c D _ _ h
    have hc : (fun f => c f +
        (if f = g then ((([] : List (List Char)).filter
          (fun d => decide (d ∈ files))).length : Int) else 0)) = c := by
      funext f
      simp
    have hD : (fun dep => if dep ∈ ([] : List (List Char)) ∧ dep ∈ files
        then D dep ++ [g] else D dep) = D := by
      funext dep
      simp
    rw [List.foldl_nil, hc, hD]
    exact h
  | cons dep ds ih =>
    intro st c D hnodup hfresh h
    rcases List.nodup_cons.mp hnodup with ⟨hdep, hds⟩
    simp only [List.foldl_cons]
    by_cases hdf : dep ∈ files
    · have hstep : InitShape files (kahnDepStep g st dep)
          (fun f => if f = g then c f + 1 else c f)
          (fun x => if x = dep then D x ++ [g] else D x) := by
        constructor
        · unfold kahnDepStep
          rw [h.indeg_eq, alGet_mapForm]
          simp only [if_pos hdf, Option.isSome_some, if_pos trivial]
          show alSet (files.map fun f => (f, c f)) g
            (alGetD (files.map fun f => (f, c f)) g 0 + 1) = _
          have hget : alGetD (files.map fun f => (f, c f)) g 0 = c g := by
            unfold alGetD
            rw [alGet_mapForm, if_pos hg]
            rfl
          rw [hget, alSet_mapForm files c g (c g + 1) hg hnd]
          congr 1
          funext f
          by_cases hf : f = g
          · simp [hf]
          · simp [hf]
        · intro x
          unfold kahnDepStep
          rw [h.indeg_eq, alGet_mapForm]
          simp only [if_pos hdf, Option.isSome_some, if_pos trivial]
          show alGetD (alSet st.depm dep (setAdd (alGetD st.depm dep []) g)) x [] = _
          rw [alGetD_alSet]
          by_cases hx : x = dep
          · rw [if_pos hx.symm, if_pos hx, h.depm_get]
            have hng : g ∉ D dep := hfresh dep (List.mem_cons_self _ _)
            unfold setAdd
            rw [if_neg hng, hx]
          · rw [if_neg (fun hc => hx hc.symm), if_neg hx]
            exact h.depm_get x
      have hfresh' : ∀ x ∈ ds, g ∉ (fun x => if x = dep then D x ++ [g] else D x) x := by
        intro x hx
        have hxd : x ≠ dep := fun hc => hdep (hc ▸ hx)
        simp only [if_neg hxd]
        exact hfresh x (List.mem_cons_of_mem _ hx)
      have := ih (kahnDepStep g st dep) _ _ hds hfresh' hstep
      refine ⟨?_, ?_⟩
      · rw [this.indeg_eq]
        congr 1
        funext f
        by_cases hf : f = g
        · simp only [hf, if_pos rfl, List.filter_cons, decide_eq_true_eq, if_pos hdf]
          simp [hdf]
          omega
        · simp [hf]
      · intro x
        rw [this.depm_get]
        by_cases hx : x = dep
        · subst hx
          simp only [if_pos rfl, if_neg (fun hc : x ∈ ds => hdep hc)]
          simp [hdep, hdf]
        · by_cases hxs : x ∈ ds ∧ x ∈ files
          · simp [hxs, hx, List.mem_cons, hxs.1, hxs.2]
          · have hnc : ¬ (x ∈ dep :: ds ∧ x ∈ files) := by
              intro hc
              rcases List.mem_cons.mp hc.1 with h1 | h1
              · exact hx h1
              · exact hxs ⟨h1, hc.2⟩
            simp only [if_neg hx, if_neg hxs, if_neg hnc]
    · have hstep : kahnDepStep g st dep = st := by
        unfold kahnDepStep
        rw [h.indeg_eq, alGet_mapForm, if_neg hdf]
        simp
      rw [hstep]
      have := ih st c D hds
        (fun x hx => hfresh x (List.mem_cons_of_mem _ hx)) h
      refine ⟨?_, ?_⟩
      · rw [this.indeg_eq]
        congr 1
        funext f
        by_cases hf : f = g
        · simp only [hf, if_pos rfl, List.filter_cons, decide_eq_true_eq, if_neg hdf]
        · simp [hf]
      · intro x
        rw [this.depm_get]
        by_cases hx : x = dep
        · subst hx
          simp [hdf, fun hc : x ∈ ds => hdep hc]
        · by_cases hxs : x ∈ ds ∧ x ∈ files
          · simp [hxs, List.mem_cons, hxs.1, hxs.2]
          · have hnc : ¬ (x ∈ dep :: ds ∧ x ∈ files) := by
              intro hc
              rcases List.mem_cons.mp hc.1 with h1 | h1
              · exact hx h1
              · exact hxs ⟨h1, hc.2⟩
            simp only [if_neg hxs, if_neg hnc]

theorem kahnInitFold_spec (files : List (List Char)) (hnd : files.Nodup) :
    ∀ (items : List (List Char × List (List Char))) (st : KahnInit)
      (c : List Char → Int) (D : List Char → List (List Char)),
      (∀ p ∈ items, p.1 ∈ files) →
      (∀ p ∈ items, p.2.Nodup) →
      ((items.map Prod.fst).Nodup) →
      (∀ dep g, g ∈ D dep → g ∉ items.map Prod.fst) →
      InitShape files st c D →
      InitShape files (items.foldl kahnInitStep st)
        (fun f => c f + (itemsCount files items f : Int))
        (fun dep => D dep ++ itemsDependents files items dep) := by
  intro items
  induction items with
  | nil =>
    intro st c D _ _ _ _ h
    have hc : (fun f => c f + (itemsCount files [] f : Int)) = c := by
      funext f
      simp [itemsCount]
    have hD : (fun dep => D dep ++ itemsDependents files [] dep) = D := by
      funext dep
      simp [itemsDependents]
    rw [List.foldl_nil, hc, hD]
    exact h
  | cons gd rest ih =>
    intro st c D hkeys hvnd hknd hdisj h
    obtain ⟨g, ds⟩ := gd
    simp only [List.foldl_cons]
    have hg : g ∈ files := hkeys (g, ds) (List.mem_cons_self _ _)
    have hdsnd : ds.Nodup := hvnd (g, ds) (List.mem_cons_self _ _)
    have hfresh : ∀ dep ∈ ds, g ∉ D dep := by
      intro dep _ hc
      exact hdisj dep g hc (by simp)
    have hstep := kahnDepFold_spec files g hg hnd ds st c D hdsnd hfresh h
    have hstep' : kahnInitStep st (g, ds) = ds.foldl (kahnDepStep g) st := rfl
    rw [hstep']
    simp only [List.map_cons, List.nodup_cons] at hknd
    have hdisj' : ∀ dep g', g' ∈ (fun dep =>
        if dep ∈ ds ∧ dep ∈ files then D dep ++ [g] else D dep) dep →
        g' ∉ rest.map Prod.fst := by
      intro dep g' hmem
      dsimp only at hmem
      split at hmem
      · rcases List.mem_append.mp hmem with h1 | h1
        · exact fun hc => hdisj dep g' h1 (List.mem_cons_of_mem _ hc)
        · have : g' = g := by simpa using h1
          subst this
          exact hknd.1
      · exact fun hc => hdisj dep g' hmem (List.mem_cons_of_mem _ hc)
    have := ih (ds.foldl (kahnDepStep g) st) _ _
      (fun p hp => hkeys p (List.mem_cons_of_mem _ hp))
      (fun p hp => hvnd p (List.mem_cons_of_mem _ hp))
      hknd.2 hdisj' hstep
    refine ⟨?_, ?_⟩
    · rw [this.indeg_eq]
      congr 1
      funext f
      simp only [itemsCount]
      by_cases hf : f = g
      · simp only [hf, if_pos rfl]
        push_cast
        ring
      · simp only [hf, if_neg hf]
        push_cast
        ring
    · intro x
      rw [this.depm_get]
      have hid : itemsDependents files ((g, ds) :: rest) x =
          (if x ∈ ds ∧ x ∈ files then [g] else []) ++ itemsDependents files rest x := by
        simp only [itemsDependents, List.filter_cons]
        by_cases hc : x ∈ ds ∧ x ∈ files
        · simp [hc.1, hc.2]
        · rw [Decidable.not_and_iff_or_not] at hc
          rcases hc with hc | hc
          · simp [hc]
          · simp [hc]
      rw [hid]
      by_cases hc : x ∈ ds ∧ x ∈ files
      · simp only [if_pos hc]
        simp [List.append_assoc]
      · simp only [if_neg hc]
        simp

theorem kahnInit_shape (files : List (List Char))
    (impItems : List (List Char × List (List Char)))
    (hnd : files.Nodup)
    (hkeys : ∀ p ∈ impItems, p.1 ∈ files)
    (hvnd : ∀ p ∈ impItems, p.2.Nodup)
    (hknd : (impItems.map Prod.fst).Nodup) :
    InitShape files (kahnInit files impItems)
      (fun f => (itemsCount files impItems f : Int))
      (fun dep => itemsDependents files impItems dep) := by
  have h0 : InitShape files ⟨files.foldl (fun m f => alSet m f (0 : Int)) [], []⟩
      (fun _ => (0 : Int)) (fun _ => []) := by
    constructor
    · exact foldl_alSet_zero files hnd
    · intro dep
      simp [alGetD, alGet]
  have := kahnInitFold_spec files hnd impItems _ _ _ hkeys hvnd hknd
    (by intro dep g hc; simp at hc) h0
  unfold kahnInit
  refine ⟨?_, ?_⟩
  · rw [this.indeg_eq]
    congr 1
    funext f
    simp
  · intro dep
    rw [this.depm_get]
    simp

theorem itemsCount_zero_of_notMem (files : List (List Char)) :
    ∀ (items : List (List Char × List (List Char))) (f : List Char),
      f ∉ items.map Prod.fst → itemsCount files items f = 0 := by
  intro items
  induction items with
  | nil => intro f _; rfl
  | cons gd rest ih =>
    intro f hf
    obtain ⟨g, ds⟩ := gd
    simp only [List.map_cons, List.mem_cons] at hf
    push_neg at hf
    simp only [itemsCount, if_neg hf.1]
    simpa using ih f hf.2

theorem itemsCount_eq_internalDeps (files : List (List Char)) :
    ∀ (items : List (List Char × List (List Char))),
      (items.map Prod.fst).Nodup →
      ∀ f, itemsCount files items f = (internalDeps files items f).length := by
  intro items
  induction items with
  | nil => intro _ f; simp [itemsCount, internalDeps, alGetD, alGet]
  | cons gd rest ih =>
    intro hknd f
    obtain ⟨g, ds⟩ := gd
    simp only [List.map_cons, List.nodup_cons] at hknd
    simp only [itemsCount, internalDeps, alGetD, alGet]
    by_cases hf : f = g
    · subst hf
      rw [if_pos rfl, if_pos rfl]
      rw [itemsCount_zero_of_notMem files rest f hknd.1]
      simp
    · rw [if_neg hf, if_neg (fun hc : g = f => hf hc.symm)]
      have := ih hknd.2 f
      simp only [internalDeps, alGetD] at this
      simpa using this

theorem mem_itemsDependents (files : List (List Char))
    (items : List (List Char × List (List Char)))
    (hknd : (items.map Prod.fst).Nodup) (dep g : List Char) :
    g ∈ itemsDependents files items dep ↔
      (dep ∈ alGetD items g [] ∧ dep ∈ files) := by
  unfold itemsDependents
  rw [List.mem_map]
  constructor
  · rintro ⟨p, hp, rfl⟩
    rw [List.mem_filter] at hp
    have hget := alGet_of_mem_nodup items p hp.1 hknd
    simp only [Bool.and_eq_true, decide_eq_true_eq] at hp
    refine ⟨?_, hp.2.2⟩
    unfold alGetD
    rw [hget]
    exact hp.2.1
  · rintro ⟨hdep, hdf⟩
    have hkey : (alGet items g).isSome := by
      by_contra hc
      rw [Option.not_isSome_iff_eq_none] at hc
      unfold alGetD at hdep
      rw [hc] at hdep
      simp at hdep
    obtain ⟨ds, hds⟩ := Option.isSome_iff_exists.mp hkey
    refine ⟨(g, ds), ?_, rfl⟩
    rw [List.mem_filter]
    refine ⟨alGet_mem items g ds hds, ?_⟩
    unfold alGetD at hdep
    rw [hds] at hdep
    simp only [Option.getD_some] at hdep
    simp [hdep, hdf]

theorem itemsDependents_nodup (files : List (List Char))
    (items : List (List Char × List (List Char)))
    (hknd : (items.map Prod.fst).Nodup) (dep : List Char) :
    (itemsDependents files items dep).Nodup := by
  unfold itemsDependents
  have hsub : List.Sublist (items.filter
      (fun p => decide (dep ∈ p.2) && decide (dep ∈ files))) items :=
    List.filter_sublist _
  have := hsub.map Prod.fst
  exact this.nodup hknd

theorem itemsDependents_sub_keys (files : List (List Char))
    (items : List (List Char × List (List Char))) (dep g : List Char)
    (h : g ∈ itemsDependents files items dep) : g ∈ items.map Prod.fst := by
  unfold itemsDependents at h
  rw [List.mem_map] at h
  obtain ⟨p, hp, rfl⟩ := h
  exact List.mem_map_of_mem _ (List.mem_of_mem_filter hp)

theorem decDependents_get (deps : List (List Char)) (hnd : deps.Nodup) :
    ∀ (ind : List (List Char × Int)) (acc : List (List Char)) (g : List Char),
      alGetD (decDependents deps ind acc).1 g 0 =
        alGetD ind g 0 - (if g ∈ deps then 1 else 0) := by
  induction deps with
  | nil => intro ind acc g; simp [decDependents]
  | cons f fs ih =>
    intro ind acc g
    rcases List.nodup_cons.mp hnd with ⟨hf, hfs⟩
    simp only [decDependents]
    rw [ih hfs]
    rw [alGetD_alSet]
    by_cases hg : g = f
    · subst hg
      rw [if_pos rfl, if_neg hf, if_pos (List.mem_cons_self _ _)]
      omega
    · rw [if_neg (fun hc => hg hc.symm)]
      by_cases hgs : g ∈ fs
      · rw [if_pos hgs, if_pos (List.mem_cons_of_mem _ hgs)]
      · rw [if_neg hgs, if_neg (by simp [hg, hgs])]

theorem decDependents_appends (deps : List (List Char)) (hnd : deps.Nodup) :
    ∀ (ind : List (List Char × Int)) (acc : List (List Char)),
      (decDependents deps ind acc).2 =
        acc ++ deps.filter (fun f => decide (alGetD ind f 0 = 1)) := by
  induction deps with
  | nil => intro ind acc; simp [decDependents]
  | cons f fs ih =>
    intro ind acc
    rcases List.nodup_cons.mp hnd with ⟨hf, hfs⟩
    simp only [decDependents]
    rw [ih hfs]
    have hfilter : fs.filter (fun x => decide (alGetD (alSet ind f (alGetD ind f 0 - 1)) x 0 = 1)) =
        fs.filter (fun x => decide (alGetD ind x 0 = 1)) := by
      apply List.filter_congr
      intro x hx
      have hxf : ¬ f = x := fun hc => hf (hc ▸ hx)
      rw [alGetD_alSet, if_neg hxf]
    rw [hfilter]
    by_cases hv : alGetD ind f 0 - 1 = 0
    · have h1 : alGetD ind f 0 = 1 := by omega
      rw [if_pos hv, List.filter_cons, if_pos (by simp [h1])]
      simp
    · have h1 : ¬ alGetD ind f 0 = 1 := by omega
      rw [if_neg hv, List.filter_cons, if_neg (by simp [h1])]

/-- The loop invariant of the Kahn loop, with respect to the file set
and the import items. -/
structure LoopInv (files : List (List Char))
    (impItems : List (List Char × List (List Char)))
    (ind : List (List Char × Int)) (queue : List (List Char))
    (order : List (List Char × Nat)) (idx : Nat) : Prop where
  keys_nodup : (alKeys order).Nodup
  vals_eq : order.map Prod.snd = List.range order.length
  idx_eq : idx = order.length
  keys_files : ∀ f ∈ alKeys order, f ∈ files
  ord_deps : ∀ f rf, alGet order f = some rf →
    ∀ d ∈ internalDeps files impItems f, ∃ rd, alGet order d = some rd ∧ rd < rf
  queue_nodup : queue.Nodup
  queue_files : ∀ q ∈ queue, q ∈ files
  queue_not_ordered : ∀ q ∈ queue, alGet order q = none
  queue_ready : ∀ q ∈ queue, ∀ d ∈ internalDeps files impItems q, (alGet order d).isSome
  queue_zero : ∀ q ∈ queue, alGetD ind q 0 = 0
  ind_eq : ∀ f ∈ files, alGetD ind f 0 =
    (internalDeps files impItems f).length -
      ((internalDeps files impItems f).filter
        (fun d => (alGet order d).isSome)).length
  zero_queued : ∀ f ∈ files, alGetD ind f 0 = 0 →
    f ∈ queue ∨ (alGet order f).isSome

/-- Well-formedness of the topological-sort input as produced by
`build_dependency_graph`. -/
structure KahnHyps (files : List (List Char))
    (impItems : List (List Char × List (List Char))) : Prop where
  files_nodup : files.Nodup
  keys_sub : ∀ p ∈ impItems, p.1 ∈ files
  keys_nodup : (impItems.map Prod.fst).Nodup
  vals_nodup : ∀ p ∈ impItems, p.2.Nodup

theorem internalDeps_nodup (files : List (List Char))
    (impItems : List (List Char × List (List Char)))
    (H : KahnHyps files impItems) (f : List Char) :
    (internalDeps files impItems f).Nodup := by
  unfold internalDeps alGetD
  cases h : alGet impItems f with
  | none => simp
  | some ds =>
    have hmem := alGet_mem impItems f ds h
    have := H.vals_nodup (f, ds) hmem
    simpa using this.filter _

theorem internalDeps_sub_files (files : List (List Char))
    (impItems : List (List Char × List (List Char))) (f d : List Char)
    (h : d ∈ internalDeps files impItems f) : d ∈ files := by
  unfold internalDeps at h
  rw [List.mem_filter] at h
  simpa using h.2

theorem mem_itemsDependents_iff_internal (files : List (List Char))
    (impItems : List (List Char × List (List Char)))
    (hknd : (impItems.map Prod.fst).Nodup) (node g : List Char) :
    g ∈ itemsDependents files impItems node ↔
      node ∈ internalDeps files impItems g := by
  rw [mem_itemsDependents files impItems hknd]
  unfold internalDeps
  rw [List.mem_filter]
  simp

theorem filter_length_lt_of_notSat {α} (l : List α) (p : α → Bool) (a : α)
    (ha : a ∈ l) (hpa : ¬ p a) : (l.filter p).length < l.length := by
  induction l with
  | nil => simp at ha
  | cons x xs ih =>
    rcases List.mem_cons.mp ha with h | h
    · subst h
      rw [List.filter_cons, if_neg (by simpa using hpa)]
      have := List.length_filter_le p xs
      simp
      omega
    · rw [List.filter_cons]
      split
      · simpa using ih h
      · have := ih h
        simp
        omega

theorem filter_length_two_misses {α} (l : List α) (p : α → Bool) (a b : α)
    (hnd : l.Nodup) (ha : a ∈ l) (hb : b ∈ l) (hab : a ≠ b)
    (hpa : ¬ p a) (hpb : ¬ p b) : (l.filter p).length + 2 ≤ l.length := by
  induction l with
  | nil => simp at ha
  | cons x xs ih =>
    rcases List.nodup_cons.mp hnd with ⟨hx, hxs⟩
    rcases List.mem_cons.mp ha with h1 | h1
    · subst h1
      have hbxs : b ∈ xs := by
        rcases List.mem_cons.mp hb with h2 | h2
        · exact absurd h2.symm hab
        · exact h2
      rw [List.filter_cons, if_neg (by simpa using hpa)]
      have := filter_length_lt_of_notSat xs p b hbxs hpb
      simp
      omega
    · rcases List.mem_cons.mp hb with h2 | h2
      · subst h2
        rw [List.filter_cons, if_neg (by simpa using hpb)]
        have := filter_length_lt_of_notSat xs p a h1 hpa
        simp
        omega
      · rw [List.filter_cons]
        split
        · have := ih hxs h1 h2
          simp
          omega
        · have := ih hxs h1 h2
          simp
          omega

theorem filter_length_orEq {α} [DecidableEq α] (l : List α) (p : α → Bool)
    (a : α) (hnd : l.Nodup) (hpa : ¬ p a) :
    (l.filter (fun x => p x || decide (x = a))).length =
      (l.filter p).length + (if a ∈ l then 1 else 0) := by
  induction l with
  | nil => simp
  | cons x xs ih =>
    rcases List.nodup_cons.mp hnd with ⟨hx, hxs⟩
    by_cases hxa : x = a
    · subst hxa
      rw [List.filter_cons, List.filter_cons,
        if_pos (by simp), if_neg (by simpa using hpa),
        if_pos (List.mem_cons_self _ _)]
      have hcong : xs.filter (fun y => p y || decide (y = x)) = xs.filter p := by
        apply List.filter_congr
        intro y hy
        have : y ≠ x := fun hc => hx (hc ▸ hy)
        simp [this]
      rw [hcong]
      simp
    · rw [List.filter_cons, List.filter_cons]
      have hmem : (x ∈ xs → a ∈ x :: xs → a ∈ xs) := by
        intro _ hmem
        rcases List.mem_cons.mp hmem with h | h
        · exact absurd h.symm hxa
        · exact h
      have hif : (if a ∈ x :: xs then 1 else 0) = (if a ∈ xs then 1 else 0) := by
        by_cases h : a ∈ xs
        · rw [if_pos h, if_pos (List.mem_cons_of_mem _ h)]
        · rw [if_neg h, if_neg (by
            intro hc
            rcases List.mem_cons.mp hc with h2 | h2
            · exact hxa h2.symm
            · exact h h2)]
      by_cases hpx : p x
      · rw [if_pos (by simp [hpx]), if_pos hpx]
        simp only [List.length_cons]
        rw [ih hxs]
        rw [hif]
        omega
      · rw [if_neg (by simp [hpx, hxa]), if_neg hpx]
        rw [ih hxs, hif]

theorem loopInv_step (files : List (List Char))
    (impItems : List (List Char × List (List Char)))
    (H : KahnHyps files impItems)
    (ind : List (List Char × Int)) (node : List Char) (rest : List (List Char))
    (order : List (List Char × Nat)) (idx : Nat)
    (inv : LoopInv files impItems ind (node :: rest) order idx) :
    LoopInv files impItems
      (decDependents (itemsDependents files impItems node) ind []).1
      (rest ++ (decDependents (itemsDependents files impItems node) ind []).2)
      (alSet order node idx) (idx + 1) := by
  set deps := itemsDependents files impItems node with hdeps
  have hdnd : deps.Nodup := itemsDependents_nodup files impItems H.keys_nodup node
  have hdmem : ∀ g, g ∈ deps ↔ node ∈ internalDeps files impItems g :=
    mem_itemsDependents_iff_internal files impItems H.keys_nodup node
  have hnodeq : alGet order node = none :=
    inv.queue_not_ordered node (List.mem_cons_self _ _)
  have hnodefiles : node ∈ files := inv.queue_files node (List.mem_cons_self _ _)
  have hnodekeys : node ∉ alKeys order := (alGet_eq_none_iff order node).mp hnodeq
  have horder' : alSet order node idx = order ++ [(node, idx)] :=
    alSet_notMem order node idx hnodekeys
  have hget' : ∀ k, alGet (alSet order node idx) k =
      if node = k then some idx else alGet order k := fun k => alGet_alSet order node idx k
  have hgets : ∀ g, alGetD (decDependents deps ind []).1 g 0 =
      alGetD ind g 0 - (if g ∈ deps then 1 else 0) := by
    intro g
    exact decDependents_get deps hdnd ind [] g
  have hA : (decDependents deps ind []).2 =
      deps.filter (fun f => decide (alGetD ind f 0 = 1)) := by
    simpa using decDependents_appends deps hdnd ind []
  have hAmem : ∀ g, g ∈ (decDependents deps ind []).2 ↔
      (g ∈ deps ∧ alGetD ind g 0 = 1) := by
    intro g
    rw [hA, List.mem_filter]
    simp
  have hrest_sub : ∀ q ∈ rest, q ∈ node :: rest := fun q hq => List.mem_cons_of_mem _ hq
  have hval_lt : ∀ k r, alGet order k = some r → r < idx := by
    intro k r hk
    have hmem := alGet_mem order k r hk
    have : r ∈ order.map Prod.snd := by
      exact List.mem_map_of_mem Prod.snd hmem
    rw [inv.vals_eq] at this
    rw [inv.idx_eq]
    exact List.mem_range.mp this
  -- members of the append list are unordered files with current degree 1
  have hAfiles : ∀ g ∈ (decDependents deps ind []).2, g ∈ files := by
    intro g hg
    have := (hAmem g).mp hg
    have hkey := itemsDependents_sub_keys files impItems node g (hdeps ▸ this.1)
    rw [List.mem_map] at hkey
    obtain ⟨p, hp, rfl⟩ := hkey
    exact H.keys_sub p hp
  have hAnotord : ∀ g ∈ (decDependents deps ind []).2, alGet order g = none := by
    intro g hg
    obtain ⟨hgd, hg1⟩ := (hAmem g).mp hg
    by_contra hc
    rw [← Ne, Option.ne_none_iff_exists'] at hc
    obtain ⟨rg, hrg⟩ := hc
    -- an ordered file has all dependencies ordered, hence degree 0
    have hall := inv.ord_deps g rg hrg
    have hfull : ((internalDeps files impItems g).filter
        (fun d => (alGet order d).isSome)).length =
        (internalDeps files impItems g).length := by
      have : (internalDeps files impItems g).filter
          (fun d => (alGet order d).isSome) = internalDeps files impItems g := by
        rw [List.filter_eq_self]
        intro d hd
        obtain ⟨rd, hrd, _⟩ := hall d hd
        simp [hrd]
      rw [this]
    have := inv.ind_eq g (hAfiles g hg)
    rw [hfull] at this
    rw [hg1] at this
    omega
  have hAnotnode : node ∉ (decDependents deps ind []).2 := by
    intro hc
    obtain ⟨_, h1⟩ := (hAmem node).mp hc
    have := inv.queue_zero node (List.mem_cons_self _ _)
    omega
  have hAnotrest : ∀ g ∈ (decDependents deps ind []).2, g ∉ rest := by
    intro g hg hc
    obtain ⟨_, h1⟩ := (hAmem g).mp hg
    have := inv.queue_zero g (List.mem_cons_of_mem _ hc)
    omega
  have hrest_nodup : rest.Nodup := (List.nodup_cons.mp inv.queue_nodup).2
  have hnode_rest : node ∉ rest := (List.nodup_cons.mp inv.queue_nodup).1
  constructor
  case keys_nodup =>
    rw [horder']
    simp only [alKeys, List.map_append, List.map_cons, List.map_nil]
    rw [List.nodup_append]
    refine ⟨inv.keys_nodup, by simp, ?_⟩
    intro a ha hb
    simp only [List.mem_singleton] at hb
    subst hb
    exact hnodekeys ha
  case vals_eq =>
    rw [horder']
    simp only [List.map_append, List.map_cons, List.map_nil, List.length_append,
      List.length_cons, List.length_nil]
    rw [inv.vals_eq, inv.idx_eq, List.range_succ]
  case idx_eq =>
    rw [horder']
    simp [inv.idx_eq]
  case keys_files =>
    intro f hf
    rw [horder'] at hf
    simp only [alKeys, List.map_append, List.map_cons, List.map_nil,
      List.mem_append, List.mem_singleton] at hf
    rcases hf with hf | hf
    · exact inv.keys_files f hf
    · subst hf; exact hnodefiles
  case ord_deps =>
    intro f rf hf d hd
    rw [hget'] at hf
    by_cases hfn : node = f
    · subst hfn
      rw [if_pos rfl] at hf
      obtain rfl := Option.some.inj hf
      have hds := inv.queue_ready node (List.mem_cons_self _ _) d hd
      obtain ⟨rd, hrd⟩ := Option.isSome_iff_exists.mp hds
      have hdn : node ≠ d := by
        intro hc
        rw [← hc, hnodeq] at hrd
        exact Option.noConfusion hrd
      refine ⟨rd, ?_, ?_⟩
      · rw [hget', if_neg hdn]
        exact hrd
      · exact hval_lt d rd hrd
    · rw [if_neg hfn] at hf
      obtain ⟨rd, hrd, hlt⟩ := inv.ord_deps f rf hf d hd
      have hdn : node ≠ d := by
        intro hc
        rw [← hc, hnodeq] at hrd
        exact Option.noConfusion hrd
      refine ⟨rd, ?_, hlt⟩
      rw [hget', if_neg hdn]
      exact hrd
  case queue_nodup =>
    rw [List.nodup_append]
    refine ⟨hrest_nodup, hA ▸ hdnd.filter _, ?_⟩
    intro a ha hb
    exact hAnotrest a hb ha
  case queue_files =>
    intro q hq
    rcases List.mem_append.mp hq with h | h
    · exact inv.queue_files q (hrest_sub q h)
    · exact hAfiles q h
  case queue_not_ordered =>
    intro q hq
    rcases List.mem_append.mp hq with h | h
    · rw [hget', if_neg (fun hc => hnode_rest (by rw [hc]; exact h))]
      exact inv.queue_not_ordered q (hrest_sub q h)
    · rw [hget', if_neg (fun hc => hAnotnode (by rw [hc]; exact h))]
      exact hAnotord q h
  case queue_ready =>
    intro q hq d hd
    rcases List.mem_append.mp hq with h | h
    · have := inv.queue_ready q (hrest_sub q h) d hd
      rw [hget']
      by_cases hdn : node = d
      · rw [if_pos hdn]; simp
      · rw [if_neg hdn]; exact this
    · -- q reached degree zero in this step: its only unordered
      -- dependency was node, which is ordered now
      obtain ⟨hqd, hq1⟩ := (hAmem q).mp h
      rw [hget']
      by_cases hdn : node = d
      · rw [if_pos hdn]; simp
      · rw [if_neg hdn]
        by_contra hc
        rw [Option.not_isSome_iff_eq_none] at hc
        -- both d and node are unordered members of internalDeps q
        have hnq : node ∈ internalDeps files impItems q := (hdmem q).mp hqd
        have hdq : d ∈ internalDeps files impItems q := hd
        have hnsat : ¬ ((alGet order node).isSome = true) := by simp [hnodeq]
        have hdsat : ¬ ((alGet order d).isSome = true) := by simp [hc]
        have hnd2 := filter_length_two_misses (internalDeps files impItems q)
          (fun x => (alGet order x).isSome) node d
          (internalDeps_nodup files impItems H q) hnq hdq
          (fun hcc => hdn hcc) hnsat hdsat
        have := inv.ind_eq q (hAfiles q h)
        omega
  case queue_zero =>
    intro q hq
    rcases List.mem_append.mp hq with h | h
    · rw [hgets]
      have h0 := inv.queue_zero q (hrest_sub q h)
      have hqnd : q ∉ deps := by
        intro hc
        have hnq := (hdmem q).mp hc
        have := inv.queue_ready q (hrest_sub q h) node hnq
        rw [hnodeq] at this
        simp at this
      rw [if_neg hqnd]
      omega
    · obtain ⟨hqd, hq1⟩ := (hAmem q).mp h
      rw [hgets, if_pos hqd, hq1]
      omega
  case ind_eq =>
    intro f hf
    rw [hgets]
    have hbase := inv.ind_eq f hf
    have hcong : (internalDeps files impItems f).filter
        (fun d => (alGet (alSet order node idx) d).isSome) =
        (internalDeps files impItems f).filter
        (fun d => (alGet order d).isSome || decide (d = node)) := by
      apply List.filter_congr
      intro d _
      rw [hget']
      by_cases hdn : node = d
      · subst hdn
        simp [hnodeq]
      · rw [if_neg hdn]
        have hdn' : ¬ d = node := fun hc => hdn hc.symm
        simp [hdn']
    rw [hcong]
    rw [filter_length_orEq (internalDeps files impItems f)
      (fun d => (alGet order d).isSome) node
      (internalDeps_nodup files impItems H f) (by simp [hnodeq])]
    by_cases hfd : f ∈ deps
    · have hnf : node ∈ internalDeps files impItems f := (hdmem f).mp hfd
      rw [if_pos hfd, if_pos hnf]
      push_cast
      omega
    · have hnf : node ∉ internalDeps files impItems f :=
        fun hc => hfd ((hdmem f).mpr hc)
      rw [if_neg hfd, if_neg hnf]
      push_cast
      omega
  case zero_queued =>
    intro f hf h0
    rw [hgets] at h0
    by_cases hfd : f ∈ deps
    · rw [if_pos hfd] at h0
      have h1 : alGetD ind f 0 = 1 := by omega
      left
      rw [List.mem_append]
      right
      exact (hAmem f).mpr ⟨hfd, h1⟩
    · rw [if_neg hfd] at h0
      have := inv.zero_queued f hf (by omega)
      rcases this with h | h
      · rcases List.mem_cons.mp h with h1 | h1
        · subst h1
          right
          rw [hget', if_pos rfl]
          simp
        · left
          exact List.mem_append.mpr (Or.inl h1)
      · right
        rw [hget']
        by_cases hdn : node = f
        · rw [if_pos hdn]; simp
        · rw [if_neg hdn]; exact h

theorem filter_map_pair {α β : Type} (files : List α) (g : α → β) (p : β → Bool) :
    (files.map g).filter p = (files.filter (fun f => p (g f))).map g := by
  induction files with
  | nil => simp
  | cons f fs ih =>
    simp only [List.map_cons, List.filter_cons]
    by_cases h : p (g f)
    · rw [if_pos h, if_pos h, List.map_cons, ih]
    · rw [if_neg h, if_neg h, ih]

theorem kahnLoop_master (files : List (List Char))
    (impItems : List (List Char × List (List Char)))
    (H : KahnHyps files impItems) :
    ∀ (n : Nat) (ind : List (List Char × Int)) (queue : List (List Char))
      (order : List (List Char × Nat)) (idx : Nat),
      kahnMeasure ind queue ≤ n →
      LoopInv files impItems ind queue order idx →
      ∃ indF : List (List Char × Int),
        LoopInv files impItems indF []
          (kahnLoop (kahnInit files impItems).depm ind queue order idx).1
          (kahnLoop (kahnInit files impItems).depm ind queue order idx).2 ∧
        (∀ k r, alGet order k = some r →
          alGet (kahnLoop (kahnInit files impItems).depm ind queue order idx).1 k
            = some r) ∧
        (∀ j (hj : j < queue.length),
          alGet (kahnLoop (kahnInit files impItems).depm ind queue order idx).1
            (queue.get ⟨j, hj⟩) = some (idx + j)) := by
  intro n
  induction n with
  | zero =>
    intro ind queue order idx hm inv
    cases queue with
    | nil =>
      rw [kahnLoop_nil]
      exact ⟨ind, inv, fun k r h => h, fun j hj => absurd hj (by simp)⟩
    | cons node rest => simp [kahnMeasure] at hm
  | succ n ih =>
    intro ind queue order idx hm inv
    cases queue with
    | nil =>
      rw [kahnLoop_nil]
      exact ⟨ind, inv, fun k r h => h, fun j hj => absurd hj (by simp)⟩
    | cons node rest =>
      rw [kahnLoop_cons]
      have hdepm : alGetD (kahnInit files impItems).depm node [] =
          itemsDependents files impItems node :=
        (kahnInit_shape files impItems H.files_nodup H.keys_sub H.vals_nodup
          H.keys_nodup).depm_get node
      rw [hdepm]
      have inv' := loopInv_step files impItems H ind node rest order idx inv
      have hnodeq : alGet order node = none :=
        inv.queue_not_ordered node (List.mem_cons_self _ _)
      have hmeas : kahnMeasure
          (decDependents (itemsDependents files impItems node) ind []).1
          (rest ++ (decDependents (itemsDependents files impItems node) ind []).2) ≤ n := by
        have hdec := decDependents_measure (itemsDependents files impItems node) ind []
        simp only [List.length_nil] at hdec
        simp only [kahnMeasure, List.length_cons, List.length_append] at hm ⊢
        omega
      obtain ⟨indF, invF, stabF, fifoF⟩ := ih _ _ _ _ hmeas inv'
      refine ⟨indF, invF, ?_, ?_⟩
      · intro k r hk
        apply stabF
        rw [alGet_alSet]
        have hkn : ¬ node = k := by
          intro hc
          rw [← hc, hnodeq] at hk
          exact Option.noConfusion hk
        rw [if_neg hkn]
        exact hk
      · intro j hj
        cases j with
        | zero =>
          have : (node :: rest).get ⟨0, hj⟩ = node := rfl
          rw [this]
          have h0 : alGet (alSet order node idx) node = some idx := by
            rw [alGet_alSet, if_pos rfl]
          have := stabF node idx h0
          simpa using this
        | succ j =>
          have hjr : j < rest.length := by
            simpa using Nat.lt_of_succ_lt_succ hj
          have hget1 : (node :: rest).get ⟨j + 1, hj⟩ = rest.get ⟨j, hjr⟩ := rfl
          have hjra : j < (rest ++
              (decDependents (itemsDependents files impItems node) ind []).2).length := by
            simp
            omega
          have hget2 : (rest ++
              (decDependents (itemsDependents files impItems node) ind []).2).get
                ⟨j, hjra⟩ = rest.get ⟨j, hjr⟩ := by
            exact List.get_append j hjr
          have := fifoF j hjra
          rw [hget2] at this
          rw [hget1, this]
          congr 1
          omega

theorem queue0_eq (files : List (List Char))
    (impItems : List (List Char × List (List Char)))
    (H : KahnHyps files impItems) :
    (((kahnInit files impItems).indeg.filter (fun p => p.2 = 0)).map Prod.fst) =
      files.filter (fun f => decide ((internalDeps files impItems f).length = 0)) := by
  have hshape := kahnInit_shape files impItems H.files_nodup H.keys_sub
    H.vals_nodup H.keys_nodup
  have hcount : ∀ f, itemsCount files impItems f =
      (internalDeps files impItems f).length :=
    itemsCount_eq_internalDeps files impItems H.keys_nodup
  rw [hshape.indeg_eq]
  rw [filter_map_pair files (fun f => (f, (itemsCount files impItems f : Int)))
    (fun p => decide (p.2 = 0))]
  rw [List.map_map]
  have h1 : (files.filter fun f =>
      decide (((itemsCount files impItems f : Int)) = 0)) =
      files.filter (fun f => decide ((internalDeps files impItems f).length = 0)) := by
    apply List.filter_congr
    intro f _
    rw [hcount f]
    simp
  rw [h1]
  simp [Function.comp_def]

theorem loopInv_init (files : List (List Char))
    (impItems : List (List Char × List (List Char)))
    (H : KahnHyps files impItems) :
    LoopInv files impItems (kahnInit files impItems).indeg
      (((kahnInit files impItems).indeg.filter (fun p => p.2 = 0)).map Prod.fst)
      [] 0 := by
  have hshape := kahnInit_shape files impItems H.files_nodup H.keys_sub
    H.vals_nodup H.keys_nodup
  have hcount : ∀ f, itemsCount files impItems f =
      (internalDeps files impItems f).length :=
    itemsCount_eq_internalDeps files impItems H.keys_nodup
  have hq := queue0_eq files impItems H
  have hind : ∀ f, f ∈ files →
      alGetD (kahnInit files impItems).indeg f 0 =
        ((internalDeps files impItems f).length : Int) := by
    intro f hf
    unfold alGetD
    rw [hshape.indeg_eq, alGet_mapForm, if_pos hf]
    rw [hcount f]
    rfl
  constructor
  case keys_nodup => simp [alKeys]
  case vals_eq => simp
  case idx_eq => simp
  case keys_files => intro f hf; simp [alKeys] at hf
  case ord_deps => intro f rf hf; simp [alGet] at hf
  case queue_nodup =>
    rw [hq]
    exact H.files_nodup.filter _
  case queue_files =>
    intro q hqm
    rw [hq] at hqm
    exact List.mem_of_mem_filter hqm
  case queue_not_ordered => intro q _; simp [alGet]
  case queue_ready =>
    intro q hqm d hd
    rw [hq] at hqm
    have := List.of_mem_filter hqm
    simp only [decide_eq_true_eq] at this
    rw [List.length_eq_zero] at this
    rw [this] at hd
    simp at hd
  case queue_zero =>
    intro q hqm
    rw [hq] at hqm
    have hqf := List.mem_of_mem_filter hqm
    have := List.of_mem_filter hqm
    simp only [decide_eq_true_eq] at this
    rw [hind q hqf, this]
    rfl
  case ind_eq =>
    intro f hf
    rw [hind f hf]
    have : (internalDeps files impItems f).filter
        (fun d => (alGet ([] : List (List Char × Nat)) d).isSome) = [] := by
      simp [alGet]
    rw [this]
    simp
  case zero_queued =>
    intro f hf h0
    left
    rw [hq, List.mem_filter]
    rw [hind f hf] at h0
    refine ⟨hf, ?_⟩
    simp only [decide_eq_true_eq]
    exact_mod_cast h0

theorem lexLe_total : ∀ a b : List Char, lexLe a b || lexLe b a := by
  intro a
  induction a with
  | nil => intro b; simp [lexLe]
  | cons x xs ih =>
    intro b
    cases b with
    | nil => simp [lexLe]
    | cons y ys =>
      simp only [lexLe]
      by_cases h : x = y
      · rw [if_pos h, if_pos h.symm]
        exact ih ys
      · rw [if_neg h, if_neg (fun hc => h hc.symm)]
        rcases lt_trichotomy x y with hlt | heq | hgt
        · simp [hlt]
        · exact absurd heq h
        · simp [hgt, not_lt_of_lt hgt]

theorem lexLe_trans : ∀ a b c : List Char,
    lexLe a b = true → lexLe b c = true → lexLe a c = true := by
  intro a
  induction a with
  | nil => intro b c _ _; simp [lexLe]
  | cons x xs ih =>
    intro b c hab hbc
    cases b with
    | nil => simp [lexLe] at hab
    | cons y ys =>
      cases c with
      | nil => simp [lexLe] at hbc
      | cons z zs =>
        simp only [lexLe] at hab hbc ⊢
        by_cases hxy : x = y <;> by_cases hyz : y = z
        · rw [if_pos (hxy.trans hyz)]
          rw [if_pos hxy] at hab
          rw [if_pos hyz] at hbc
          exact ih ys zs hab hbc
        · have hxz : ¬ x = z := fun hc => hyz (hxy ▸ hc)
          rw [if_neg hxz]
          rw [if_neg hyz] at hbc
          rw [hxy]
          exact hbc
        · have hxz : ¬ x = z := fun hc => hxy (hc.trans hyz.symm)
          rw [if_neg hxz]
          rw [if_neg hxy] at hab
          rw [← hyz]
          exact hab
        · rw [if_neg hxy] at hab
          rw [if_neg hyz] at hbc
          simp only [decide_eq_true_eq] at hab hbc
          have hxz : x < z := lt_trans hab hbc
          rw [if_neg (fun hc : x = z => absurd (hc ▸ hxz) (lt_irrefl z))]
          simp [hxz]

theorem sortPaths_sorted (l : List (List Char)) :
    (sortPaths l).Pairwise (fun a b => lexLe a b = true) :=
  pySorted_sorted lexLe lexLe_total lexLe_trans l

theorem leftoverFold_spec :
    ∀ (circ : List (List Char)) (start : List (List Char × Nat) × Nat),
      circ.Nodup →
      (∀ f ∈ circ, alGet start.1 f = none) →
      (alKeys start.1).Nodup →
      start.1.map Prod.snd = List.range start.1.length →
      start.2 = start.1.length →
      (∀ k r, alGet start.1 k = some r →
        alGet (circ.foldl (fun st f => (alSet st.1 f st.2, st.2 + 1)) start).1 k = some r) ∧
      (∀ j (hj : j < circ.length),
        alGet (circ.foldl (fun st f => (alSet st.1 f st.2, st.2 + 1)) start).1
          (circ.get ⟨j, hj⟩) = some (start.2 + j)) ∧
      ((circ.foldl (fun st f => (alSet st.1 f st.2, st.2 + 1)) start).1.map Prod.snd =
        List.range (circ.foldl (fun st f => (alSet st.1 f st.2, st.2 + 1)) start).1.length) ∧
      (alKeys (circ.foldl (fun st f => (alSet st.1 f st.2, st.2 + 1)) start).1).Nodup ∧
      alKeys (circ.foldl (fun st f => (alSet st.1 f st.2, st.2 + 1)) start).1 =
        alKeys start.1 ++ circ := by
  intro circ
  induction circ with
  | nil =>
    intro start _ _ hknd hvals _
    refine ⟨fun k r h => h, fun j hj => absurd hj (by simp), hvals, hknd, by simp⟩
  | cons f circ ih =>
    intro start hnd hnone hknd hvals hidx
    rcases List.nodup_cons.mp hnd with ⟨hf, hcnd⟩
    have hfkey : f ∉ alKeys start.1 :=
      (alGet_eq_none_iff start.1 f).mp (hnone f (List.mem_cons_self _ _))
    have hset : alSet start.1 f start.2 = start.1 ++ [(f, start.2)] :=
      alSet_notMem start.1 f start.2 hfkey
    have hget1 : ∀ k, alGet (alSet start.1 f start.2) k =
        if f = k then some start.2 else alGet start.1 k :=
      fun k => alGet_alSet start.1 f start.2 k
    simp only [List.foldl_cons]
    have hpre : ∀ g ∈ circ, alGet (alSet start.1 f start.2, start.2 + 1).1 g = none := by
      intro g hg
      show alGet (alSet start.1 f start.2) g = none
      rw [hget1, if_neg (fun hc => hf (by rw [hc]; exact hg))]
      exact hnone g (List.mem_cons_of_mem _ hg)
    have hknd' : (alKeys (alSet start.1 f start.2, start.2 + 1).1).Nodup := by
      show (alKeys (alSet start.1 f start.2)).Nodup
      rw [hset]
      simp only [alKeys, List.map_append, List.map_cons, List.map_nil]
      rw [List.nodup_append]
      exact ⟨hknd, by simp, fun a ha hb => by
        simp only [List.mem_singleton] at hb
        subst hb
        exact hfkey ha⟩
    have hvals' : (alSet start.1 f start.2, start.2 + 1).1.map Prod.snd =
        List.range (alSet start.1 f start.2, start.2 + 1).1.length := by
      show (alSet start.1 f start.2).map Prod.snd = _
      rw [hset]
      simp only [List.map_append, List.map_cons, List.map_nil, List.length_append,
        List.length_cons, List.length_nil]
      rw [hvals, hidx, List.range_succ]
    have hidx' : (alSet start.1 f start.2, start.2 + 1).2 =
        (alSet start.1 f start.2, start.2 + 1).1.length := by
      show start.2 + 1 = (alSet start.1 f start.2).length
      rw [hset]
      simp [hidx]
    obtain ⟨stab, fifo, valsF, kndF, keysF⟩ :=
      ih (alSet start.1 f start.2, start.2 + 1) hcnd hpre hknd' hvals' hidx'
    refine ⟨?_, ?_, valsF, kndF, ?_⟩
    · intro k r hk
      apply stab
      show alGet (alSet start.1 f start.2) k = some r
      rw [hget1]
      have : ¬ f = k := by
        intro hc
        rw [← hc] at hk
        rw [hnone f (List.mem_cons_self _ _)] at hk
        exact Option.noConfusion hk
      rw [if_neg this]
      exact hk
    · intro j hj
      cases j with
      | zero =>
        have hgf : (f :: circ).get ⟨0, hj⟩ = f := rfl
        rw [hgf]
        have h0 : alGet (alSet start.1 f start.2) f = some start.2 := by
          rw [hget1, if_pos rfl]
        have := stab f start.2 h0
        simpa using this
      | succ j =>
        have hjr : j < circ.length := by simpa using Nat.lt_of_succ_lt_succ hj
        have hgf : (f :: circ).get ⟨j + 1, hj⟩ = circ.get ⟨j, hjr⟩ := rfl
        rw [hgf]
        have := fifo j hjr
        rw [this]
        show some ((alSet start.1 f start.2, start.2 + 1).2 + j) = some (start.2 + (j + 1))
        congr 1
        show start.2 + 1 + j = start.2 + (j + 1)
        omega
    · rw [keysF]
      show alKeys (alSet start.1 f start.2) ++ circ = alKeys start.1 ++ f :: circ
      rw [hset]
      simp [alKeys]

theorem alGet_val_inj (l : List (List Char × Nat))
    (hknd : (alKeys l).Nodup) (hvals : l.map Prod.snd = List.range l.length)
    (g h : List Char) (r : Nat)
    (hg : alGet l g = some r) (hh : alGet l h = some r) : g = h := by
  have hvnd : (l.map Prod.snd).Nodup := by
    rw [hvals]
    exact List.nodup_range _
  have hgm := alGet_mem l g r hg
  have hhm := alGet_mem l h r hh
  obtain ⟨i, hi⟩ := List.mem_iff_get.mp hgm
  obtain ⟨j, hj⟩ := List.mem_iff_get.mp hhm
  have hij : i = j := by
    have h1 : (l.map Prod.snd).get ⟨i.1, by simpa using i.2⟩ =
        (l.map Prod.snd).get ⟨j.1, by simpa using j.2⟩ := by
      simp only [List.get_map]
      rw [show l.get ⟨i.1, i.2⟩ = (g, r) from hi,
        show l.get ⟨j.1, j.2⟩ = (h, r) from hj]
    have := List.Nodup.get_inj_iff hvnd |>.mp h1
    exact Fin.ext (by simpa using this)
  rw [← hij] at hj
  rw [hi] at hj
  simpa using congrArg Prod.fst hj

/-- The facts about `_topological_sort` that the ordering claims use. -/
structure TopoFacts (files : List (List Char))
    (impItems : List (List Char × List (List Char))) (T : TopoResult) : Prop where
  total : ∀ f ∈ files, (alGet T.order f).isSome
  keys_perm : List.Perm (alKeys T.order) files
  vals_eq : T.order.map Prod.snd = List.range T.order.length
  keys_nodup : (alKeys T.order).Nodup
  circ_sorted : T.circular.Pairwise (fun a b => lexLe a b = true)
  circ_sub : ∀ f ∈ T.circular, f ∈ files
  circ_nodup : T.circular.Nodup
  circ_ranks_after : ∀ f ∈ T.circular, ∀ g ∈ files, g ∉ T.circular →
    ∀ rf rg, alGet T.order f = some rf → alGet T.order g = some rg → rg < rf
  circ_ranks_asc : T.circular.Pairwise (fun a b => ∀ ra rb,
    alGet T.order a = some ra → alGet T.order b = some rb → ra < rb)
  edge_ranks : ∀ A rA, A ∉ T.circular → alGet T.order A = some rA →
    ∀ B ∈ internalDeps files impItems A,
      ∃ rB, alGet T.order B = some rB ∧ rB < rA
  zeros_first : ∀ j (hj : j < (files.filter (fun f =>
      decide ((internalDeps files impItems f).length = 0))).length),
    alGet T.order ((files.filter (fun f =>
      decide ((internalDeps files impItems f).length = 0))).get ⟨j, hj⟩) = some j
  circ_dep : ∀ f ∈ T.circular, ∃ d ∈ internalDeps files impItems f, d ∈ T.circular

theorem topologicalSort_facts (files : List (List Char))
    (impItems : List (List Char × List (List Char)))
    (H : KahnHyps files impItems) :
    TopoFacts files impItems (topologicalSort files impItems) := by
  have hini := loopInv_init files impItems H
  obtain ⟨indF, invF, stab0, fifo0⟩ := kahnLoop_master files impItems H
    (kahnMeasure (kahnInit files impItems).indeg
      (((kahnInit files impItems).indeg.filter (fun p => p.2 = 0)).map Prod.fst))
    (kahnInit files impItems).indeg
    (((kahnInit files impItems).indeg.filter (fun p => p.2 = 0)).map Prod.fst)
    [] 0 (le_refl _) hini
  set ini := kahnInit files impItems with hini_def
  set q0 := (ini.indeg.filter (fun p => p.2 = 0)).map Prod.fst with hq0_def
  set res := kahnLoop ini.depm ini.indeg q0 [] 0 with hres_def
  set circ := sortPaths ((files.filter (fun f => (alGet res.1 f).isNone)).dedup)
    with hcirc_def
  set fin := circ.foldl (fun st f => (alSet st.1 f st.2, st.2 + 1)) res with hfin_def
  have hT : topologicalSort files impItems = { order := fin.1, circular := circ } := rfl
  -- basic facts about the loop result
  have hfilter_nodup : (files.filter (fun f => (alGet res.1 f).isNone)).Nodup :=
    H.files_nodup.filter _
  have hdedup : (files.filter (fun f => (alGet res.1 f).isNone)).dedup =
      files.filter (fun f => (alGet res.1 f).isNone) :=
    List.Nodup.dedup hfilter_nodup
  have hcirc_perm : List.Perm circ (files.filter (fun f => (alGet res.1 f).isNone)) := by
    rw [hcirc_def, hdedup]
    exact pySorted_perm lexLe _
  have hcirc_mem : ∀ f, f ∈ circ ↔ (f ∈ files ∧ alGet res.1 f = none) := by
    intro f
    rw [hcirc_perm.mem_iff, List.mem_filter]
    simp [Option.isNone_iff_eq_none]
  have hcirc_nodup : circ.Nodup := hcirc_perm.symm.nodup hfilter_nodup
  have hcirc_none : ∀ f ∈ circ, alGet res.1 f = none :=
    fun f hf => ((hcirc_mem f).mp hf).2
  have hcirc_sub : ∀ f ∈ circ, f ∈ files := fun f hf => ((hcirc_mem f).mp hf).1
  obtain ⟨stab1, fifo1, valsFin, kndFin, keysFin⟩ :=
    leftoverFold_spec circ res hcirc_nodup hcirc_none invF.keys_nodup
      invF.vals_eq invF.idx_eq
  have hloop_lt : ∀ k r, alGet res.1 k = some r → r < res.2 := by
    intro k r hk
    have hmem := alGet_mem res.1 k r hk
    have : r ∈ res.1.map Prod.snd := List.mem_map_of_mem Prod.snd hmem
    rw [invF.vals_eq] at this
    rw [invF.idx_eq]
    exact List.mem_range.mp this
  have hfin_of_circ : ∀ f ∈ circ, ∃ j, alGet fin.1 f = some (res.2 + j) := by
    intro f hf
    obtain ⟨i, hi⟩ := List.mem_iff_get.mp hf
    refine ⟨i.1, ?_⟩
    have := fifo1 i.1 i.2
    rw [show circ.get ⟨i.1, i.2⟩ = f from hi] at this
    exact this
  -- ordering facts transported to the final map
  rw [hT]
  constructor
  case total =>
    intro f hf
    show (alGet fin.1 f).isSome
    cases hof : alGet res.1 f with
    | some r => rw [stab1 f r hof]; rfl
    | none =>
      have hfc : f ∈ circ := (hcirc_mem f).mpr ⟨hf, hof⟩
      obtain ⟨j, hj⟩ := hfin_of_circ f hfc
      rw [hj]
      rfl
  case keys_perm =>
    show List.Perm (alKeys fin.1) files
    rw [keysFin]
    have hperm1 : List.Perm (alKeys res.1)
        (files.filter (fun f => (alGet res.1 f).isSome)) := by
      rw [List.perm_ext_iff_of_nodup invF.keys_nodup (H.files_nodup.filter _)]
      intro k
      rw [List.mem_filter]
      constructor
      · intro hk
        exact ⟨invF.keys_files k hk, by
          rw [← alGet_isSome_iff] at hk
          simpa using hk⟩
      · intro ⟨_, hk⟩
        rw [← alGet_isSome_iff]
        simpa using hk
    have hperm2 : List.Perm circ
        (files.filter (fun f => !(alGet res.1 f).isSome)) := by
      refine hcirc_perm.trans ?_
      have : (files.filter (fun f => (alGet res.1 f).isNone)) =
          (files.filter (fun f => !(alGet res.1 f).isSome)) := by
        apply List.filter_congr
        intro f _
        cases alGet res.1 f <;> rfl
      rw [this]
    refine ((hperm1.append hperm2).trans ?_)
    exact List.filter_append_perm _ files
  case vals_eq => exact valsFin
  case keys_nodup => exact kndFin
  case circ_sorted =>
    show circ.Pairwise _
    rw [hcirc_def, hdedup]
    exact sortPaths_sorted _
  case circ_sub => exact hcirc_sub
  case circ_nodup => exact hcirc_nodup
  case circ_ranks_after =>
    intro f hf g hg hgnc rf rg hrf hrg
    obtain ⟨j, hj⟩ := hfin_of_circ f hf
    show rg < rf
    have hrf2 : rf = res.2 + j := by
      rw [hj] at hrf
      exact (Option.some.inj hrf).symm
    have hgsome : ∃ r, alGet res.1 g = some r := by
      cases hog : alGet res.1 g with
      | some r => exact ⟨r, rfl⟩
      | none => exact absurd ((hcirc_mem g).mpr ⟨hg, hog⟩) hgnc
    obtain ⟨r, hr⟩ := hgsome
    have hst := stab1 g r hr
    rw [hst] at hrg
    have heq : r = rg := Option.some.inj hrg
    have hlt := hloop_lt g r hr
    omega
  case circ_ranks_asc =>
    rw [List.pairwise_iff_get]
    intro i j hij ra rb hra hrb
    have h1 := fifo1 i.1 i.2
    have h2 := fifo1 j.1 j.2
    rw [h1] at hra
    rw [h2] at hrb
    obtain rfl := Option.some.inj hra
    obtain rfl := Option.some.inj hrb
    have : i.1 < j.1 := hij
    omega
  case edge_ranks =>
    intro A rA hAnc hrA B hB
    have hAkeys : A ∈ alKeys fin.1 := by
      by_contra hc
      rw [← alGet_eq_none_iff] at hc
      rw [hrA] at hc
      exact Option.noConfusion hc
    rw [keysFin, List.mem_append] at hAkeys
    have hAO : A ∈ alKeys res.1 := by
      rcases hAkeys with h | h
      · exact h
      · exact absurd h hAnc
    have hAsome := (alGet_isSome_iff res.1 A).mpr hAO
    obtain ⟨rA0, hrA0⟩ := Option.isSome_iff_exists.mp hAsome
    have hstabA := stab1 A rA0 hrA0
    rw [hstabA] at hrA
    obtain rfl := Option.some.inj hrA
    obtain ⟨rB, hrB, hlt⟩ := invF.ord_deps A rA0 hrA0 B hB
    exact ⟨rB, stab1 B rB hrB, hlt⟩
  case zeros_first =>
    intro j hj
    have hq := queue0_eq files impItems H
    have hj0 : j < q0.length := by
      rw [hq0_def, hq]
      exact hj
    have := fifo0 j hj0
    have hq0eq : q0 = files.filter (fun f =>
        decide ((internalDeps files impItems f).length = 0)) := by
      rw [hq0_def, hini_def]
      exact hq
    have hgeteq : q0.get ⟨j, hj0⟩ = (files.filter (fun f =>
        decide ((internalDeps files impItems f).length = 0))).get ⟨j, hj⟩ :=
      List.get_of_eq hq0eq ⟨j, hj0⟩
    rw [hgeteq] at this
    show alGet fin.1 _ = some j
    have := stab1 _ _ this
    rw [this]
    norm_num
  case circ_dep =>
    intro f hf
    have hff := hcirc_sub f hf
    have hfnone := hcirc_none f hf
    have hne : alGetD indF f 0 ≠ 0 := by
      intro hc
      rcases invF.zero_queued f hff hc with h | h
      · simp at h
      · rw [hfnone] at h
        simp at h
    have hind := invF.ind_eq f hff
    have hle : ((internalDeps files impItems f).filter
        (fun d => (alGet res.1 d).isSome)).length ≤
        (internalDeps files impItems f).length :=
      List.length_filter_le _ _
    have hex : ∃ d ∈ internalDeps files impItems f,
        ¬ ((alGet res.1 d).isSome = true) := by
      by_contra hc
      push_neg at hc
      have : (internalDeps files impItems f).filter
          (fun d => (alGet res.1 d).isSome) = internalDeps files impItems f := by
        rw [List.filter_eq_self]
        exact hc
      rw [this] at hind
      omega
    obtain ⟨d, hd, hdn⟩ := hex
    refine ⟨d, hd, ?_⟩
    rw [hcirc_mem]
    refine ⟨internalDeps_sub_files files impItems f d hd, ?_⟩
    rw [Option.not_isSome_iff_eq_none] at hdn
    exact hdn

theorem lexLe_antisymm : ∀ a b : List Char,
    lexLe a b = true → lexLe b a = true → a = b := by
  intro a
  induction a with
  | nil =>
    intro b hab hba
    cases b with
    | nil => rfl
    | cons y ys => simp [lexLe] at hba
  | cons x xs ih =>
    intro b hab hba
    cases b with
    | nil => simp [lexLe] at hab
    | cons y ys =>
      simp only [lexLe] at hab hba
      by_cases hxy : x = y
      · subst hxy
        rw [if_pos rfl] at hab hba
        rw [ih ys hab hba]
      · rw [if_neg hxy] at hab
        rw [if_neg (fun hc => hxy hc.symm)] at hba
        have h1 : x < y := of_decide_eq_true hab
        have h2 : y < x := of_decide_eq_true hba
        exact absurd h1 (lt_asymm h2)

theorem mem_alKeys_alSet [DecidableEq κ] (l : List (κ × ν)) (k : κ) (v : ν)
    (x : κ) : x ∈ alKeys (alSet l k v) ↔ x = k ∨ x ∈ alKeys l := by
  induction l with
  | nil => simp [alSet, alKeys]
  | cons p rest ih =>
    obtain ⟨pk, pv⟩ := p
    simp only [alKeys, List.map_cons] at ih ⊢
    by_cases h : pk = k
    · subst h
      simp only [alSet]
      rw [if_pos trivial]
      simp only [List.map_cons, List.mem_cons]
      tauto
    · simp only [alSet]
      rw [if_neg h]
      simp only [List.map_cons, List.mem_cons]
      rw [ih]
      tauto

theorem alKeys_nodup_alSet [DecidableEq κ] (l : List (κ × ν)) (k : κ) (v : ν)
    (h : (alKeys l).Nodup) : (alKeys (alSet l k v)).Nodup := by
  induction l with
  | nil => simp [alSet, alKeys]
  | cons p rest ih =>
    obtain ⟨pk, pv⟩ := p
    simp only [alKeys, List.map_cons, List.nodup_cons] at h
    by_cases hk : pk = k
    · subst hk
      simp only [alSet]
      rw [if_pos trivial]
      simp only [alKeys, List.map_cons, List.nodup_cons]
      exact h
    · simp only [alSet]
      rw [if_neg hk]
      simp only [alKeys, List.map_cons, List.nodup_cons]
      refine ⟨?_, ih h.2⟩
      intro hc
      rw [show List.map Prod.fst (alSet rest k v) = alKeys (alSet rest k v)
        from rfl, mem_alKeys_alSet] at hc
      rcases hc with rfl | hc
      · exact hk rfl
      · exact h.1 (by simpa [alKeys] using hc)

theorem mem_alSet_elim [DecidableEq κ] (l : List (κ × ν)) (k : κ) (v : ν)
    (p : κ × ν) (h : p ∈ alSet l k v) : p = (k, v) ∨ p ∈ l := by
  induction l with
  | nil => simpa [alSet] using h
  | cons q rest ih =>
    obtain ⟨qk, qv⟩ := q
    by_cases hk : qk = k
    · subst hk
      simp only [alSet] at h
      rw [if_pos trivial] at h
      rw [List.mem_cons] at h
      rcases h with rfl | h
      · exact Or.inl rfl
      · exact Or.inr (List.mem_cons_of_mem _ h)
    · simp only [alSet] at h
      rw [if_neg hk] at h
      rw [List.mem_cons] at h
      rcases h with rfl | h
      · exact Or.inr (List.mem_cons_self _ _)
      · rcases ih h with h | h
        · exact Or.inl h
        · exact Or.inr (List.mem_cons_of_mem _ h)

/-- Well-formedness of the `imports_map` being built: every key is a
project file and every adjacency list is duplicate-free (it models a
Python `set`), and keys are distinct (it models a `dict`). -/
def ImpWF (files : List (List Char)) (gm : GraphMaps) : Prop :=
  (∀ p ∈ gm.importsMap, p.1 ∈ files ∧ p.2.Nodup) ∧
    (alKeys gm.importsMap).Nodup

theorem impWF_resolveImport (files : List (List Char))
    (moduleMap : List (List Char × List Char)) (t current : List Char)
    (hc : current ∈ files) (st : GraphMaps) (h : ImpWF files st) :
    ImpWF files (resolveImport moduleMap t current st) := by
  obtain ⟨hmem, hnd⟩ := h
  simp only [resolveImport]
  split
  · rename_i target hprobe
    split
    · refine ⟨?_, alKeys_nodup_alSet _ _ _ hnd⟩
      intro p hp
      rcases mem_alSet_elim _ _ _ p hp with rfl | hp
      · refine ⟨hc, ?_⟩
        apply setAdd_nodup
        unfold alGetD
        cases hg : alGet st.importsMap current with
        | none => simp
        | some ds =>
          have := hmem (current, ds) (alGet_mem _ _ _ hg)
          simpa using this.2
      · exact hmem p hp
    · exact ⟨hmem, hnd⟩
  · exact ⟨hmem, hnd⟩

theorem impWF_collect (moduleMap : List (List Char × List Char))
    (project : List ProjFile) (files : List (List Char))
    (hsub : ∀ f ∈ project, f.path ∈ files) :
    ImpWF files (collectGraphMaps moduleMap project) := by
  unfold collectGraphMaps
  suffices h : ∀ (ps : List ProjFile), (∀ f ∈ ps, f.path ∈ files) →
      ∀ (st : GraphMaps), ImpWF files st →
      ImpWF files (ps.foldl (fun st f =>
        match f.importTargets with
        | none => st
        | some ts => ts.foldl (fun st t => resolveImport moduleMap t f.path st) st)
        st) by
    refine h project hsub _ ⟨?_, ?_⟩
    · intro p hp
      simp at hp
    · simp [alKeys]
  intro ps
  induction ps with
  | nil =>
    intro _ st hst
    exact hst
  | cons f fs ih =>
    intro hsub2 st hst
    simp only [List.foldl_cons]
    apply ih (fun g hg => hsub2 g (List.mem_cons_of_mem _ hg))
    have hfp : f.path ∈ files := hsub2 f (List.mem_cons_self _ _)
    cases hft : f.importTargets with
    | none => exact hst
    | some ts =>
      clear hft
      induction ts generalizing st with
      | nil => exact hst
      | cons t ts iht =>
        simp only [List.foldl_cons]
        exact iht _ (impWF_resolveImport files moduleMap t f.path hfp st hst)

/-- The project-relative file paths, in enumeration order. -/
def projFiles (project : List ProjFile) : List (List Char) :=
  project.map ProjFile.path

/-- The three edge maps collected for a project. -/
def projGM (project : List ProjFile) : GraphMaps :=
  collectGraphMaps (buildModuleMap (projFiles project)) project

/-- The `imports_map` items handed to `_topological_sort`. -/
def projImports (project : List ProjFile) : List (List Char × List (List Char)) :=
  (projGM project).importsMap

/-- The topological-sort result of a project. -/
def projTopo (project : List ProjFile) : TopoResult :=
  topologicalSort (projFiles project) (projImports project)

/-- The `DependencyNode` built for one file. -/
def graphNode (project : List ProjFile) (rel : List Char) : DependencyNode :=
  { file_path := rel
    imports := sortPaths (alGetD (projGM project).importsMap rel [])
    imported_by := sortPaths (alGetD (projGM project).importedBy rel [])
    external_deps := sortPaths (alGetD (projGM project).externalDeps rel [])
    migration_order := alGet (projTopo project).order rel
    circular_deps :=
      if rel ∈ (projTopo project).circular then
        sortPaths ((projTopo project).circular.filter
          (fun c => c ∈ alGetD (projGM project).importsMap rel []))
      else [] }

theorem buildDependencyGraph_eq (project : List ProjFile) :
    buildDependencyGraph project = (projFiles project).map (graphNode project) :=
  rfl

theorem kahnHyps_of_project (project : List ProjFile)
    (hnd : (projFiles project).Nodup) :
    KahnHyps (projFiles project) (projImports project) := by
  have hwf := impWF_collect (buildModuleMap (projFiles project)) project
    (projFiles project) (fun f hf => List.mem_map_of_mem ProjFile.path hf)
  exact
    { files_nodup := hnd
      keys_sub := fun p hp => (hwf.1 p hp).1
      keys_nodup := hwf.2
      vals_nodup := fun p hp => (hwf.1 p hp).2 }

theorem topoFacts_project (project : List ProjFile)
    (hnd : (projFiles project).Nodup) :
    TopoFacts (projFiles project) (projImports project) (projTopo project) :=
  topologicalSort_facts _ _ (kahnHyps_of_project project hnd)

/-- The internal-import edge relation of a project: `internalEdge p b a`
holds when file `a` has `b` among its resolved internal imports. -/
def internalEdge (project : List ProjFile) (b a : List Char) : Prop :=
  b ∈ internalDeps (projFiles project) (projImports project) a

/-- The files with no internal imports, in enumeration order. -/
def zeroDepFiles (project : List ProjFile) : List (List Char) :=
  (projFiles project).filter (fun f =>
    decide ((internalDeps (projFiles project) (projImports project) f).length = 0))

theorem circ_nil_of_acyclic (project : List ProjFile)
    (hnd : (projFiles project).Nodup)
    (hacyc : WellFounded (internalEdge project)) :
    (projTopo project).circular = [] := by
  have TF := topoFacts_project project hnd
  have hnotin : ∀ f, f ∉ (projTopo project).circular := by
    intro f
    refine @WellFounded.induction _ _ hacyc
      (fun g => g ∉ (projTopo project).circular) f ?_
    intro x ih hx
    obtain ⟨d, hd, hdc⟩ := TF.circ_dep x hx
    exact ih d hd hdc
  exact List.eq_nil_iff_forall_not_mem.mpr hnotin

theorem rank_ge_of_not_zeroDep (project : List ProjFile)
    (hnd : (projFiles project).Nodup) (f : List Char)
    (hnz : f ∉ zeroDepFiles project)
    (r : Nat) (hr : alGet (projTopo project).order f = some r) :
    (zeroDepFiles project).length ≤ r := by
  have TF := topoFacts_project project hnd
  by_contra hlt
  push_neg at hlt
  have hz := TF.zeros_first r hlt
  have heq := alGet_val_inj (projTopo project).order TF.keys_nodup TF.vals_eq
    ((zeroDepFiles project).get ⟨r, hlt⟩) f r hz hr
  have hmem : (zeroDepFiles project).get ⟨r, hlt⟩ ∈ zeroDepFiles project :=
    List.get_mem _ _ _
  rw [heq] at hmem
  exact hnz hmem

theorem circular_deps_ne_nil_iff (project : List ProjFile)
    (hnd : (projFiles project).Nodup) (rel : List Char) :
    (graphNode project rel).circular_deps ≠ [] ↔
      rel ∈ (projTopo project).circular := by
  have TF := topoFacts_project project hnd
  show (if rel ∈ (projTopo project).circular then _ else ([] : List (List Char))) ≠
      [] ↔ _
  by_cases hc : rel ∈ (projTopo project).circular
  · rw [if_pos hc]
    simp only [hc, iff_true]
    obtain ⟨d, hd, hdc⟩ := TF.circ_dep rel hc
    have hdin : d ∈ (projTopo project).circular.filter
        (fun c => decide (c ∈ alGetD (projGM project).importsMap rel [])) := by
      rw [List.mem_filter]
      refine ⟨hdc, ?_⟩
      have hbase : d ∈ alGetD (projImports project) rel [] :=
        List.mem_of_mem_filter hd
      simpa using hbase
    intro hnil
    have hmem : d ∈ sortPaths ((projTopo project).circular.filter
        (fun c => decide (c ∈ alGetD (projGM project).importsMap rel []))) :=
      (pySorted_mem lexLe _ d).mpr hdin
    rw [hnil] at hmem
    exact absurd hmem (List.not_mem_nil d)
  · rw [if_neg hc]
    simp [hc]

/-- C6: in an acyclic project, whenever node A imports node B the
topological sort gives B a strictly smaller migration order than A; the
files with no internal imports receive the ranks 0, 1, ... in
enumeration order, and every file that does have internal imports ranks
after all of them. -/
theorem claim_C6_acyclic_order (project : List ProjFile)
    (hnd : (projFiles project).Nodup)
    (hacyc : WellFounded (internalEdge project)) :
    (∀ A ∈ buildDependencyGraph project, ∀ B ∈ buildDependencyGraph project,
      B.file_path ∈ A.imports →
      ∃ rA rB, A.migration_order = some rA ∧ B.migration_order = some rB ∧
        rB < rA) ∧
    (∀ j (hj : j < (zeroDepFiles project).length),
      ∀ nd ∈ buildDependencyGraph project,
        nd.file_path = (zeroDepFiles project).get ⟨j, hj⟩ →
        nd.migration_order = some j) ∧
    (∀ nd ∈ buildDependencyGraph project,
      nd.file_path ∉ zeroDepFiles project →
      ∀ r, nd.migration_order = some r → (zeroDepFiles project).length ≤ r) := by
  have TF := topoFacts_project project hnd
  have hcirc := circ_nil_of_acyclic project hnd hacyc
  refine ⟨?_, ?_, ?_⟩
  · intro A hA B hB himp
    rw [buildDependencyGraph_eq, List.mem_map] at hA hB
    obtain ⟨ra, hra, rfl⟩ := hA
    obtain ⟨rb, hrb, rfl⟩ := hB
    have himp2 : rb ∈ alGetD (projGM project).importsMap ra [] := by
      have : rb ∈ sortPaths (alGetD (projGM project).importsMap ra []) := himp
      exact (pySorted_mem lexLe _ rb).mp this
    have hBint : rb ∈ internalDeps (projFiles project) (projImports project) ra := by
      unfold internalDeps
      rw [List.mem_filter]
      exact ⟨himp2, by simpa using hrb⟩
    have hAs := TF.total ra hra
    obtain ⟨rA, hrA⟩ := Option.isSome_iff_exists.mp hAs
    have hAnc : ra ∉ (projTopo project).circular := by
      rw [hcirc]
      exact List.not_mem_nil ra
    obtain ⟨rB, hrB, hlt⟩ := TF.edge_ranks ra rA hAnc hrA rb hBint
    exact ⟨rA, rB, hrA, hrB, hlt⟩
  · intro j hj nd hmem hpath
    rw [buildDependencyGraph_eq, List.mem_map] at hmem
    obtain ⟨rel, hrel, rfl⟩ := hmem
    have hpath2 : rel = (zeroDepFiles project).get ⟨j, hj⟩ := hpath
    subst hpath2
    show alGet (projTopo project).order _ = some j
    exact TF.zeros_first j hj
  · intro nd hmem hnz r hr
    rw [buildDependencyGraph_eq, List.mem_map] at hmem
    obtain ⟨rel, hrel, rfl⟩ := hmem
    exact rank_ge_of_not_zeroDep project hnd rel hnz r hr

/-- The acyclic two-file project used by the C6 witness: `a.py` imports
`b.py`, which imports nothing. -/
def chainProject : List ProjFile :=
  [ { path := chars "a.py", importTargets := some [chars "b"] },
    { path := chars "b.py", importTargets := some [] } ]

theorem chainProject_acyclic : WellFounded (internalEdge chainProject) := by
  have himp : projImports chainProject = [(chars "a.py", [chars "b.py"])] := by
    decide
  have hkey : ∀ x y : List Char, internalEdge chainProject x y →
      (if x = chars "b.py" then 0 else 1) <
        (if y = chars "b.py" then 0 else 1) := by
    intro x y hxy
    unfold internalEdge internalDeps at hxy
    rw [himp] at hxy
    simp only [alGetD, alGet] at hxy
    by_cases hy : chars "a.py" = y
    · rw [if_pos hy] at hxy
      simp only [Option.getD_some, List.mem_filter] at hxy
      have hx : x = chars "b.py" := by
        have := hxy.1
        simpa using this
      subst hx
      subst hy
      decide
    · rw [if_neg hy] at hxy
      simp only [Option.getD_none, List.filter_nil] at hxy
      exact absurd hxy (List.not_mem_nil x)
  exact Subrelation.wf (fun h => hkey _ _ h)
    (InvImage.wf (fun f : List Char => if f = chars "b.py" then 0 else 1)
      Nat.lt_wfRel.wf)

/-- Witness applying C6 to the concrete acyclic chain project. -/
theorem claim_C6_acyclic_order_witness :
    (projFiles chainProject).Nodup ∧
    ((∀ A ∈ buildDependencyGraph chainProject,
        ∀ B ∈ buildDependencyGraph chainProject,
      B.file_path ∈ A.imports →
      ∃ rA rB, A.migration_order = some rA ∧ B.migration_order = some rB ∧
        rB < rA) ∧
    (∀ j (hj : j < (zeroDepFiles chainProject).length),
      ∀ nd ∈ buildDependencyGraph chainProject,
        nd.file_path = (zeroDepFiles chainProject).get ⟨j, hj⟩ →
        nd.migration_order = some j) ∧
    (∀ nd ∈ buildDependencyGraph chainProject,
      nd.file_path ∉ zeroDepFiles chainProject →
      ∀ r, nd.migration_order = some r →
        (zeroDepFiles chainProject).length ≤ r)) :=
  ⟨by decide,
    claim_C6_acyclic_order chainProject (by decide) chainProject_acyclic⟩

/-- C7: the sort never fails on cycles — every node gets a migration
order; nodes left on a cycle (nonempty `circular_deps`) rank after every
acyclic node, among themselves in ascending path order, have their
in-cycle imports recorded in `circular_deps`; and in the concrete mutual
project the two files list each other and both get an order. -/
theorem claim_C7_cycles_never_fail (project : List ProjFile)
    (hnd : (projFiles project).Nodup) :
    (∀ nd ∈ buildDependencyGraph project, nd.migration_order.isSome) ∧
    (∀ A ∈ buildDependencyGraph project, ∀ B ∈ buildDependencyGraph project,
      A.circular_deps ≠ [] → B.circular_deps = [] →
      ∀ rA rB, A.migration_order = some rA → B.migration_order = some rB →
        rB < rA) ∧
    (∀ A ∈ buildDependencyGraph project, ∀ B ∈ buildDependencyGraph project,
      A.circular_deps ≠ [] → B.circular_deps ≠ [] →
      A.file_path ≠ B.file_path → lexLe A.file_path B.file_path = true →
      ∀ rA rB, A.migration_order = some rA → B.migration_order = some rB →
        rA < rB) ∧
    (∀ A ∈ buildDependencyGraph project, ∀ B ∈ buildDependencyGraph project,
      A.circular_deps ≠ [] → B.circular_deps ≠ [] →
      B.file_path ∈ A.imports → B.file_path ∈ A.circular_deps) ∧
    (mutualNodeX ∈ buildDependencyGraph mutualProject ∧
     mutualNodeY ∈ buildDependencyGraph mutualProject ∧
     mutualNodeX.circular_deps = [chars "y.py"] ∧
     mutualNodeY.circular_deps = [chars "x.py"] ∧
     mutualNodeX.migration_order = some 0 ∧
     mutualNodeY.migration_order = some 1) := by
  have TF := topoFacts_project project hnd
  refine ⟨?_, ?_, ?_, ?_, by decide⟩
  · intro nd hmem
    rw [buildDependencyGraph_eq, List.mem_map] at hmem
    obtain ⟨rel, hrel, rfl⟩ := hmem
    exact TF.total rel hrel
  · intro A hA B hB hAc hBc rA rB hrA hrB
    rw [buildDependencyGraph_eq, List.mem_map] at hA hB
    obtain ⟨ra, hra, rfl⟩ := hA
    obtain ⟨rb, hrb, rfl⟩ := hB
    have hra2 : ra ∈ (projTopo project).circular :=
      (circular_deps_ne_nil_iff project hnd ra).mp hAc
    have hrb2 : rb ∉ (projTopo project).circular := by
      intro hc
      exact absurd hBc ((circular_deps_ne_nil_iff project hnd rb).mpr hc)
    exact TF.circ_ranks_after ra hra2 rb hrb hrb2 rA rB hrA hrB
  · intro A hA B hB hAc hBc hne hle rA rB hrA hrB
    rw [buildDependencyGraph_eq, List.mem_map] at hA hB
    obtain ⟨ra, hra, rfl⟩ := hA
    obtain ⟨rb, hrb, rfl⟩ := hB
    have hra2 : ra ∈ (projTopo project).circular :=
      (circular_deps_ne_nil_iff project hnd ra).mp hAc
    have hrb2 : rb ∈ (projTopo project).circular :=
      (circular_deps_ne_nil_iff project hnd rb).mp hBc
    obtain ⟨i, hi⟩ := List.mem_iff_get.mp hra2
    obtain ⟨j, hj⟩ := List.mem_iff_get.mp hrb2
    have hasc := List.pairwise_iff_get.mp TF.circ_ranks_asc
    have hsorted := List.pairwise_iff_get.mp TF.circ_sorted
    rcases Nat.lt_trichotomy i.1 j.1 with hij | hij | hij
    · have := hasc ⟨i.1, i.2⟩ ⟨j.1, j.2⟩ hij rA rB
        (by rw [hi]; exact hrA) (by rw [hj]; exact hrB)
      exact this
    · exfalso
      apply hne
      have : i = j := Fin.ext hij
      rw [← hi, ← hj, this]
    · exfalso
      have hba : lexLe rb ra = true := by
        have := hsorted ⟨j.1, j.2⟩ ⟨i.1, i.2⟩ hij
        rw [hi, hj] at this
        exact this
      have hle2 : lexLe ra rb = true := hle
      exact hne (lexLe_antisymm ra rb hle2 hba)
  · intro A hA B hB hAc hBc himp
    rw [buildDependencyGraph_eq, List.mem_map] at hA hB
    obtain ⟨ra, hra, rfl⟩ := hA
    obtain ⟨rb, hrb, rfl⟩ := hB
    have hra2 : ra ∈ (projTopo project).circular :=
      (circular_deps_ne_nil_iff project hnd ra).mp hAc
    have hrb2 : rb ∈ (projTopo project).circular :=
      (circular_deps_ne_nil_iff project hnd rb).mp hBc
    have himp2 : rb ∈ alGetD (projGM project).importsMap ra [] := by
      have : rb ∈ sortPaths (alGetD (projGM project).importsMap ra []) := himp
      exact (pySorted_mem lexLe _ rb).mp this
    show (graphNode project rb).file_path ∈
      (graphNode project ra).circular_deps
    show rb ∈ (if ra ∈ (projTopo project).circular then _ else _)
    rw [if_pos hra2]
    refine (pySorted_mem lexLe _ rb).mpr ?_
    rw [List.mem_filter]
    exact ⟨hrb2, by simpa using himp2⟩

/-- Witness applying C7 to the concrete mutual-import project. -/
theorem claim_C7_cycles_never_fail_witness :
    (projFiles mutualProject).Nodup ∧
    ((∀ nd ∈ buildDependencyGraph mutualProject, nd.migration_order.isSome) ∧
    (∀ A ∈ buildDependencyGraph mutualProject,
        ∀ B ∈ buildDependencyGraph mutualProject,
      A.circular_deps ≠ [] → B.circular_deps = [] →
      ∀ rA rB, A.migration_order = some rA → B.migration_order = some rB →
        rB < rA) ∧
    (∀ A ∈ buildDependencyGraph mutualProject,
        ∀ B ∈ buildDependencyGraph mutualProject,
      A.circular_deps ≠ [] → B.circular_deps ≠ [] →
      A.file_path ≠ B.file_path → lexLe A.file_path B.file_path = true →
      ∀ rA rB, A.migration_order = some rA → B.migration_order = some rB →
        rA < rB) ∧
    (∀ A ∈ buildDependencyGraph mutualProject,
        ∀ B ∈ buildDependencyGraph mutualProject,
      A.circular_deps ≠ [] → B.circular_deps ≠ [] →
      B.file_path ∈ A.imports → B.file_path ∈ A.circular_deps) ∧
    (mutualNodeX ∈ buildDependencyGraph mutualProject ∧
     mutualNodeY ∈ buildDependencyGraph mutualProject ∧
     mutualNodeX.circular_deps = [chars "y.py"] ∧
     mutualNodeY.circular_deps = [chars "x.py"] ∧
     mutualNodeX.migration_order = some 0 ∧
     mutualNodeY.migration_order = some 1)) :=
  ⟨by decide, claim_C7_cycles_never_fail mutualProject (by decide)⟩

/-- C10: the migration orders assigned over a project of n files are
exactly some 0, ..., some (n-1), one per file, and get_migration_order
permutes the project's file paths. -/
theorem claim_C10_rank_permutation (project : List ProjFile)
    (hnd : (projFiles project).Nodup) :
    List.Perm ((buildDependencyGraph project).map DependencyNode.migration_order)
      ((List.range project.length).map some) ∧
    List.Perm (getMigrationOrder (buildDependencyGraph project))
      (projFiles project) := by
  have TF := topoFacts_project project hnd
  constructor
  · rw [buildDependencyGraph_eq, List.map_map]
    have hfun : (DependencyNode.migration_order ∘ graphNode project) =
        (fun rel => alGet (projTopo project).order rel) := rfl
    rw [hfun]
    have hperm1 : List.Perm
        ((projFiles project).map (fun rel => alGet (projTopo project).order rel))
        ((alKeys (projTopo project).order).map
          (fun rel => alGet (projTopo project).order rel)) :=
      (TF.keys_perm.symm).map _
    have heq2 : (alKeys (projTopo project).order).map
        (fun rel => alGet (projTopo project).order rel) =
        (projTopo project).order.map (fun p => some p.2) := by
      show ((projTopo project).order.map Prod.fst).map _ = _
      rw [List.map_map]
      apply List.map_congr_left
      intro p hp
      exact alGet_of_mem_nodup _ p hp TF.keys_nodup
    have heq3 : (projTopo project).order.map (fun p => some p.2) =
        ((projTopo project).order.map Prod.snd).map some := by
      rw [List.map_map]
      rfl
    have hlen : (projTopo project).order.length = project.length := by
      have h1 := TF.keys_perm.length_eq
      simpa [alKeys, projFiles] using h1
    refine hperm1.trans ?_
    rw [heq2, heq3, TF.vals_eq, hlen]
  · show List.Perm ((pySorted _ (buildDependencyGraph project)).map
      DependencyNode.file_path) (projFiles project)
    refine ((pySorted_perm _ _).map _).trans ?_
    rw [buildDependencyGraph_eq, List.map_map]
    have hfun : (DependencyNode.file_path ∘ graphNode project) = id := rfl
    rw [hfun, List.map_id]

/-- Witness applying C10 to the concrete mutual-import project. -/
theorem claim_C10_rank_permutation_witness :
    (projFiles mutualProject).Nodup ∧
    (List.Perm
      ((buildDependencyGraph mutualProject).map DependencyNode.migration_order)
      ((List.range mutualProject.length).map some) ∧
    List.Perm (getMigrationOrder (buildDependencyGraph mutualProject))
      (projFiles mutualProject)) :=
  ⟨by decide, claim_C10_rank_permutation mutualProject (by decide)⟩

/-! ### difflib.SequenceMatcher (src/app/services/output_comparator.py)

`compare_outputs` runs `difflib.unified_diff` on the keepends line splits
of the two stdout strings and `difflib.SequenceMatcher(None, a, b).ratio()`
for the similarity score.  The matcher is embedded generically over the
element type (characters for the ratio, lines for the diff), following
CPython difflib: `isjunk` is `None` at both call sites, so the junk set
`bjunk` is empty — its two extension loops in `find_longest_match` are
identities and are omitted — and `autojunk` keeps its default `True`.
The `warnings` key of the report, computed by independent regex scans, is
not modelled. -/

/-- The ascending positions of `x` in `b`: the list `b2j[x]` built by
`SequenceMatcher.__chain_b` before the popularity purge. -/
def positionsOf [DecidableEq α] (b : List α) (x : α) : List Nat :=
  (List.range b.length).filter (fun j => decide (b.get? j = some x))

/-- The autojunk popularity test of `__chain_b`: an element is purged
when the sequence has at least 200 elements and the element occurs more
than `len(b) // 100 + 1` times. -/
def isPopular [DecidableEq α] (b : List α) (x : α) : Bool :=
  decide (200 ≤ b.length) &&
    decide (b.length / 100 + 1 < (positionsOf b x).length)

/-- `b2j.get(x, [])` after the purge. -/
def b2jOf [DecidableEq α] (b : List α) (x : α) : List Nat :=
  if isPopular b x then [] else positionsOf b x

/-- The running best of `find_longest_match`. -/
structure FlmState where
  besti : Nat
  bestj : Nat
  bestsize : Nat
deriving DecidableEq

/-- The inner loop of `find_longest_match` over `b2j.get(a[i], [])`
(ascending): `continue` below `blo`, `break` from `bhi` on, otherwise
record `newj2len[j] = j2len.get(j-1, 0) + 1` (the `j = 0` guard is
Python's `get(-1, 0)`) and take `(i-k+1, j-k+1, k)` on strict
improvement (exact in ℕ since `k ≤ i+1` and `k ≤ j+1` throughout). -/
def flmInner (blo bhi : Nat) (j2len : Nat → Nat) (i : Nat) :
    List Nat → (Nat → Nat) → FlmState → ((Nat → Nat) × FlmState)
  | [], new, st => (new, st)
  | j :: js, new, st =>
    if j < blo then flmInner blo bhi j2len i js new st
    else if bhi ≤ j then (new, st)
    else
      let k := (if j = 0 then 0 else j2len (j - 1)) + 1
      flmInner blo bhi j2len i js (fun w => if w = j then k else new w)
        (if st.bestsize < k then ⟨i + 1 - k, j + 1 - k, k⟩ else st)

/-- The matchable b-positions of row `i`, `b2j.get(a[i], nothing)` (the
rows iterated always lie inside `a`, so the `none` case is inert). -/
def rowPositions [DecidableEq α] (a b : List α) (i : Nat) : List Nat :=
  match a.get? i with
  | some x => b2jOf b x
  | none => []

/-- The outer loop of `find_longest_match` over `range(alo, ahi)`: each
row starts from a fresh empty `newj2len` and reads the previous row. -/
def flmRows [DecidableEq α] (a b : List α) (blo bhi : Nat) :
    List Nat → (Nat → Nat) → FlmState → FlmState
  | [], _, st => st
  | i :: is, j2len, st =>
    let p := flmInner blo bhi j2len i (rowPositions a b i) (fun _ => 0) st
    flmRows a b blo bhi is p.1 p.2

/-- The backward extension loop of `find_longest_match` (the junk test
is vacuous since `bjunk` is empty); fuel-driven, `besti` fuel suffices
since `besti` strictly decreases toward `alo`. -/
def extendLow [DecidableEq α] (a b : List α) (alo blo : Nat) :
    Nat → FlmState → FlmState
  | 0, st => st
  | fuel + 1, st =>
    if alo < st.besti ∧ blo < st.bestj ∧
        a.get? (st.besti - 1) = b.get? (st.bestj - 1) then
      extendLow a b alo blo fuel ⟨st.besti - 1, st.bestj - 1, st.bestsize + 1⟩
    else st

/-- The forward extension loop of `find_longest_match`; `ahi` fuel
suffices since `besti + bestsize` strictly increases toward `ahi`. -/
def extendHigh [DecidableEq α] (a b : List α) (ahi bhi : Nat) :
    Nat → FlmState → FlmState
  | 0, st => st
  | fuel + 1, st =>
    if st.besti + st.bestsize < ahi ∧ st.bestj + st.bestsize < bhi ∧
        a.get? (st.besti + st.bestsize) = b.get? (st.bestj + st.bestsize) then
      extendHigh a b ahi bhi fuel ⟨st.besti, st.bestj, st.bestsize + 1⟩
    else st

/-- Model of `SequenceMatcher.find_longest_match` with `bjunk = ∅`. -/
def findLongestMatch [DecidableEq α] (a b : List α) (alo ahi blo bhi : Nat) :
    Nat × Nat × Nat :=
  let st1 := flmRows a b blo bhi (List.range' alo (ahi - alo)) (fun _ => 0)
    ⟨alo, blo, 0⟩
  let st2 := extendLow a b alo blo st1.besti st1
  let st3 := extendHigh a b ahi bhi ahi st2
  (st3.besti, st3.bestj, st3.bestsize)

/-- The divide-and-conquer of `get_matching_blocks`: the source pushes
the two sub-windows on a stack and sorts the collected blocks at the
end; every block of the left window precedes the pivot, which precedes
every block of the right window, so the sorted result equals this
left-pivot-right recursion.  Fuel-driven: `(ahi-alo) + (bhi-blo)`
strictly shrinks at each recursive call. -/
def matchingBlocksRec [DecidableEq α] (a b : List α) :
    Nat → Nat → Nat → Nat → Nat → List (Nat × Nat × Nat)
  | 0, _, _, _, _ => []
  | fuel + 1, alo, ahi, blo, bhi =>
    match findLongestMatch a b alo ahi blo bhi with
    | (i, j, k) =>
      if k = 0 then []
      else
        (if alo < i ∧ blo < j then matchingBlocksRec a b fuel alo i blo j
         else []) ++
        [(i, j, k)] ++
        (if i + k < ahi ∧ j + k < bhi then
          matchingBlocksRec a b fuel (i + k) ahi (j + k) bhi else [])

/-- The adjacent-block collapsing loop at the end of
`get_matching_blocks`; the running block starts at `(0, 0, 0)`. -/
def collapseBlocks : Nat → Nat → Nat → List (Nat × Nat × Nat) →
    List (Nat × Nat × Nat)
  | i1, j1, k1, [] => if k1 ≠ 0 then [(i1, j1, k1)] else []
  | i1, j1, k1, (i2, j2, k2) :: rest =>
    if i1 + k1 = i2 ∧ j1 + k1 = j2 then collapseBlocks i1 j1 (k1 + k2) rest
    else (if k1 ≠ 0 then [(i1, j1, k1)] else []) ++ collapseBlocks i2 j2 k2 rest

/-- Model of `get_matching_blocks`: recursive block collection, adjacent
collapse, and the `(len(a), len(b), 0)` terminator. -/
def matchingBlocks [DecidableEq α] (a b : List α) : List (Nat × Nat × Nat) :=
  collapseBlocks 0 0 0
      (matchingBlocksRec a b (a.length + b.length + 1) 0 a.length 0 b.length) ++
    [(a.length, b.length, 0)]

/-- Total matched size over the matching blocks. -/
def matchesSum (blocks : List (Nat × Nat × Nat)) : Nat :=
  (blocks.map (fun t => t.2.2)).sum

/-- Model of `SequenceMatcher.ratio` via `difflib._calculate_ratio`. -/
def ratioOf [DecidableEq α] (a b : List α) : ℚ :=
  if a.length + b.length = 0 then 1
  else 2 * (matchesSum (matchingBlocks a b) : ℚ) /
    ((a.length : ℚ) + (b.length : ℚ))

/-- The opcode tags of `get_opcodes`. -/
inductive OpTag where
  | replace
  | delete
  | insert
  | equal
deriving DecidableEq

/-- One `(tag, i1, i2, j1, j2)` opcode. -/
structure Opcode where
  tag : OpTag
  a1 : Nat
  a2 : Nat
  b1 : Nat
  b2 : Nat
deriving DecidableEq

/-- The loop of `get_opcodes` over the matching blocks, carrying the
current `(i, j)` position. -/
def opcodesGo : Nat → Nat → List (Nat × Nat × Nat) → List Opcode
  | _, _, [] => []
  | i, j, (ai, bj, size) :: rest =>
    (if i < ai ∧ j < bj then [⟨OpTag.replace, i, ai, j, bj⟩]
     else if i < ai then [⟨OpTag.delete, i, ai, j, bj⟩]
     else if j < bj then [⟨OpTag.insert, i, ai, j, bj⟩]
     else []) ++
    (if size ≠ 0 then [⟨OpTag.equal, ai, ai + size, bj, bj + size⟩] else []) ++
    opcodesGo (ai + size) (bj + size) rest

/-- Model of `get_opcodes`. -/
def getOpcodes [DecidableEq α] (a b : List α) : List Opcode :=
  opcodesGo 0 0 (matchingBlocks a b)

/-- The leading-group fixup of `get_grouped_opcodes`: a leading `equal`
keeps only its last `n` context lines (`max(i1, i2-n)` is exact in ℕ). -/
def fixupHead (n : Nat) : List Opcode → List Opcode
  | [] => []
  | c :: rest =>
    if c.tag = OpTag.equal then
      ⟨c.tag, max c.a1 (c.a2 - n), c.a2, max c.b1 (c.b2 - n), c.b2⟩ :: rest
    else c :: rest

/-- The trailing-group fixup of `get_grouped_opcodes`. -/
def fixupLast (n : Nat) : List Opcode → List Opcode
  | [] => []
  | [c] =>
    if c.tag = OpTag.equal then
      [⟨c.tag, c.a1, min c.a2 (c.a1 + n), c.b1, min c.b2 (c.b1 + n)⟩]
    else [c]
  | c :: rest => c :: fixupLast n rest

/-- The grouping loop of `get_grouped_opcodes`: a large interior `equal`
run (`i2 - i1 > n + n`) closes the current group keeping `n` context
lines on each side; a remaining group that is a single `equal` entry is
suppressed at the end. -/
def groupLoop (n : Nat) : List (List Opcode) → List Opcode → List Opcode →
    List (List Opcode)
  | groups, group, [] =>
    if group ≠ [] ∧
        ¬(group.length = 1 ∧ group.head?.map Opcode.tag = some OpTag.equal)
    then groups ++ [group] else groups
  | groups, group, c :: rest =>
    if c.tag = OpTag.equal ∧ 2 * n < c.a2 - c.a1 then
      groupLoop n
        (groups ++ [group ++
          [⟨c.tag, c.a1, min c.a2 (c.a1 + n), c.b1, min c.b2 (c.b1 + n)⟩]])
        [⟨c.tag, max c.a1 (c.a2 - n), c.a2, max c.b1 (c.b2 - n), c.b2⟩] rest
    else groupLoop n groups (group ++ [c]) rest

/-- Model of `get_grouped_opcodes` at its default context `n = 3`. -/
def getGroupedOpcodes [DecidableEq α] (a b : List α) : List (List Opcode) :=
  let codes0 := getOpcodes a b
  let codes1 := if codes0 = [] then [⟨OpTag.equal, 0, 1, 0, 1⟩] else codes0
  groupLoop 3 [] [] (fixupLast 3 (fixupHead 3 codes1))

/-- Python slice `l[i:j]`. -/
def sliceL (l : List α) (i j : Nat) : List α := (l.take j).drop i

/-- `difflib._format_range_unified`. -/
def formatRangeUnified (start stop : Nat) : List Char :=
  let beginning := start + 1
  let len := stop - start
  if len = 1 then Nat.toDigits 10 beginning
  else
    (if len = 0 then Nat.toDigits 10 (beginning - 1)
     else Nat.toDigits 10 beginning) ++ [','] ++ Nat.toDigits 10 len

/-- The per-opcode lines yielded by `unified_diff` inside a group. -/
def opcodeLines (a b : List (List Char)) (c : Opcode) : List (List Char) :=
  match c.tag with
  | OpTag.equal => (sliceL a c.a1 c.a2).map (fun line => ' ' :: line)
  | OpTag.replace =>
      (sliceL a c.a1 c.a2).map (fun line => '-' :: line) ++
      (sliceL b c.b1 c.b2).map (fun line => '+' :: line)
  | OpTag.delete => (sliceL a c.a1 c.a2).map (fun line => '-' :: line)
  | OpTag.insert => (sliceL b c.b1 c.b2).map (fun line => '+' :: line)

/-- The `@@` header and body lines of one group. -/
def groupLines (a b : List (List Char)) (g : List Opcode) : List (List Char) :=
  match g, g.getLast? with
  | first :: _, some lst =>
    (chars "@@ -" ++ formatRangeUnified first.a1 lst.a2 ++ chars " +" ++
      formatRangeUnified first.b1 lst.b2 ++ chars " @@" ++ ['\n']) ::
      (g.map (opcodeLines a b)).join
  | _, _ => []

/-- Model of `difflib.unified_diff(a, b, fromfile="python2 stdout",
tofile="python3 stdout")` as called by `compare_outputs`: the two file
headers are emitted before the first group only. -/
def unifiedDiff (a b : List (List Char)) : List (List Char) :=
  let gs := getGroupedOpcodes a b
  if gs = [] then []
  else (chars "--- python2 stdout" ++ ['\n']) ::
    (chars "+++ python3 stdout" ++ ['\n']) ::
    (gs.map (groupLines a b)).join

/-- Python line-boundary characters of `str.splitlines`. -/
def isLineBreak (c : Char) : Bool :=
  c = '\n' || c = '\r' || c = '\x0b' || c = '\x0c' ||
  c = '\x1c' || c = '\x1d' || c = '\x1e' || c = '\x85' ||
  c = '\u2028' || c = '\u2029'

/-- Python `s.splitlines(keepends=True)`: `\r\n` is one boundary, every
other break character ends its line, and a trailing fragment without a
break is kept. -/
def pySplitlines : List Char → List (List Char)
  | [] => []
  | '\r' :: '\n' :: rest => ['\r', '\n'] :: pySplitlines rest
  | c :: rest =>
    if isLineBreak c then [c] :: pySplitlines rest
    else
      match pySplitlines rest with
      | [] => [[c]]
      | l :: ls => (c :: l) :: ls

/-- Python `line.rstrip("\n")`. -/
def rstripNl (l : List Char) : List Char :=
  (l.reverse.dropWhile (fun c => decide (c = '\n'))).reverse

/-- The comparison report of `compare_outputs` (without the unmodelled
`warnings` key). -/
structure CompareReport where
  outputs_match : Bool
  diff_lines : List (List Char)
  similarity_pct : ℚ
deriving DecidableEq

/-- Model of `compare_outputs`. -/
def compareOutputs (py2 py3 : ExecutionResult) : CompareReport :=
  { outputs_match := decide (py2.stdout = py3.stdout)
    diff_lines :=
      (unifiedDiff (pySplitlines py2.stdout) (pySplitlines py3.stdout)).map
        rstripNl
    similarity_pct := round2 (ratioOf py2.stdout py3.stdout * 100) }

/-- Whether cell `(i, j)` is processed by the dynamic program: `a[i]`
exists, `j` is one of its unpurged b-positions, and `j` lies inside the
`[blo, bhi)` window. -/
def matchCellB [DecidableEq α] (a b : List α) (blo bhi : Nat) (i j : Nat) :
    Bool :=
  (match a.get? i with
   | some x => decide (j ∈ b2jOf b x)
   | none => false) && decide (blo ≤ j) && decide (j < bhi)

/-- The mathematical contents of row `i` of the dynamic program: the
matched-run length ending at cell `(i, j)`, zero outside processed
cells; rows at or below `alo` are base rows. -/
def dpRun [DecidableEq α] (a b : List α) (alo blo bhi : Nat) : Nat → Nat → Nat
  | 0, j => if matchCellB a b blo bhi 0 j then 1 else 0
  | i + 1, j =>
    if matchCellB a b blo bhi (i + 1) j then
      (if i + 1 ≤ alo ∨ j = 0 then 1 else dpRun a b alo blo bhi i (j - 1) + 1)
    else 0

/-- The slice of `a` starting at `i` and the slice of `b` starting at
`j` agree for `k` elements, all in range. -/
def MatchAt (a b : List α) (i j k : Nat) : Prop :=
  i + k ≤ a.length ∧ j + k ≤ b.length ∧
    ∀ t, t < k → a.get? (i + t) = b.get? (j + t)

/-- Well-formed block list of a window: blocks are nonempty matches, in
order, pairwise disjoint, inside the window. -/
def GoodBlocks (a b : List α) : Nat × Nat → Nat × Nat →
    List (Nat × Nat × Nat) → Prop
  | _, _, [] => True
  | lo, hi, (i, j, k) :: rest =>
    lo.1 ≤ i ∧ lo.2 ≤ j ∧ i + k ≤ hi.1 ∧ j + k ≤ hi.2 ∧ 1 ≤ k ∧
      MatchAt a b i j k ∧ GoodBlocks a b (i + k, j + k) hi rest

theorem mem_positionsOf [DecidableEq α] (b : List α) (x : α) (j : Nat) :
    j ∈ positionsOf b x ↔ j < b.length ∧ b.get? j = some x := by
  unfold positionsOf
  rw [List.mem_filter, List.mem_range]
  simp

theorem positionsOf_sorted [DecidableEq α] (b : List α) (x : α) :
    (positionsOf b x).Pairwise (· < ·) :=
  List.Pairwise.sublist (List.filter_sublist _) (List.pairwise_lt_range _)

theorem mem_b2jOf [DecidableEq α] (b : List α) (x : α) (j : Nat)
    (h : j ∈ b2jOf b x) : j < b.length ∧ b.get? j = some x := by
  unfold b2jOf at h
  split at h
  · simp at h
  · exact (mem_positionsOf b x j).mp h

theorem b2jOf_sorted [DecidableEq α] (b : List α) (x : α) :
    (b2jOf b x).Pairwise (· < ·) := by
  unfold b2jOf
  split
  · simp
  · exact positionsOf_sorted b x

theorem mem_rowPositions [DecidableEq α] (a b : List α) (i j : Nat)
    (h : j ∈ rowPositions a b i) : a.get? i = b.get? j ∧ j < b.length := by
  unfold rowPositions at h
  split at h
  · rename_i x hx
    obtain ⟨hj, hbj⟩ := mem_b2jOf b x j h
    rw [hx, hbj]
    exact ⟨rfl, hj⟩
  · simp at h

theorem rowPositions_sorted [DecidableEq α] (a b : List α) (i : Nat) :
    (rowPositions a b i).Pairwise (· < ·) := by
  unfold rowPositions
  split
  · exact b2jOf_sorted _ _
  · simp

theorem MatchAt.single {a b : List α} {i j : Nat} (hab : a.get? i = b.get? j)
    (hia : i < a.length) (hjb : j < b.length) : MatchAt a b i j 1 := by
  refine ⟨by omega, by omega, ?_⟩
  intro t ht
  have ht0 : t = 0 := by omega
  subst ht0
  simpa using hab

theorem MatchAt.snoc {a b : List α} {i j k : Nat} (h : MatchAt a b i j k)
    (hab : a.get? (i + k) = b.get? (j + k)) (hia : i + k < a.length)
    (hjb : j + k < b.length) : MatchAt a b i j (k + 1) := by
  obtain ⟨h1, h2, h3⟩ := h
  refine ⟨by omega, by omega, ?_⟩
  intro t ht
  by_cases htk : t < k
  · exact h3 t htk
  · have ht0 : t = k := by omega
    subst ht0
    exact hab

theorem MatchAt.glue {a b : List α} {i j k1 k2 : Nat}
    (h1 : MatchAt a b i j k1) (h2 : MatchAt a b (i + k1) (j + k1) k2) :
    MatchAt a b i j (k1 + k2) := by
  obtain ⟨ha1, hb1, hp1⟩ := h1
  obtain ⟨ha2, hb2, hp2⟩ := h2
  refine ⟨by omega, by omega, ?_⟩
  intro t ht
  by_cases h : t < k1
  · exact hp1 t h
  · have hx := hp2 (t - k1) (by omega)
    have e1 : i + k1 + (t - k1) = i + t := by omega
    have e2 : j + k1 + (t - k1) = j + t := by omega
    rw [e1, e2] at hx
    exact hx

theorem MatchAt.drop_eq {a b : List α} {i j k : Nat} (h : MatchAt a b i j k)
    (hrest : a.drop (i + k) = b.drop (j + k)) : a.drop i = b.drop j := by
  obtain ⟨ha, hb, hp⟩ := h
  apply List.ext
  intro t
  rw [List.get?_drop, List.get?_drop]
  by_cases hlt : t < k
  · exact hp t hlt
  · have e1 : i + t = (i + k) + (t - k) := by omega
    have e2 : j + t = (j + k) + (t - k) := by omega
    rw [e1, e2, ← List.get?_drop, ← List.get?_drop, hrest]

theorem GoodBlocks.mono_lo {a b : List α} {lo lo' hi : Nat × Nat}
    {bs : List (Nat × Nat × Nat)} (h : GoodBlocks a b lo hi bs)
    (h1 : lo'.1 ≤ lo.1) (h2 : lo'.2 ≤ lo.2) : GoodBlocks a b lo' hi bs := by
  cases bs with
  | nil => trivial
  | cons blk rest =>
    obtain ⟨i, j, k⟩ := blk
    obtain ⟨g1, g2, g3, g4, g5, g6, g7⟩ := h
    exact ⟨by omega, by omega, g3, g4, g5, g6, g7⟩

theorem goodBlocks_append {a b : List α} (i j : Nat) (hi : Nat × Nat) :
    ∀ (l : List (Nat × Nat × Nat)) (lo : Nat × Nat)
      (r : List (Nat × Nat × Nat)),
    GoodBlocks a b lo (i, j) l → GoodBlocks a b (i, j) hi r →
    lo.1 ≤ i → lo.2 ≤ j → i ≤ hi.1 → j ≤ hi.2 →
    GoodBlocks a b lo hi (l ++ r) := by
  intro l
  induction l with
  | nil =>
    intro lo r _ h2 hl1 hl2 _ _
    exact h2.mono_lo hl1 hl2
  | cons blk rest ih =>
    intro lo r h1 h2 hl1 hl2 hih hjh
    obtain ⟨i0, j0, k0⟩ := blk
    obtain ⟨g1, g2, g3, g4, g5, g6, g7⟩ := h1
    exact ⟨g1, g2, by omega, by omega, g5, g6,
      ih (i0 + k0, j0 + k0) r g7 h2 g3 g4 hih hjh⟩

/-- Validity invariant of the running best of `find_longest_match`. -/
def FlmOk (a b : List α) (alo ahi blo bhi : Nat) (st : FlmState) : Prop :=
  alo ≤ st.besti ∧ blo ≤ st.bestj ∧ st.besti + st.bestsize ≤ ahi ∧
    st.bestj + st.bestsize ≤ bhi ∧ MatchAt a b st.besti st.bestj st.bestsize

/-- Validity invariant of a `j2len` row whose runs end at row `m - 1`. -/
def J2Prev (a b : List α) (alo blo : Nat) (m : Nat) (f : Nat → Nat) : Prop :=
  ∀ j, f j ≠ 0 →
    blo ≤ j ∧ j + 1 ≤ b.length ∧ alo + f j ≤ m ∧ blo + f j ≤ j + 1 ∧
      MatchAt a b (m - f j) (j + 1 - f j) (f j)

theorem flmInner_ok [DecidableEq α] (a b : List α) (alo ahi blo bhi : Nat)
    (i : Nat) (hialo : alo ≤ i) (hiahi : i < ahi) (j2len : Nat → Nat)
    (hprev : J2Prev a b alo blo i j2len) :
    ∀ (js : List Nat) (new : Nat → Nat) (st : FlmState),
      (∀ j ∈ js, a.get? i = b.get? j ∧ j < b.length) →
      J2Prev a b alo blo (i + 1) new →
      FlmOk a b alo ahi blo bhi st →
      J2Prev a b alo blo (i + 1) (flmInner blo bhi j2len i js new st).1 ∧
      FlmOk a b alo ahi blo bhi (flmInner blo bhi j2len i js new st).2 := by
  intro js
  induction js with
  | nil =>
    intro new st _ hnew hst
    exact ⟨hnew, hst⟩
  | cons j js ihj =>
    intro new st hjs hnew hst
    simp only [flmInner]
    by_cases hjblo : j < blo
    · rw [if_pos hjblo]
      exact ihj _ _ (fun x hx => hjs x (List.mem_cons_of_mem _ hx)) hnew hst
    · rw [if_neg hjblo]
      by_cases hjbhi : bhi ≤ j
      · rw [if_pos hjbhi]
        exact ⟨hnew, hst⟩
      · rw [if_neg hjbhi]
        obtain ⟨hab, hjb⟩ := hjs j (List.mem_cons_self _ _)
        have hblo : blo ≤ j := by omega
        have hia : i < a.length := by
          by_contra hc
          push_neg at hc
          have h1 : a.get? i = none := List.get?_eq_none.mpr hc
          have h2 : b.get? j ≠ none := fun hc => by
            have hx := List.get?_eq_none.mp hc
            omega
          rw [h1] at hab
          exact h2 hab.symm
        have hkey : ∀ kk : Nat, kk = (if j = 0 then 0 else j2len (j - 1)) + 1 →
            alo + kk ≤ i + 1 ∧ blo + kk ≤ j + 1 ∧
            MatchAt a b (i + 1 - kk) (j + 1 - kk) kk := by
          intro kk hkk
          by_cases hj0 : j = 0
          · rw [if_pos hj0] at hkk
            subst hkk
            refine ⟨by omega, by omega, ?_⟩
            have e1 : i + 1 - (0 + 1) = i := by omega
            have e2 : j + 1 - (0 + 1) = j := by omega
            rw [e1, e2]
            exact MatchAt.single hab hia (by omega)
          · rw [if_neg hj0] at hkk
            by_cases hk0 : j2len (j - 1) = 0
            · rw [hk0] at hkk
              subst hkk
              refine ⟨by omega, by omega, ?_⟩
              have e1 : i + 1 - (0 + 1) = i := by omega
              have e2 : j + 1 - (0 + 1) = j := by omega
              rw [e1, e2]
              exact MatchAt.single hab hia (by omega)
            · obtain ⟨p1, p2, p3, p4, p5⟩ := hprev (j - 1) hk0
              subst hkk
              have hki : j2len (j - 1) ≤ i := by omega
              have hkj : j2len (j - 1) ≤ j := by omega
              refine ⟨by omega, by omega, ?_⟩
              have e1 : i + 1 - (j2len (j - 1) + 1) = i - j2len (j - 1) := by
                omega
              have e2 : j + 1 - (j2len (j - 1) + 1) = j - j2len (j - 1) := by
                omega
              rw [e1, e2]
              have e3 : j - 1 + 1 - j2len (j - 1) = j - j2len (j - 1) := by
                omega
              rw [e3] at p5
              have e4 : i - j2len (j - 1) + j2len (j - 1) = i := by omega
              have e5 : j - j2len (j - 1) + j2len (j - 1) = j := by omega
              exact p5.snoc (by rw [e4, e5]; exact hab) (by omega) (by omega)
        obtain ⟨hf1, hf2, hf3⟩ :=
          hkey ((if j = 0 then 0 else j2len (j - 1)) + 1) rfl
        apply ihj
        · exact fun x hx => hjs x (List.mem_cons_of_mem _ hx)
        · intro w hw
          dsimp only at hw ⊢
          by_cases hwj : w = j
          · subst hwj
            rw [if_pos rfl]
            rw [if_pos rfl] at hw
            exact ⟨hblo, by omega, hf1, hf2, hf3⟩
          · rw [if_neg hwj]
            rw [if_neg hwj] at hw
            exact hnew w hw
        · by_cases hbest :
            st.bestsize < (if j = 0 then 0 else j2len (j - 1)) + 1
          · rw [if_pos hbest]
            refine ⟨?_, ?_, ?_, ?_, hf3⟩
            all_goals dsimp only
            all_goals omega
          · rw [if_neg hbest]
            exact hst

theorem flmRows_ok [DecidableEq α] (a b : List α) (alo ahi blo bhi : Nat) :
    ∀ (m i0 : Nat) (j2len : Nat → Nat) (st : FlmState),
      alo ≤ i0 → i0 + m ≤ ahi →
      J2Prev a b alo blo i0 j2len →
      FlmOk a b alo ahi blo bhi st →
      FlmOk a b alo ahi blo bhi
        (flmRows a b blo bhi (List.range' i0 m) j2len st) := by
  intro m
  induction m with
  | zero =>
    intro i0 j2len st _ _ _ hst
    exact hst
  | succ m ihm =>
    intro i0 j2len st h1 h2 hj2 hst
    rw [List.range'_succ]
    simp only [flmRows]
    have hinner := flmInner_ok a b alo ahi blo bhi i0 h1 (by omega) j2len hj2
      (rowPositions a b i0) (fun _ => 0) st
      (fun j hj => mem_rowPositions a b i0 j hj)
      (fun j hj => absurd rfl hj) hst
    exact ihm (i0 + 1) _ _ (by omega) (by omega) hinner.1 hinner.2

theorem extendLow_ok [DecidableEq α] (a b : List α) (alo ahi blo bhi : Nat) :
    ∀ (fuel : Nat) (st : FlmState), FlmOk a b alo ahi blo bhi st →
      FlmOk a b alo ahi blo bhi (extendLow a b alo blo fuel st) := by
  intro fuel
  induction fuel with
  | zero =>
    intro st hst
    exact hst
  | succ fuel ih =>
    intro st hst
    simp only [extendLow]
    split
    · rename_i hcond
      obtain ⟨hc1, hc2, hc3⟩ := hcond
      obtain ⟨h1, h2, h3, h4, m1, m2, m3⟩ := hst
      apply ih
      refine ⟨?_, ?_, ?_, ?_, ?_, ?_, ?_⟩
      all_goals dsimp only
      case _ => omega
      case _ => omega
      case _ => omega
      case _ => omega
      case _ => omega
      case _ => omega
      intro t ht
      cases t with
      | zero =>
        simpa using hc3
      | succ t =>
        have e1 : st.besti - 1 + (t + 1) = st.besti + t := by omega
        have e2 : st.bestj - 1 + (t + 1) = st.bestj + t := by omega
        rw [e1, e2]
        exact m3 t (by omega)
    · exact hst

theorem extendHigh_ok [DecidableEq α] (a b : List α) (alo ahi blo bhi : Nat)
    (hha : ahi ≤ a.length) (hhb : bhi ≤ b.length) :
    ∀ (fuel : Nat) (st : FlmState), FlmOk a b alo ahi blo bhi st →
      FlmOk a b alo ahi blo bhi (extendHigh a b ahi bhi fuel st) := by
  intro fuel
  induction fuel with
  | zero =>
    intro st hst
    exact hst
  | succ fuel ih =>
    intro st hst
    simp only [extendHigh]
    split
    · rename_i hcond
      obtain ⟨hc1, hc2, hc3⟩ := hcond
      obtain ⟨h1, h2, h3, h4, m1, m2, m3⟩ := hst
      apply ih
      refine ⟨?_, ?_, ?_, ?_, ?_, ?_, ?_⟩
      all_goals dsimp only
      case _ => omega
      case _ => omega
      case _ => omega
      case _ => omega
      case _ => omega
      case _ => omega
      intro t ht
      by_cases htk : t < st.bestsize
      · exact m3 t htk
      · have ht0 : t = st.bestsize := by omega
        subst ht0
        exact hc3
    · exact hst

theorem findLongestMatch_ok [DecidableEq α] (a b : List α)
    (alo ahi blo bhi : Nat) (hha : ahi ≤ a.length) (hhb : bhi ≤ b.length)
    (hal : alo ≤ ahi) (hbl : blo ≤ bhi) :
    alo ≤ (findLongestMatch a b alo ahi blo bhi).1 ∧
    blo ≤ (findLongestMatch a b alo ahi blo bhi).2.1 ∧
    (findLongestMatch a b alo ahi blo bhi).1 +
      (findLongestMatch a b alo ahi blo bhi).2.2 ≤ ahi ∧
    (findLongestMatch a b alo ahi blo bhi).2.1 +
      (findLongestMatch a b alo ahi blo bhi).2.2 ≤ bhi ∧
    MatchAt a b (findLongestMatch a b alo ahi blo bhi).1
      (findLongestMatch a b alo ahi blo bhi).2.1
      (findLongestMatch a b alo ahi blo bhi).2.2 := by
  have hst0 : FlmOk a b alo ahi blo bhi ⟨alo, blo, 0⟩ := by
    refine ⟨?_, ?_, ?_, ?_, ?_, ?_, ?_⟩
    all_goals dsimp only
    case _ => omega
    case _ => omega
    case _ => omega
    case _ => omega
    case _ => omega
    case _ => omega
    exact fun t ht => absurd ht (Nat.not_lt_zero t)
  have hrows := flmRows_ok a b alo ahi blo bhi (ahi - alo) alo (fun _ => 0)
    ⟨alo, blo, 0⟩ (le_refl _) (by omega) (fun j hj => absurd rfl hj) hst0
  have hlow := extendLow_ok a b alo ahi blo bhi
    (flmRows a b blo bhi (List.range' alo (ahi - alo)) (fun _ => 0)
      ⟨alo, blo, 0⟩).besti _ hrows
  have hhigh := extendHigh_ok a b alo ahi blo bhi hha hhb ahi _ hlow
  exact ⟨hhigh.1, hhigh.2.1, hhigh.2.2.1, hhigh.2.2.2.1, hhigh.2.2.2.2⟩

theorem matchesSum_append (l r : List (Nat × Nat × Nat)) :
    matchesSum (l ++ r) = matchesSum l + matchesSum r := by
  rw [matchesSum, matchesSum, matchesSum, List.map_append, List.sum_append]

theorem matchesSum_cons (t : Nat × Nat × Nat) (r : List (Nat × Nat × Nat)) :
    matchesSum (t :: r) = t.2.2 + matchesSum r := by
  rw [matchesSum, matchesSum, List.map_cons, List.sum_cons]

theorem matchingBlocksRec_good [DecidableEq α] (a b : List α) :
    ∀ (fuel alo ahi blo bhi : Nat), ahi ≤ a.length → bhi ≤ b.length →
    alo ≤ ahi → blo ≤ bhi →
    GoodBlocks a b (alo, blo) (ahi, bhi)
      (matchingBlocksRec a b fuel alo ahi blo bhi) := by
  intro fuel
  induction fuel with
  | zero =>
    intro alo ahi blo bhi _ _ _ _
    trivial
  | succ fuel ih =>
    intro alo ahi blo bhi hha hhb hal hbl
    have hflm := findLongestMatch_ok a b alo ahi blo bhi hha hhb hal hbl
    rcases hm : findLongestMatch a b alo ahi blo bhi with ⟨i, j, k⟩
    rw [hm] at hflm
    obtain ⟨f1, f2, f3, f4, f5⟩ := hflm
    dsimp only at f1 f2 f3 f4 f5
    simp only [matchingBlocksRec, hm]
    by_cases hk : k = 0
    · rw [if_pos hk]
      trivial
    · rw [if_neg hk]
      have hleft : GoodBlocks a b (alo, blo) (i, j)
          (if alo < i ∧ blo < j then matchingBlocksRec a b fuel alo i blo j
           else []) := by
        split
        · exact ih alo i blo j (by omega) (by omega) (by omega) (by omega)
        · trivial
      have hmidright : GoodBlocks a b (i, j) (ahi, bhi)
          ((i, j, k) :: (if i + k < ahi ∧ j + k < bhi then
            matchingBlocksRec a b fuel (i + k) ahi (j + k) bhi else [])) := by
        refine ⟨le_refl i, le_refl j, f3, f4, by omega, f5, ?_⟩
        split
        · exact ih (i + k) ahi (j + k) bhi hha hhb (by omega) (by omega)
        · trivial
      rw [List.append_assoc]
      exact goodBlocks_append i j (ahi, bhi) _ (alo, blo) _ hleft hmidright
        (by omega) (by omega) (by omega) (by omega)

theorem collapseBlocks_good {a b : List α} :
    ∀ (bs : List (Nat × Nat × Nat)) (i1 j1 k1 : Nat) (lo hi : Nat × Nat),
    lo.1 ≤ i1 → lo.2 ≤ j1 → i1 + k1 ≤ hi.1 → j1 + k1 ≤ hi.2 →
    MatchAt a b i1 j1 k1 →
    GoodBlocks a b (i1 + k1, j1 + k1) hi bs →
    GoodBlocks a b lo hi (collapseBlocks i1 j1 k1 bs) ∧
      matchesSum (collapseBlocks i1 j1 k1 bs) = k1 + matchesSum bs := by
  intro bs
  induction bs with
  | nil =>
    intro i1 j1 k1 lo hi hl1 hl2 hh1 hh2 hmat _
    simp only [collapseBlocks]
    by_cases hk1 : k1 ≠ 0
    · rw [if_pos hk1]
      exact ⟨⟨hl1, hl2, hh1, hh2, by omega, hmat, trivial⟩,
        by simp [matchesSum]⟩
    · rw [if_neg hk1]
      push_neg at hk1
      exact ⟨trivial, by simp [matchesSum, hk1]⟩
  | cons blk rest ih =>
    intro i1 j1 k1 lo hi hl1 hl2 hh1 hh2 hmat hgood
    obtain ⟨i2, j2, k2⟩ := blk
    obtain ⟨g1, g2, g3, g4, g5, g6, g7⟩ := hgood
    simp only [collapseBlocks]
    by_cases hadj : i1 + k1 = i2 ∧ j1 + k1 = j2
    · rw [if_pos hadj]
      obtain ⟨ha1, ha2⟩ := hadj
      have hmat2 : MatchAt a b i1 j1 (k1 + k2) := by
        refine hmat.glue ?_
        rw [ha1, ha2]
        exact g6
      have hrest : GoodBlocks a b (i1 + (k1 + k2), j1 + (k1 + k2)) hi rest := by
        have e1 : i1 + (k1 + k2) = i2 + k2 := by omega
        have e2 : j1 + (k1 + k2) = j2 + k2 := by omega
        rw [e1, e2]
        exact g7
      obtain ⟨hg, hs⟩ := ih i1 j1 (k1 + k2) lo hi hl1 hl2 (by omega) (by omega)
        hmat2 hrest
      refine ⟨hg, ?_⟩
      rw [hs, matchesSum_cons]
      dsimp only
      omega
    · rw [if_neg hadj]
      obtain ⟨hg, hs⟩ := ih i2 j2 k2 (i1 + k1, j1 + k1) hi g1 g2 g3 g4 g6 g7
      constructor
      · by_cases hk1 : k1 ≠ 0
        · rw [if_pos hk1]
          exact ⟨hl1, hl2, hh1, hh2, by omega, hmat, hg⟩
        · rw [if_neg hk1]
          push_neg at hk1
          subst hk1
          exact hg.mono_lo (by simpa using hl1) (by simpa using hl2)
      · rw [matchesSum_append, hs, matchesSum_cons]
        dsimp only
        split
        · rw [matchesSum_cons]
          dsimp only
          simp [matchesSum]
          try omega
        · rename_i hk1
          push_neg at hk1
          simp [matchesSum]
          try omega

theorem goodBlocks_sum {a b : List α} :
    ∀ (bs : List (Nat × Nat × Nat)) (lo hi : Nat × Nat),
    GoodBlocks a b lo hi bs → lo.1 ≤ hi.1 → lo.2 ≤ hi.2 →
    lo.1 + matchesSum bs ≤ hi.1 ∧ lo.2 + matchesSum bs ≤ hi.2 := by
  intro bs
  induction bs with
  | nil =>
    intro lo hi _ h1 h2
    simp [matchesSum]
    omega
  | cons blk rest ih =>
    intro lo hi hgood h1 h2
    obtain ⟨i, j, k⟩ := blk
    obtain ⟨g1, g2, g3, g4, g5, g6, g7⟩ := hgood
    have hx := ih (i + k, j + k) hi g7 (by dsimp only; omega)
      (by dsimp only; omega)
    dsimp only at hx
    rw [matchesSum_cons]
    dsimp only
    omega

/-- Structure of `matchingBlocks`: a well-formed block list over the
whole of `a` and `b`, followed by the terminator. -/
theorem matchingBlocks_struct [DecidableEq α] (a b : List α) :
    ∃ bs, matchingBlocks a b = bs ++ [(a.length, b.length, 0)] ∧
      GoodBlocks a b (0, 0) (a.length, b.length) bs ∧
      matchesSum (matchingBlocks a b) = matchesSum bs := by
  have hraw := matchingBlocksRec_good a b (a.length + b.length + 1)
    0 a.length 0 b.length (le_refl _) (le_refl _) (by omega) (by omega)
  have hcol := collapseBlocks_good
    (matchingBlocksRec a b (a.length + b.length + 1) 0 a.length 0 b.length)
    0 0 0 (0, 0) (a.length, b.length) (le_refl _) (le_refl _) (by omega)
    (by omega) ⟨by omega, by omega, fun t ht => absurd ht (Nat.not_lt_zero t)⟩
    (by simpa using hraw)
  refine ⟨collapseBlocks 0 0 0
    (matchingBlocksRec a b (a.length + b.length + 1) 0 a.length 0 b.length),
    rfl, hcol.1, ?_⟩
  rw [show matchingBlocks a b = collapseBlocks 0 0 0
    (matchingBlocksRec a b (a.length + b.length + 1) 0 a.length 0 b.length) ++
    [(a.length, b.length, 0)] from rfl]
  rw [matchesSum_append]
  simp [matchesSum]

theorem matchesSum_le [DecidableEq α] (a b : List α) :
    matchesSum (matchingBlocks a b) ≤ a.length ∧
    matchesSum (matchingBlocks a b) ≤ b.length := by
  obtain ⟨bs, heq, hgood, hsum⟩ := matchingBlocks_struct a b
  have := goodBlocks_sum bs (0, 0) (a.length, b.length) hgood
    (by omega) (by omega)
  dsimp only at this
  rw [hsum]
  omega

theorem opcodes_all_equal {a b : List α} :
    ∀ (bs : List (Nat × Nat × Nat)) (i j : Nat),
    GoodBlocks a b (i, j) (a.length, b.length) bs →
    (∀ c ∈ opcodesGo i j (bs ++ [(a.length, b.length, 0)]),
      c.tag = OpTag.equal) →
    i ≤ a.length → j ≤ b.length →
    a.drop i = b.drop j := by
  intro bs
  induction bs with
  | nil =>
    intro i j _ hall hia hjb
    rw [List.nil_append] at hall
    simp only [opcodesGo] at hall
    by_cases h1 : i < a.length ∧ j < b.length
    · rw [if_pos h1] at hall
      have hx := hall ⟨OpTag.replace, i, a.length, j, b.length⟩ (by simp)
      simp at hx
    · rw [if_neg h1] at hall
      by_cases h2 : i < a.length
      · rw [if_pos h2] at hall
        have hx := hall ⟨OpTag.delete, i, a.length, j, b.length⟩ (by simp)
        simp at hx
      · rw [if_neg h2] at hall
        by_cases h3 : j < b.length
        · rw [if_pos h3] at hall
          have hx := hall ⟨OpTag.insert, i, a.length, j, b.length⟩ (by simp)
          simp at hx
        · have e1 : i = a.length := by omega
          have e2 : j = b.length := by omega
          subst e1
          subst e2
          rw [List.drop_length, List.drop_length]
  | cons blk rest ih =>
    intro i j hgood hall
    obtain ⟨ai, bj, size⟩ := blk
    obtain ⟨g1, g2, g3, g4, g5, g6, g7⟩ := hgood
    intro hia hjb
    rw [List.cons_append] at hall
    simp only [opcodesGo] at hall
    have hii : i = ai ∧ j = bj := by
      by_cases h1 : i < ai ∧ j < bj
      · rw [if_pos h1] at hall
        have hx := hall ⟨OpTag.replace, i, ai, j, bj⟩ (by simp)
        simp at hx
      · rw [if_neg h1] at hall
        by_cases h2 : i < ai
        · rw [if_pos h2] at hall
          have hx := hall ⟨OpTag.delete, i, ai, j, bj⟩ (by simp)
          simp at hx
        · rw [if_neg h2] at hall
          by_cases h3 : j < bj
          · rw [if_pos h3] at hall
            have hx := hall ⟨OpTag.insert, i, ai, j, bj⟩ (by simp)
            simp at hx
          · omega
    obtain ⟨rfl, rfl⟩ := hii
    have hrec : ∀ c ∈ opcodesGo (i + size) (j + size)
        (rest ++ [(a.length, b.length, 0)]), c.tag = OpTag.equal := by
      intro c hc
      apply hall
      simp only [List.mem_append]
      tauto
    have hdrop := ih (i + size) (j + size) g7 hrec (by omega) (by omega)
    exact g6.drop_eq hdrop

theorem fixupHead_tags (n : Nat) (l : List Opcode) :
    (fixupHead n l).map Opcode.tag = l.map Opcode.tag := by
  cases l with
  | nil => rfl
  | cons c rest =>
    simp only [fixupHead]
    split
    · rfl
    · rfl

theorem fixupLast_tags (n : Nat) : ∀ l : List Opcode,
    (fixupLast n l).map Opcode.tag = l.map Opcode.tag := by
  intro l
  induction l with
  | nil => rfl
  | cons c rest ih =>
    cases rest with
    | nil =>
      simp only [fixupLast]
      split
      · rfl
      · rfl
    | cons d rest2 =>
      simp only [fixupLast, List.map_cons]
      rw [ih, List.map_cons]

theorem groupLoop_ne (n : Nat) :
    ∀ (codes : List Opcode) (groups : List (List Opcode))
      (group : List Opcode),
    ((∃ c ∈ codes, c.tag ≠ OpTag.equal) ∨
      (∃ c ∈ group, c.tag ≠ OpTag.equal) ∨ groups ≠ []) →
    groupLoop n groups group codes ≠ [] := by
  intro codes
  induction codes with
  | nil =>
    intro groups group hyp
    simp only [groupLoop]
    rcases hyp with ⟨c, hc, _⟩ | ⟨c, hc, hct⟩ | hg
    · simp at hc
    · split
      · simp
      · rename_i hcond
        exfalso
        push_neg at hcond
        have hne : group ≠ [] := List.ne_nil_of_mem hc
        obtain ⟨hlen, hhead⟩ := hcond hne
        obtain ⟨x, hx⟩ := List.length_eq_one.mp hlen
        subst hx
        simp at hc
        subst hc
        simp at hhead
        exact hct hhead
    · split
      · simp
      · exact hg
  | cons c rest ih =>
    intro groups group hyp
    simp only [groupLoop]
    split
    · apply ih
      right
      right
      simp
    · apply ih
      rcases hyp with ⟨d, hd, hdt⟩ | ⟨d, hd, hdt⟩ | hg
      · rcases List.mem_cons.mp hd with rfl | hd2
        · right
          left
          exact ⟨d, by simp, hdt⟩
        · left
          exact ⟨d, hd2, hdt⟩
      · right
        left
        exact ⟨d, List.mem_append_left _ hd, hdt⟩
      · right
        right
        exact hg

theorem grouped_ne_of_opcode_ne [DecidableEq α] (a b : List α)
    (h : ∃ c ∈ getOpcodes a b, c.tag ≠ OpTag.equal) :
    getGroupedOpcodes a b ≠ [] := by
  obtain ⟨c, hc, hct⟩ := h
  have hcodes0 : ¬ getOpcodes a b = [] := by
    intro hnil
    rw [hnil] at hc
    exact absurd hc (List.not_mem_nil c)
  show groupLoop 3 [] []
    (fixupLast 3 (fixupHead 3 (if getOpcodes a b = []
      then [⟨OpTag.equal, 0, 1, 0, 1⟩] else getOpcodes a b))) ≠ []
  rw [if_neg hcodes0]
  apply groupLoop_ne
  left
  have ht : (fixupLast 3 (fixupHead 3 (getOpcodes a b))).map Opcode.tag =
      (getOpcodes a b).map Opcode.tag := by
    rw [fixupLast_tags, fixupHead_tags]
  have hmem : c.tag ∈
      (fixupLast 3 (fixupHead 3 (getOpcodes a b))).map Opcode.tag := by
    rw [ht]
    exact List.mem_map_of_mem _ hc
  obtain ⟨d, hd, hdt⟩ := List.mem_map.mp hmem
  exact ⟨d, hd, by rw [hdt]; exact hct⟩

theorem get_some_lt {l : List α} {n : Nat} {x : α} (h : l.get? n = some x) :
    n < l.length := by
  by_contra hc
  push_neg at hc
  rw [List.get?_eq_none.mpr hc] at h
  exact Option.noConfusion h

theorem b2jOf_eq_of_mem [DecidableEq α] {b : List α} {x : α} {j : Nat}
    (h : j ∈ b2jOf b x) : b2jOf b x = positionsOf b x := by
  unfold b2jOf at h ⊢
  split at h
  · exact absurd h (List.not_mem_nil j)
  · rename_i hp
    rw [if_neg hp]

theorem matchCellB_eq_true [DecidableEq α] (a b : List α) (blo bhi i j : Nat) :
    matchCellB a b blo bhi i j = true ↔
      (∃ x, a.get? i = some x ∧ j ∈ b2jOf b x) ∧ blo ≤ j ∧ j < bhi := by
  unfold matchCellB
  cases hx : a.get? i with
  | none => simp
  | some x =>
    simp only [Bool.and_eq_true, decide_eq_true_eq]
    constructor
    · rintro ⟨⟨hm, h2⟩, h3⟩
      exact ⟨⟨x, rfl, hm⟩, h2, h3⟩
    · rintro ⟨⟨y, hy, hmem⟩, h2, h3⟩
      have hxy : y = x := Option.some.inj hy.symm
      subst hxy
      exact ⟨⟨hmem, h2⟩, h3⟩

theorem matchCellB_of_mem_rowPositions [DecidableEq α] {a b : List α}
    {blo bhi i j : Nat} (h : j ∈ rowPositions a b i) (h1 : blo ≤ j)
    (h2 : j < bhi) : matchCellB a b blo bhi i j = true := by
  rw [matchCellB_eq_true]
  unfold rowPositions at h
  split at h
  · rename_i x hx
    exact ⟨⟨x, hx, h⟩, h1, h2⟩
  · exact absurd h (List.not_mem_nil j)

theorem mem_rowPositions_of_matchCellB [DecidableEq α] {a b : List α}
    {blo bhi i j : Nat} (h : matchCellB a b blo bhi i j = true) :
    j ∈ rowPositions a b i := by
  rw [matchCellB_eq_true] at h
  obtain ⟨⟨x, hx, hmem⟩, _, _⟩ := h
  unfold rowPositions
  rw [hx]
  exact hmem

theorem matchCellB_diag_left [DecidableEq α] {a : List α} {blo bhi i j : Nat}
    (h : matchCellB a a blo bhi i j = true) :
    matchCellB a a blo bhi j j = true := by
  rw [matchCellB_eq_true] at h ⊢
  obtain ⟨⟨x, hx, hmem⟩, h1, h2⟩ := h
  obtain ⟨hjl, hjx⟩ := mem_b2jOf a x j hmem
  exact ⟨⟨x, hjx, hmem⟩, h1, h2⟩

theorem matchCellB_diag_row [DecidableEq α] {a : List α} {blo bhi i j : Nat}
    (h : matchCellB a a blo bhi i j = true) (h1 : blo ≤ i) (h2 : i < bhi) :
    matchCellB a a blo bhi i i = true := by
  rw [matchCellB_eq_true] at h ⊢
  obtain ⟨⟨x, hx, hmem⟩, _, _⟩ := h
  refine ⟨⟨x, hx, ?_⟩, h1, h2⟩
  rw [b2jOf_eq_of_mem hmem, mem_positionsOf]
  exact ⟨get_some_lt hx, hx⟩

theorem dpRun_pos [DecidableEq α] (a b : List α) (alo blo bhi i j : Nat)
    (h : matchCellB a b blo bhi i j = true) :
    1 ≤ dpRun a b alo blo bhi i j := by
  cases i with
  | zero =>
    simp only [dpRun]
    rw [if_pos h]
  | succ i =>
    simp only [dpRun]
    rw [if_pos h]
    split <;> omega

theorem dpRun_zero_of_not [DecidableEq α] (a b : List α) (alo blo bhi i j : Nat)
    (h : ¬ matchCellB a b blo bhi i j = true) :
    dpRun a b alo blo bhi i j = 0 := by
  cases i with
  | zero =>
    simp only [dpRun]
    rw [if_neg h]
  | succ i =>
    simp only [dpRun]
    rw [if_neg h]

theorem dpRun_base [DecidableEq α] (a b : List α) (alo blo bhi i j : Nat)
    (h : matchCellB a b blo bhi i j = true) (hle : i ≤ alo) :
    dpRun a b alo blo bhi i j = 1 := by
  cases i with
  | zero =>
    simp only [dpRun]
    rw [if_pos h]
  | succ i =>
    simp only [dpRun]
    rw [if_pos h, if_pos (Or.inl hle)]

theorem dpRun_le_diag [DecidableEq α] (a : List α) (alo ahi : Nat) :
    ∀ (i j : Nat), alo ≤ i → i < ahi →
    dpRun a a alo alo ahi i j ≤ dpRun a a alo alo ahi i i := by
  intro i
  induction i with
  | zero =>
    intro j h1 h2
    by_cases hmc : matchCellB a a alo ahi 0 j = true
    · have hdiag : matchCellB a a alo ahi 0 0 = true :=
        matchCellB_diag_row hmc h1 h2
      simp only [dpRun]
      rw [if_pos hmc, if_pos hdiag]
    · rw [dpRun_zero_of_not a a alo alo ahi 0 j hmc]
      omega
  | succ i ih =>
    intro j h1 h2
    by_cases hmc : matchCellB a a alo ahi (i + 1) j = true
    · have hdiag : matchCellB a a alo ahi (i + 1) (i + 1) = true :=
        matchCellB_diag_row hmc h1 h2
      simp only [dpRun]
      rw [if_pos hmc, if_pos hdiag]
      by_cases halo : i + 1 ≤ alo
      · rw [if_pos (Or.inl halo), if_pos (Or.inl halo)]
      · rw [if_neg (by omega : ¬(i + 1 ≤ alo ∨ i + 1 = 0))]
        by_cases hj0 : j = 0
        · rw [if_pos (Or.inr hj0)]
          omega
        · rw [if_neg (by omega : ¬(i + 1 ≤ alo ∨ j = 0))]
          simp only [Nat.add_sub_cancel]
          have := ih (j - 1) (by omega) (by omega)
          omega
    · rw [dpRun_zero_of_not a a alo alo ahi (i + 1) j hmc]
      omega

theorem dpRun_le_low_diag [DecidableEq α] (a : List α) (alo ahi : Nat) :
    ∀ (i j : Nat), j < i →
    dpRun a a alo alo ahi i j ≤ dpRun a a alo alo ahi j j := by
  intro i
  induction i with
  | zero =>
    intro j hj
    exact absurd hj (Nat.not_lt_zero j)
  | succ i ih =>
    intro j hj
    by_cases hmc : matchCellB a a alo ahi (i + 1) j = true
    · have hwin := (matchCellB_eq_true a a alo ahi (i + 1) j).mp hmc
      have hjalo : alo ≤ j := hwin.2.1
      have hjahi : j < ahi := hwin.2.2
      have hdiag : matchCellB a a alo ahi j j = true :=
        matchCellB_diag_left hmc
      have hdpos : 1 ≤ dpRun a a alo alo ahi j j :=
        dpRun_pos a a alo alo ahi j j hdiag
      simp only [dpRun]
      rw [if_pos hmc]
      by_cases hbase : i + 1 ≤ alo ∨ j = 0
      · rw [if_pos hbase]
        exact hdpos
      · rw [if_neg hbase]
        push_neg at hbase
        obtain ⟨halo, hj0⟩ := hbase
        by_cases hjle : j ≤ alo
        · have hz : dpRun a a alo alo ahi i (j - 1) = 0 := by
            apply dpRun_zero_of_not
            intro hc
            obtain ⟨_, hc2, _⟩ := (matchCellB_eq_true a a alo ahi i (j - 1)).mp hc
            omega
          rw [hz]
          omega
        · obtain ⟨j2, rfl⟩ : ∃ j2, j = j2 + 1 := ⟨j - 1, by omega⟩
          have hrhs : dpRun a a alo alo ahi (j2 + 1) (j2 + 1) =
              dpRun a a alo alo ahi j2 j2 + 1 := by
            simp only [dpRun]
            rw [if_pos hdiag, if_neg (by omega : ¬(j2 + 1 ≤ alo ∨ j2 + 1 = 0))]
            simp only [Nat.add_sub_cancel]
          rw [hrhs]
          have := ih j2 (by omega)
          simp only [Nat.add_sub_cancel]
          omega
    · rw [dpRun_zero_of_not a a alo alo ahi (i + 1) j hmc]
      omega

theorem flmInner_diag [DecidableEq α] (a : List α) (alo ahi : Nat) (i : Nat)
    (hialo : alo ≤ i) (hiahi : i < ahi) (j2len : Nat → Nat)
    (hj2 : ∀ j, matchCellB a a alo ahi i j = true →
      (if j = 0 then 0 else j2len (j - 1)) + 1 = dpRun a a alo alo ahi i j) :
    ∀ (js : List Nat) (new : Nat → Nat) (st : FlmState),
      js.Pairwise (· < ·) →
      (∀ j ∈ js, j ∈ rowPositions a a i) →
      (∀ j, j ∉ js → new j = dpRun a a alo alo ahi i j) →
      (∀ j ∈ js, new j = 0) →
      st.besti = st.bestj →
      (∀ i2 j, alo ≤ i2 → i2 < i → dpRun a a alo alo ahi i2 j ≤ st.bestsize) →
      (∀ j, matchCellB a a alo ahi i j = true → j ∉ js →
        dpRun a a alo alo ahi i j ≤ st.bestsize) →
      (∀ j, (flmInner alo ahi j2len i js new st).1 j =
        dpRun a a alo alo ahi i j) ∧
      (flmInner alo ahi j2len i js new st).2.besti =
        (flmInner alo ahi j2len i js new st).2.bestj ∧
      (∀ i2 j, alo ≤ i2 → i2 ≤ i → dpRun a a alo alo ahi i2 j ≤
        (flmInner alo ahi j2len i js new st).2.bestsize) := by
  intro js
  induction js with
  | nil =>
    intro new st _ _ hnew _ hdiag hrows hrow
    refine ⟨fun j => hnew j (List.not_mem_nil j), hdiag, ?_⟩
    intro i2 j h1 h2
    rcases Nat.lt_or_ge i2 i with hlt | hge
    · exact hrows i2 j h1 hlt
    · have hi2 : i2 = i := by omega
      subst hi2
      by_cases hmcj : matchCellB a a alo ahi i2 j = true
      · exact hrow j hmcj (List.not_mem_nil j)
      · rw [dpRun_zero_of_not a a alo alo ahi i2 j hmcj]
        omega
  | cons j0 js ihj =>
    intro new st hsort hmem hnew hnew0 hdiag hrows hrow
    obtain ⟨hhead, htail⟩ := List.pairwise_cons.mp hsort
    simp only [flmInner]
    by_cases h1 : j0 < alo
    · rw [if_pos h1]
      apply ihj _ _ htail (fun x hx => hmem x (List.mem_cons_of_mem _ hx))
      · intro j hj
        by_cases hjj0 : j = j0
        · subst hjj0
          rw [hnew0 j (List.mem_cons_self _ _)]
          rw [dpRun_zero_of_not]
          intro hc
          obtain ⟨_, hc2, _⟩ := (matchCellB_eq_true a a alo ahi i j).mp hc
          omega
        · exact hnew j (fun hc => by
            rcases List.mem_cons.mp hc with h | h
            · exact hjj0 h
            · exact hj h)
      · exact fun j hj => hnew0 j (List.mem_cons_of_mem _ hj)
      · exact hdiag
      · exact hrows
      · intro j hmcj hj
        by_cases hjj0 : j = j0
        · subst hjj0
          obtain ⟨_, hc2, _⟩ := (matchCellB_eq_true a a alo ahi i j).mp hmcj
          omega
        · exact hrow j hmcj (fun hc => by
            rcases List.mem_cons.mp hc with h | h
            · exact hjj0 h
            · exact hj h)
    · rw [if_neg h1]
      by_cases h2 : ahi ≤ j0
      · rw [if_pos h2]
        have hzero : ∀ j ∈ j0 :: js, dpRun a a alo alo ahi i j = 0 := by
          intro j hj
          apply dpRun_zero_of_not
          intro hc
          obtain ⟨_, _, hc3⟩ := (matchCellB_eq_true a a alo ahi i j).mp hc
          rcases List.mem_cons.mp hj with rfl | hjs
          · omega
          · have := hhead j hjs
            omega
        refine ⟨?_, hdiag, ?_⟩
        · intro j
          show new j = dpRun a a alo alo ahi i j
          by_cases hj : j ∈ j0 :: js
          · rw [hnew0 j hj, hzero j hj]
          · exact hnew j hj
        · intro i2 j hh1 hh2
          rcases Nat.lt_or_ge i2 i with hlt | hge
          · exact hrows i2 j hh1 hlt
          · have hi2 : i2 = i := by omega
            subst hi2
            by_cases hmcj : matchCellB a a alo ahi i2 j = true
            · by_cases hj : j ∈ j0 :: js
              · rw [hzero j hj]
                omega
              · exact hrow j hmcj hj
            · rw [dpRun_zero_of_not a a alo alo ahi i2 j hmcj]
              omega
      · rw [if_neg h2]
        have hmc : matchCellB a a alo ahi i j0 = true :=
          matchCellB_of_mem_rowPositions (hmem j0 (List.mem_cons_self _ _))
            (by omega) (by omega)
        have hk := hj2 j0 hmc
        by_cases hup : st.bestsize < (if j0 = 0 then 0 else j2len (j0 - 1)) + 1
        · have hij : j0 = i := by
            rcases Nat.lt_trichotomy j0 i with hlt | heq | hgt
            · exfalso
              have hd2 := dpRun_le_low_diag a alo ahi i j0 hlt
              have hwin := (matchCellB_eq_true a a alo ahi i j0).mp hmc
              have hb := hrows j0 j0 hwin.2.1 hlt
              omega
            · exact heq
            · exfalso
              have hd1 := dpRun_le_diag a alo ahi i j0 hialo hiahi
              have hdrow : matchCellB a a alo ahi i i = true :=
                matchCellB_diag_row hmc hialo hiahi
              have hnotin : i ∉ j0 :: js := by
                intro hc
                rcases List.mem_cons.mp hc with h | h
                · omega
                · have := hhead i h
                  omega
              have hb := hrow i hdrow hnotin
              omega
          subst hij
          rw [if_pos hup]
          apply ihj _ _ htail (fun x hx => hmem x (List.mem_cons_of_mem _ hx))
          · intro j hj
            by_cases hjj0 : j = j0
            · subst hjj0
              rw [if_pos rfl]
              exact hk
            · rw [if_neg hjj0]
              exact hnew j (fun hc => by
                rcases List.mem_cons.mp hc with h | h
                · exact hjj0 h
                · exact hj h)
          · intro j hj
            have hne : ¬ j = j0 := by
              intro hc
              subst hc
              have := hhead j hj
              omega
            rw [if_neg hne]
            exact hnew0 j (List.mem_cons_of_mem _ hj)
          · rfl
          · intro i2 j hh1 hh2
            have := hrows i2 j hh1 hh2
            dsimp only
            omega
          · intro j hmcj hj
            dsimp only
            by_cases hjj0 : j = j0
            · subst hjj0
              omega
            · have := hrow j hmcj (fun hc => by
                rcases List.mem_cons.mp hc with h | h
                · exact hjj0 h
                · exact hj h)
              omega
        · rw [if_neg hup]
          apply ihj _ _ htail (fun x hx => hmem x (List.mem_cons_of_mem _ hx))
          · intro j hj
            by_cases hjj0 : j = j0
            · subst hjj0
              rw [if_pos rfl]
              exact hk
            · rw [if_neg hjj0]
              exact hnew j (fun hc => by
                rcases List.mem_cons.mp hc with h | h
                · exact hjj0 h
                · exact hj h)
          · intro j hj
            have hne : ¬ j = j0 := by
              intro hc
              subst hc
              have := hhead j hj
              omega
            rw [if_neg hne]
            exact hnew0 j (List.mem_cons_of_mem _ hj)
          · exact hdiag
          · exact hrows
          · intro j hmcj hj
            by_cases hjj0 : j = j0
            · subst hjj0
              omega
            · exact hrow j hmcj (fun hc => by
                rcases List.mem_cons.mp hc with h | h
                · exact hjj0 h
                · exact hj h)

theorem flmRows_diag [DecidableEq α] (a : List α) (alo ahi : Nat) :
    ∀ (m i0 : Nat) (j2len : Nat → Nat) (st : FlmState),
      alo ≤ i0 → i0 + m ≤ ahi →
      (∀ j, matchCellB a a alo ahi i0 j = true →
        (if j = 0 then 0 else j2len (j - 1)) + 1 =
          dpRun a a alo alo ahi i0 j) →
      st.besti = st.bestj →
      (∀ i2 j, alo ≤ i2 → i2 < i0 →
        dpRun a a alo alo ahi i2 j ≤ st.bestsize) →
      (flmRows a a alo ahi (List.range' i0 m) j2len st).besti =
        (flmRows a a alo ahi (List.range' i0 m) j2len st).bestj := by
  intro m
  induction m with
  | zero =>
    intro i0 j2len st _ _ _ hdiag _
    exact hdiag
  | succ m ihm =>
    intro i0 j2len st h1 h2 hj2 hdiag hrows
    rw [List.range'_succ]
    simp only [flmRows]
    have hin := flmInner_diag a alo ahi i0 h1 (by omega) j2len hj2
      (rowPositions a a i0) (fun _ => 0) st
      (rowPositions_sorted a a i0)
      (fun j hj => hj)
      (fun j hj => (dpRun_zero_of_not a a alo alo ahi i0 j
        (fun hc => hj (mem_rowPositions_of_matchCellB hc))).symm)
      (fun j _ => rfl)
      hdiag hrows
      (fun j hmcj hj => absurd (mem_rowPositions_of_matchCellB hmcj) hj)
    obtain ⟨hnew, hdiag2, hrows2⟩ := hin
    apply ihm (i0 + 1) _ _ (by omega) (by omega) ?_ hdiag2 ?_
    · intro j hmcj
      by_cases hj0 : j = 0
      · subst hj0
        rw [if_pos rfl]
        simp only [dpRun]
        rw [if_pos hmcj, if_pos (Or.inr trivial)]
      · rw [if_neg hj0, hnew (j - 1)]
        simp only [dpRun]
        rw [if_pos hmcj, if_neg (by omega : ¬(i0 + 1 ≤ alo ∨ j = 0))]
    · intro i2 j hh1 hh2
      exact hrows2 i2 j hh1 (by omega)

theorem extendLow_diag [DecidableEq α] (a : List α) :
    ∀ (fuel d s : Nat), d ≤ fuel →
    extendLow a a 0 0 fuel ⟨d, d, s⟩ = ⟨0, 0, s + d⟩ := by
  intro fuel
  induction fuel with
  | zero =>
    intro d s hd
    have hd0 : d = 0 := by omega
    subst hd0
    rfl
  | succ fuel ih =>
    intro d s hd
    simp only [extendLow]
    cases d with
    | zero =>
      rw [if_neg (fun hc => absurd (hc.1 : (0 : Nat) < 0) (Nat.lt_irrefl 0))]
      rfl
    | succ d2 =>
      rw [if_pos ⟨Nat.succ_pos d2, Nat.succ_pos d2, trivial⟩]
      have e1 : s + (d2 + 1) = (s + 1) + d2 := by omega
      rw [e1]
      exact ih d2 (s + 1) (by omega)

theorem extendHigh_self [DecidableEq α] (a : List α) :
    ∀ (fuel s : Nat), s ≤ a.length → a.length - s ≤ fuel →
    extendHigh a a a.length a.length fuel ⟨0, 0, s⟩ = ⟨0, 0, a.length⟩ := by
  intro fuel
  induction fuel with
  | zero =>
    intro s h1 h2
    have hs : s = a.length := by omega
    subst hs
    rfl
  | succ fuel ih =>
    intro s h1 h2
    simp only [extendHigh]
    by_cases hs : s < a.length
    · rw [if_pos ⟨(by omega), (by omega), trivial⟩]
      exact ih (s + 1) (by omega) (by omega)
    · rw [if_neg (fun hc => absurd (hc.1 : 0 + s < a.length) (by omega))]
      have hs2 : s = a.length := by omega
      rw [hs2]

theorem findLongestMatch_self [DecidableEq α] (a : List α) :
    findLongestMatch a a 0 a.length 0 a.length = (0, 0, a.length) := by
  have hst0 : FlmOk a a 0 a.length 0 a.length ⟨0, 0, 0⟩ := by
    refine ⟨?_, ?_, ?_, ?_, ?_, ?_, ?_⟩
    all_goals dsimp only
    case _ => omega
    case _ => omega
    case _ => omega
    case _ => omega
    case _ => omega
    case _ => omega
    exact fun t ht => absurd ht (Nat.not_lt_zero t)
  have hok := flmRows_ok a a 0 a.length 0 a.length (a.length - 0) 0
    (fun _ => 0) ⟨0, 0, 0⟩ (le_refl _) (by omega)
    (fun j hj => absurd rfl hj) hst0
  have hj2base : ∀ j, matchCellB a a 0 a.length 0 j = true →
      (if j = 0 then 0 else (fun _ => (0 : Nat)) (j - 1)) + 1 =
        dpRun a a 0 0 a.length 0 j := by
    intro j hmcj
    rw [dpRun_base a a 0 0 a.length 0 j hmcj (le_refl 0)]
    split <;> rfl
  have hdg := flmRows_diag a 0 a.length (a.length - 0) 0
    (fun _ => 0) ⟨0, 0, 0⟩ (le_refl _) (by omega) hj2base rfl
    (fun i2 j hh1 hh2 => absurd hh2 (by omega))
  rcases hS : flmRows a a 0 a.length (List.range' 0 (a.length - 0))
    (fun _ => 0) ⟨0, 0, 0⟩ with ⟨bi, bj, bs⟩
  rw [hS] at hok hdg
  dsimp only at hdg
  subst hdg
  obtain ⟨o1, o2, o3, o4, o5⟩ := hok
  dsimp only at o1 o2 o3 o4
  have h2 : extendLow a a 0 0 bi ⟨bi, bi, bs⟩ = ⟨0, 0, bs + bi⟩ :=
    extendLow_diag a bi bi bs (le_refl bi)
  have h3 : extendHigh a a a.length a.length a.length ⟨0, 0, bs + bi⟩ =
      ⟨0, 0, a.length⟩ :=
    extendHigh_self a a.length (bs + bi) (by omega) (by omega)
  unfold findLongestMatch
  rw [hS]
  dsimp only
  rw [h2, h3]

theorem matchingBlocks_self [DecidableEq α] (a : List α) (h : a.length ≠ 0) :
    matchingBlocks a a = [(0, 0, a.length), (a.length, a.length, 0)] := by
  have hraw : matchingBlocksRec a a (a.length + a.length + 1)
      0 a.length 0 a.length = [(0, 0, a.length)] := by
    simp only [matchingBlocksRec]
    rw [findLongestMatch_self]
    rw [if_neg h]
    rw [if_neg (fun hc => absurd (hc.1 : (0 : Nat) < 0) (Nat.lt_irrefl 0))]
    rw [if_neg (fun hc =>
      absurd (hc.1 : 0 + a.length < a.length) (by omega))]
    rfl
  show collapseBlocks 0 0 0 (matchingBlocksRec a a (a.length + a.length + 1)
    0 a.length 0 a.length) ++ [(a.length, a.length, 0)] = _
  rw [hraw]
  simp only [collapseBlocks]
  rw [if_pos ⟨trivial, trivial⟩]
  rw [if_pos (by omega : 0 + a.length ≠ 0)]
  simp

theorem getOpcodes_self [DecidableEq α] (a : List α) :
    getOpcodes a a = if a.length = 0 then []
      else [⟨OpTag.equal, 0, a.length, 0, a.length⟩] := by
  by_cases h : a.length = 0
  · rw [if_pos h]
    have hdef : getOpcodes a a = opcodesGo 0 0 (collapseBlocks 0 0 0
        (matchingBlocksRec a a (a.length + a.length + 1) 0 a.length 0
          a.length) ++ [(a.length, a.length, 0)]) := rfl
    rw [hdef, h]
    rfl
  · rw [if_neg h]
    have hdef : getOpcodes a a = opcodesGo 0 0 (matchingBlocks a a) := rfl
    rw [hdef, matchingBlocks_self a h]
    simp [opcodesGo, h]

theorem groupedSingleEqual (q : Nat) :
    groupLoop 3 [] []
      (fixupLast 3 (fixupHead 3 [⟨OpTag.equal, 0, q, 0, q⟩])) = [] := by
  simp only [fixupHead]
  rw [if_pos trivial]
  simp only [fixupLast]
  rw [if_pos trivial]
  simp only [groupLoop]
  rw [if_neg ?c1]
  case c1 =>
    intro hc
    have hx := hc.2
    simp only [sup_eq_max, inf_eq_min] at hx
    omega
  rw [if_neg ?c2]
  case c2 =>
    intro hc
    exact hc.2 ⟨by simp, by simp⟩

theorem getGroupedOpcodes_self [DecidableEq α] (a : List α) :
    getGroupedOpcodes a a = [] := by
  show groupLoop 3 [] [] (fixupLast 3 (fixupHead 3 (if getOpcodes a a = []
    then [⟨OpTag.equal, 0, 1, 0, 1⟩] else getOpcodes a a))) = []
  rw [getOpcodes_self]
  by_cases h : a.length = 0
  · rw [if_pos h, if_pos rfl]
    exact groupedSingleEqual 1
  · rw [if_neg h]
    rw [if_neg (by simp :
      ¬([⟨OpTag.equal, 0, a.length, 0, a.length⟩] : List Opcode) = [])]
    exact groupedSingleEqual a.length

theorem unifiedDiff_self (a : List (List Char)) : unifiedDiff a a = [] := by
  show (if getGroupedOpcodes a a = [] then ([] : List (List Char)) else _) = []
  rw [if_pos (getGroupedOpcodes_self a)]

theorem eq_of_opcodes_all_equal [DecidableEq α] (a b : List α)
    (hall : ∀ c ∈ getOpcodes a b, c.tag = OpTag.equal) : a = b := by
  obtain ⟨bs, heq, hgood, _⟩ := matchingBlocks_struct a b
  have hdrop := opcodes_all_equal bs 0 0 hgood ?_ (by omega) (by omega)
  · rw [List.drop_zero, List.drop_zero] at hdrop
    exact hdrop
  · intro c hc
    apply hall
    show c ∈ opcodesGo 0 0 (matchingBlocks a b)
    rw [heq]
    exact hc

theorem unifiedDiff_ne_of_ne (a b : List (List Char)) (h : ¬ a = b) :
    unifiedDiff a b ≠ [] := by
  have hex : ∃ c ∈ getOpcodes a b, c.tag ≠ OpTag.equal := by
    by_contra hc
    push_neg at hc
    exact h (eq_of_opcodes_all_equal a b hc)
  have hgs := grouped_ne_of_opcode_ne a b hex
  show (if getGroupedOpcodes a b = [] then ([] : List (List Char))
    else (chars "--- python2 stdout" ++ ['\n']) ::
      (chars "+++ python3 stdout" ++ ['\n']) ::
      ((getGroupedOpcodes a b).map (groupLines a b)).join) ≠ []
  rw [if_neg hgs]
  simp

set_option maxHeartbeats 1000000 in
theorem pySplitlines_join : ∀ (n : Nat) (s : List Char), s.length ≤ n →
    (pySplitlines s).join = s := by
  intro n
  induction n with
  | zero =>
    intro s hs
    have h0 : s = [] := List.eq_nil_of_length_eq_zero (by omega)
    subst h0
    rfl
  | succ n ih =>
    intro s hs
    rw [pySplitlines.eq_def]
    split
    · rfl
    · rename_i rest
      show '\r' :: '\n' :: (pySplitlines rest).join = _
      rw [ih rest (by simp at hs; omega)]
    · rename_i c rest hno
      split
      · show c :: (pySplitlines rest).join = _
        rw [ih rest (by simp at hs; omega)]
      · split
        · rename_i hnil
          have hx := ih rest (by simp at hs; omega)
          rw [hnil] at hx
          show [c] = c :: rest
          rw [← hx]
          rfl
        · rename_i l ls hcons
          have hx := ih rest (by simp at hs; omega)
          rw [hcons] at hx
          show c :: (l :: ls).join = c :: rest
          rw [hx]

theorem pySplitlines_inj (s t : List Char)
    (h : pySplitlines s = pySplitlines t) : s = t := by
  have h1 := pySplitlines_join s.length s (le_refl _)
  have h2 := pySplitlines_join t.length t (le_refl _)
  rw [← h1, ← h2, h]

/-- C4: `outputs_match` equals exact equality of the two stdout strings,
and it holds exactly when the unified diff is empty. -/
theorem claim_C4_match_iff_empty_diff (py2 py3 : ExecutionResult) :
    ((compareOutputs py2 py3).outputs_match = true ↔
      py2.stdout = py3.stdout) ∧
    ((compareOutputs py2 py3).outputs_match = true ↔
      (compareOutputs py2 py3).diff_lines = []) := by
  have hm : (compareOutputs py2 py3).outputs_match =
      decide (py2.stdout = py3.stdout) := rfl
  have hd : (compareOutputs py2 py3).diff_lines =
      (unifiedDiff (pySplitlines py2.stdout)
        (pySplitlines py3.stdout)).map rstripNl := rfl
  constructor
  · rw [hm]
    constructor
    · exact of_decide_eq_true
    · exact decide_eq_true
  · rw [hm, hd]
    constructor
    · intro h
      have heq : py2.stdout = py3.stdout := of_decide_eq_true h
      rw [heq, unifiedDiff_self]
      rfl
    · intro h
      by_contra hc
      have hne : ¬ py2.stdout = py3.stdout :=
        fun he => hc (decide_eq_true he)
      have hlne : ¬ pySplitlines py2.stdout = pySplitlines py3.stdout :=
        fun he => hne (pySplitlines_inj _ _ he)
      have hdne := unifiedDiff_ne_of_ne _ _ hlne
      rw [List.map_eq_nil] at h
      exact hdne h

theorem get?_replicate' (n m : Nat) (x : α) :
    (List.replicate n x).get? m = if m < n then some x else none := by
  rw [List.get?_eq_getElem?]
  exact List.getElem?_replicate

theorem flmRows_nilrows [DecidableEq α] (a b : List α) (blo bhi : Nat)
    (hnil : ∀ i, rowPositions a b i = []) :
    ∀ (rows : List Nat) (j2len : Nat → Nat) (st : FlmState),
    flmRows a b blo bhi rows j2len st = st := by
  intro rows
  induction rows with
  | nil =>
    intro j2len st
    rfl
  | cons i rows ih =>
    intro j2len st
    simp only [flmRows, hnil i, flmInner]
    exact ih _ st

theorem matchingBlocks_prefix_purged [DecidableEq α] (a b : List α)
    (hrows : ∀ i, rowPositions a b i = [])
    (hpref : ∀ s, s < a.length → a.get? s = b.get? s)
    (hlen : a.length ≤ b.length) (hne : a.length ≠ 0) :
    matchingBlocks a b = [(0, 0, a.length), (a.length, b.length, 0)] := by
  have hext : ∀ (fuel s : Nat), s ≤ a.length → a.length - s ≤ fuel →
      extendHigh a b a.length b.length fuel ⟨0, 0, s⟩ = ⟨0, 0, a.length⟩ := by
    intro fuel
    induction fuel with
    | zero =>
      intro s h1 h2
      have hs : s = a.length := by omega
      subst hs
      rfl
    | succ fuel ih =>
      intro s h1 h2
      simp only [extendHigh]
      by_cases hs : s < a.length
      · rw [if_pos ⟨(by omega), (by omega), (by simpa using hpref s hs)⟩]
        exact ih (s + 1) (by omega) (by omega)
      · rw [if_neg (fun hc => absurd (hc.1 : 0 + s < a.length) (by omega))]
        have hs2 : s = a.length := by omega
        rw [hs2]
  have hflm : findLongestMatch a b 0 a.length 0 b.length =
      (0, 0, a.length) := by
    unfold findLongestMatch
    rw [flmRows_nilrows a b 0 b.length hrows]
    dsimp only
    rw [show extendLow a b 0 0 0 ⟨0, 0, 0⟩ = ⟨0, 0, 0⟩ from rfl]
    rw [hext a.length 0 (by omega) (by omega)]
  have hraw : matchingBlocksRec a b (a.length + b.length + 1)
      0 a.length 0 b.length = [(0, 0, a.length)] := by
    simp only [matchingBlocksRec]
    rw [hflm]
    rw [if_neg hne]
    rw [if_neg (fun hc => absurd (hc.1 : (0 : Nat) < 0) (Nat.lt_irrefl 0))]
    rw [if_neg (fun hc =>
      absurd (hc.1 : 0 + a.length < a.length) (by omega))]
    rfl
  show collapseBlocks 0 0 0 (matchingBlocksRec a b (a.length + b.length + 1)
    0 a.length 0 b.length) ++ [(a.length, b.length, 0)] = _
  rw [hraw]
  simp only [collapseBlocks]
  rw [if_pos ⟨trivial, trivial⟩]
  rw [if_pos (by omega : 0 + a.length ≠ 0)]
  simp

theorem isPopular_replicate (x : Char) :
    isPopular (List.replicate 20001 x) x = true := by
  unfold isPopular
  have hlen : (positionsOf (List.replicate 20001 x) x).length = 20001 := by
    unfold positionsOf
    rw [List.length_replicate]
    rw [List.filter_eq_self.mpr ?_, List.length_range]
    intro j hj
    rw [List.mem_range] at hj
    rw [get?_replicate', if_pos hj]
    simp
  rw [List.length_replicate, hlen]
  decide

theorem rowPositions_bigX (i : Nat) :
    rowPositions (List.replicate 20000 'x') (List.replicate 20001 'x') i
      = [] := by
  unfold rowPositions
  cases h : (List.replicate 20000 'x').get? i with
  | none => rfl
  | some c =>
    have hcx : c = 'x' := List.eq_of_mem_replicate (List.get?_mem h)
    subst hcx
    show b2jOf (List.replicate 20001 'x') 'x' = []
    unfold b2jOf
    rw [if_pos (isPopular_replicate 'x')]

theorem goodBlocks_drop_eq {a b : List α} :
    ∀ (bs : List (Nat × Nat × Nat)) (i j : Nat),
    GoodBlocks a b (i, j) (a.length, b.length) bs →
    i + matchesSum bs = a.length → j + matchesSum bs = b.length →
    a.drop i = b.drop j := by
  intro bs
  induction bs with
  | nil =>
    intro i j _ h1 h2
    simp [matchesSum] at h1 h2
    rw [h1, h2, List.drop_length, List.drop_length]
  | cons blk rest ih =>
    intro i j hgood h1 h2
    obtain ⟨bi, bj, k⟩ := blk
    obtain ⟨g1, g2, g3, g4, g5, g6, g7⟩ := hgood
    have hsum := goodBlocks_sum rest (bi + k, bj + k) (a.length, b.length) g7
      (by dsimp only; omega) (by dsimp only; omega)
    dsimp only at hsum
    rw [matchesSum_cons] at h1 h2
    dsimp only at h1 h2
    have hbi : bi = i := by omega
    have hbj : bj = j := by omega
    subst hbi
    subst hbj
    exact g6.drop_eq (ih (bi + k) (bj + k) g7 (by omega) (by omega))

theorem ratioOf_bounds [DecidableEq α] (a b : List α) :
    0 ≤ ratioOf a b ∧ ratioOf a b ≤ 1 := by
  unfold ratioOf
  by_cases h0 : a.length + b.length = 0
  · rw [if_pos h0]
    norm_num
  · rw [if_neg h0]
    have hM := matchesSum_le a b
    have hpos : 0 < a.length + b.length := Nat.pos_of_ne_zero h0
    have hden : (0 : ℚ) < (a.length : ℚ) + (b.length : ℚ) := by
      exact_mod_cast hpos
    constructor
    · apply div_nonneg _ (le_of_lt hden)
      positivity
    · rw [div_le_one hden]
      have key : 2 * matchesSum (matchingBlocks a b) ≤ a.length + b.length := by
        omega
      exact_mod_cast key

theorem ratioOf_eq_one_iff [DecidableEq α] (a b : List α) :
    ratioOf a b = 1 ↔ a = b := by
  constructor
  · intro h
    unfold ratioOf at h
    by_cases h0 : a.length + b.length = 0
    · have ha : a = [] := List.length_eq_zero.mp (by omega)
      have hb : b = [] := List.length_eq_zero.mp (by omega)
      rw [ha, hb]
    · rw [if_neg h0] at h
      have hM := matchesSum_le a b
      have hpos : 0 < a.length + b.length := Nat.pos_of_ne_zero h0
      have hden : ((a.length : ℚ) + (b.length : ℚ)) ≠ 0 := by
        have : (0 : ℚ) < (a.length : ℚ) + (b.length : ℚ) := by exact_mod_cast hpos
        exact ne_of_gt this
      rw [div_eq_one_iff_eq hden] at h
      have h2 : 2 * matchesSum (matchingBlocks a b) = a.length + b.length := by
        exact_mod_cast h
      obtain ⟨bs, heq, hgood, hsum⟩ := matchingBlocks_struct a b
      have := goodBlocks_drop_eq bs 0 0 hgood (by omega) (by omega)
      simpa using this
  · intro h
    subst h
    by_cases h0 : a.length = 0
    · unfold ratioOf
      rw [if_pos (by omega)]
    · unfold ratioOf
      rw [if_neg (by omega)]
      rw [matchingBlocks_self a h0]
      have hlen : ((a.length : ℚ)) ≠ 0 := by
        exact_mod_cast h0
      simp only [matchesSum, List.map_cons, List.map_nil, List.sum_cons,
        List.sum_nil]
      field_simp
      ring

theorem compareOutputs_outputs_match_eq (py2 py3 : ExecutionResult) :
    (compareOutputs py2 py3).outputs_match = decide (py2.stdout = py3.stdout) :=
  rfl

theorem roundHalfEven_zero : roundHalfEven 0 = 0 := by
  have : ((0 : ℤ) : ℚ) = 0 := by norm_num
  rw [← this, roundHalfEven_intCast]

/-- C5: corrected form. The reported similarity percentage always lies
in `[0, 100]`; identical stdout gives `100.0`, an empty diff and a
match; the exact (pre-rounding) alignment ratio is `1` exactly for
identical inputs, and it collapses the report to `0.0` when no block
matches anything (with at least one side nonempty). The original biconditional
`similarity_pct = 100 iff identical` fails at the reported (rounded)
value: see the counterexample. -/
theorem claim_C5_amended (py2 py3 : ExecutionResult) :
    (0 ≤ (compareOutputs py2 py3).similarity_pct ∧
      (compareOutputs py2 py3).similarity_pct ≤ 100) ∧
    (py2.stdout = py3.stdout →
      (compareOutputs py2 py3).similarity_pct = 100 ∧
      (compareOutputs py2 py3).outputs_match = true ∧
      (compareOutputs py2 py3).diff_lines = []) ∧
    (ratioOf py2.stdout py3.stdout = 1 ↔ py2.stdout = py3.stdout) ∧
    (py2.stdout.length + py3.stdout.length ≠ 0 →
      matchesSum (matchingBlocks py2.stdout py3.stdout) = 0 →
      (compareOutputs py2 py3).similarity_pct = 0) := by
  have hsim : (compareOutputs py2 py3).similarity_pct =
      (roundHalfEven (ratioOf py2.stdout py3.stdout * 100 * 100) : ℚ) / 100 :=
    rfl
  have hb := ratioOf_bounds py2.stdout py3.stdout
  refine ⟨⟨?_, ?_⟩, ?_, ratioOf_eq_one_iff _ _, ?_⟩
  · rw [hsim]
    apply div_nonneg _ (by norm_num)
    have harg : (0 : ℚ) ≤ ratioOf py2.stdout py3.stdout * 100 * 100 := by
      nlinarith [hb.1]
    exact_mod_cast roundHalfEven_nonneg harg
  · rw [hsim]
    rw [div_le_iff (by norm_num : (0 : ℚ) < 100)]
    have harg : ratioOf py2.stdout py3.stdout * 100 * 100 ≤
        ((10000 : ℤ) : ℚ) := by
      push_cast
      nlinarith [hb.2]
    have := roundHalfEven_le_of_le harg
    have hcast : (roundHalfEven (ratioOf py2.stdout py3.stdout * 100 * 100) : ℚ)
        ≤ ((10000 : ℤ) : ℚ) := by exact_mod_cast this
    calc (roundHalfEven (ratioOf py2.stdout py3.stdout * 100 * 100) : ℚ)
        ≤ ((10000 : ℤ) : ℚ) := hcast
      _ = 100 * 100 := by norm_num
  · intro heq
    refine ⟨?_, ?_, ?_⟩
    · rw [hsim]
      rw [(ratioOf_eq_one_iff py2.stdout py3.stdout).mpr heq]
      rw [show ((1 : ℚ) * 100 * 100) = ((10000 : ℤ) : ℚ) by norm_num]
      rw [roundHalfEven_intCast]
      norm_num
    · show decide (py2.stdout = py3.stdout) = true
      exact decide_eq_true heq
    · show (unifiedDiff (pySplitlines py2.stdout)
        (pySplitlines py3.stdout)).map rstripNl = []
      rw [heq, unifiedDiff_self]
      rfl
  · intro h0 hM
    have hzero : ratioOf py2.stdout py3.stdout = 0 := by
      unfold ratioOf
      rw [if_neg h0, hM]
      norm_num
    rw [hsim, hzero]
    rw [show ((0 : ℚ) * 100 * 100) = 0 by norm_num]
    rw [roundHalfEven_zero]
    norm_num

theorem claim_C5_amended_witness :
    (compareOutputs ⟨some 0, ['a', 'b', 'c'], [], 0, false, false⟩
        ⟨some 0, ['a', 'b', 'c'], [], 0, false, false⟩).similarity_pct = 100 ∧
    (compareOutputs ⟨some 0, ['a', 'b', 'c'], [], 0, false, false⟩
        ⟨some 0, [], [], 0, false, false⟩).similarity_pct = 0 ∧
    (compareOutputs ⟨some 0, ['a', 'b', 'c'], [], 0, false, false⟩
        ⟨some 0, [], [], 0, false, false⟩).outputs_match = false := by
  refine ⟨((claim_C5_amended ⟨some 0, ['a', 'b', 'c'], [], 0, false, false⟩
    ⟨some 0, ['a', 'b', 'c'], [], 0, false, false⟩).2.1 rfl).1, ?_, ?_⟩
  · exact (claim_C5_amended ⟨some 0, ['a', 'b', 'c'], [], 0, false, false⟩
      ⟨some 0, [], [], 0, false, false⟩).2.2.2 (by decide) (by decide)
  · decide

/-- C5 counterexample: the reported rounded percentage is `100.0` for two
different stdouts. With 20000 copies of `x` against 20001 copies, the
character `x` is purged from `b2j` by the autojunk heuristic (it occupies
more than one percent of the second sequence, which is at least 200 long),
so the dynamic program finds nothing, but the final extension step still
grows the empty match across the shared prefix; the ratio 40000/40001
times 100 rounds (half-to-even, 2 digits) to exactly 100.0 although
`outputs_match` is false. So `similarity_pct = 100` does not imply the
stdouts are identical. -/
theorem claim_C5_counterexample :
    (compareOutputs ⟨some 0, List.replicate 20000 'x', [], 0, false, false⟩
        ⟨some 0, List.replicate 20001 'x', [], 0, false, false⟩).similarity_pct
      = 100 ∧
    (compareOutputs ⟨some 0, List.replicate 20000 'x', [], 0, false, false⟩
        ⟨some 0, List.replicate 20001 'x', [], 0, false, false⟩).outputs_match
      = false := by
  constructor
  · have hblocks := matchingBlocks_prefix_purged
      (List.replicate 20000 'x') (List.replicate 20001 'x')
      rowPositions_bigX
      (by
        intro s hs
        rw [List.length_replicate] at hs
        rw [get?_replicate', get?_replicate', if_pos hs, if_pos (by omega)])
      (by rw [List.length_replicate, List.length_replicate]; omega)
      (by rw [List.length_replicate]; omega)
    simp only [List.length_replicate] at hblocks
    have hratio : ratioOf (List.replicate 20000 'x')
        (List.replicate 20001 'x') = 40000 / 40001 := by
      unfold ratioOf
      rw [if_neg (by rw [List.length_replicate, List.length_replicate]; omega)]
      rw [hblocks]
      simp only [matchesSum, List.map_cons, List.map_nil, List.sum_cons,
        List.sum_nil, List.length_replicate]
      norm_num
    have hfl : ⌊(400000000 / 40001 : ℚ)⌋ = 9999 := by
      rw [Int.floor_eq_iff]
      constructor
      · norm_num
      · norm_num
    have hrhe : roundHalfEven (400000000 / 40001 : ℚ) = 10000 := by
      unfold roundHalfEven
      dsimp only
      rw [hfl]
      rw [if_neg (by norm_num), if_pos (by norm_num)]
      norm_num
    show round2 (ratioOf (List.replicate 20000 'x')
      (List.replicate 20001 'x') * 100) = 100
    rw [hratio]
    unfold round2
    rw [show ((40000 / 40001 : ℚ) * 100 * 100) = 400000000 / 40001 by norm_num]
    rw [hrhe]
    norm_num
  · rw [compareOutputs_outputs_match_eq, decide_eq_false_iff_not]
    intro hc
    have h2 : List.replicate 20000 'x' = List.replicate 20001 'x' := hc
    have := congrArg List.length h2
    rw [List.length_replicate, List.length_replicate] at this
    omega

end RepoImporter
